import Mathlib

/-!
# go-clickhouse: the TSV tokenizer (`tsvreader.go`) and the text row decoder (`rows.go`)

A shallow embedding of `tsvReader` (NextRow / HasCols / Bytes / String), of the
`readAll` driver loop of `tsvreader_test.go`, and of `newTextRows` and `textRows.Next`.

Modelling conventions.

* A byte is a natural number; a Go byte slice is a `List Byte`, and where the
  code distinguishes a nil slice from an empty one (`rowBytes`, `rowSlice`, the
  result of `Bytes`) it is an `Option (List Byte)` with `none` for nil.
* The `io.Reader` behind the tokenizer is a state `σ` with a function
  `rd : σ → Nat → ReadResult σ`; `rd st n` is `Read(p)` with `len(p) = n`.
* The Go loops `for { ... }` take a fuel argument and give `none` when it
  runs out; the termination theorems give an explicit sufficient fuel.
* `int` counters (`row`, `col`, `maxCol`) are natural numbers.
* What is declared outside the two files (`DataParser`, `readUnquoted`,
  `ParseTypeDesc`, `NewDataParser`) is a parameter.
* A reader that hands over a stream without error is described by `Delivers`;
  `strings.Reader` and `iotest.OneByteReader` are instances, the test's
  `chunkedReader` is modelled as it is written.
-/

namespace Clickhouse

abbrev Byte := Nat

/-- The row terminator, the byte of `'\n'`. -/
def LF : Byte := 10

/-- The column delimiter, the byte of `'\t'`. -/
def TAB : Byte := 9

/-- Length of `readBuf [16 * 1024]byte`. -/
def readBufLen : Nat := 16 * 1024

/-- Go `error` values that occur in the two files: `io.EOF`, `errors.New(msg)` (also an
argument-free `fmt.Errorf(msg)`), `fmt.Errorf("can not find newline for row #%d", row)` and
`fmt.Errorf("failed to read row #%d: %w", row, cause)`. -/
inductive Error where
  | EOF : Error
  | New (msg : String) : Error
  | noNewline (row : Nat) : Error
  | failedRead (row : Nat) (cause : Error) : Error
  deriving DecidableEq, Repr

/-- The text of an error, as `err.Error()` renders it. -/
def Error.message : Error → String
  | .EOF => "EOF"
  | .New msg => msg
  | .noNewline row => "can not find newline for row #" ++ toString row
  | .failedRead row cause => "failed to read row #" ++ toString row ++ ": " ++ cause.message

/-- What one `Read(p)` call gives back: the `n` bytes written to `p`, `err`, and the reader
afterwards. -/
structure ReadResult (σ : Type) where
  data : List Byte
  err : Option Error
  next : σ

/-- The struct `tsvReader`; `readSlice` is the live part of `readBuf`. -/
structure tsvReader (σ : Type) where
  row : Nat
  col : Nat
  maxCol : Nat
  readSlice : List Byte
  rowBytes : Option (List Byte)
  rowSlice : Option (List Byte)
  r : σ
  err : Option Error

/-- The literal `tsvReader{r: rd}`: every other field has its zero value. -/
def tsvReader.new {σ : Type} (st : σ) : tsvReader σ :=
  { row := 0, col := 0, maxCol := 0, readSlice := [], rowBytes := none, rowSlice := none,
    r := st, err := none }

/-- `bytes.IndexByte(b, c)`: index of the first `c` in `b`, `none` for `-1`. -/
def IndexByte : List Byte → Byte → Option Nat
  | [], _ => none
  | b :: bs, c => if b = c then some 0 else (IndexByte bs c).map (· + 1)

/-- The slice expression `s[:0]`: nil stays nil, any other slice becomes empty and non-nil. -/
def sliceToZero : Option (List Byte) → Option (List Byte)
  | none => none
  | some _ => some []

/-- The call `append(s, xs...)`: appending nothing to a nil slice gives the nil slice back. -/
def goAppend : Option (List Byte) → List Byte → Option (List Byte)
  | none, [] => none
  | none, x :: xs => some (x :: xs)
  | some a, xs => some (a ++ xs)

/-- The method `tsvReader.Error`. -/
def tsvReader.Error {σ : Type} (r : tsvReader σ) : Option Error := r.err

/-- The method `tsvReader.HasCols`. -/
def tsvReader.HasCols {σ : Type} (r : tsvReader σ) : Bool × tsvReader σ :=
  match r.err with
  | some _ => (false, r)
  | none =>
    if r.row = 0 then (false, { r with err := some (Error.New "NextRow must be called before") })
    else (r.rowSlice.isSome, r)

/-- The `for { ... }` loop of `tsvReader.NextRow` (lines 51-80). -/
def tsvReader.NextRow.loop {σ : Type} (rd : σ → Nat → ReadResult σ) :
    Nat → tsvReader σ → Option (Bool × tsvReader σ)
  | 0, _ => none
  | fuel + 1, r =>
    match IndexByte r.readSlice LF with
    | some p =>
      if 1 < r.maxCol ∧ p = 0 then
        tsvReader.NextRow.loop rd fuel { r with readSlice := r.readSlice.drop 1 }
      else
        let rowBytes := goAppend r.rowBytes (r.readSlice.take p)
        some (true, { r with rowBytes := rowBytes, rowSlice := rowBytes,
                             readSlice := r.readSlice.drop (p + 1) })
    | none =>
      let offset := min readBufLen r.readSlice.length
      let res := rd r.r (readBufLen - offset)
      let r1 := { r with readSlice := r.readSlice.take offset ++ res.data, r := res.next }
      match res.err with
      | some Error.EOF =>
        if res.data.length = 0 then
          if 0 < r1.readSlice.length then
            some (false, { r1 with err := some (Error.noNewline r1.row) })
          else some (false, { r1 with err := some Error.EOF })
        else tsvReader.NextRow.loop rd fuel r1
      | some e => some (false, { r1 with err := some (Error.failedRead r1.row e) })
      | none => tsvReader.NextRow.loop rd fuel r1

/-- The method `tsvReader.NextRow`. -/
def tsvReader.NextRow {σ : Type} (rd : σ → Nat → ReadResult σ) (fuel : Nat) (r : tsvReader σ) :
    Option (Bool × tsvReader σ) :=
  match r.err with
  | some _ => some (false, r)
  | none =>
    let r1 := if r.maxCol < r.col then { r with maxCol := r.col } else r
    tsvReader.NextRow.loop rd fuel
      { r1 with row := r1.row + 1, col := 0, rowBytes := sliceToZero r1.rowBytes,
                rowSlice := none }

/-- The method `tsvReader.Bytes`. -/
def tsvReader.Bytes {σ : Type} (r : tsvReader σ) : Option (List Byte) × tsvReader σ :=
  match r.err, r.rowSlice with
  | some _, _ => (none, r)
  | none, none => (none, r)
  | none, some rowSlice =>
    let r1 := { r with col := r.col + 1 }
    match IndexByte rowSlice TAB with
    | some p => (some (rowSlice.take p), { r1 with rowSlice := some (rowSlice.drop (p + 1)) })
    | none => (some rowSlice, { r1 with rowSlice := none })

/-- The method `tsvReader.String`: `string(r.Bytes())`, the empty string for nil. -/
def tsvReader.String {σ : Type} (r : tsvReader σ) : List Byte × tsvReader σ :=
  (r.Bytes.1.getD [], r.Bytes.2)

/-- The inner loop `for r.HasCols() { row = append(row, r.String()) }` of `readAll`. -/
def readAll.cols {σ : Type} : Nat → tsvReader σ → List (List Byte) →
    Option (List (List Byte) × tsvReader σ)
  | 0, _, _ => none
  | fuel + 1, r, row =>
    if r.HasCols.1 then
      readAll.cols fuel r.HasCols.2.String.2 (row ++ [r.HasCols.2.String.1])
    else some (row, r.HasCols.2)

/-- The outer loop `for r.NextRow() { ...; res = append(res, row) }` of `readAll`. -/
def readAll.rows {σ : Type} (rd : σ → Nat → ReadResult σ) :
    Nat → tsvReader σ → List (List (List Byte)) →
    Option (List (List (List Byte)) × tsvReader σ)
  | 0, _, _ => none
  | fuel + 1, r, res =>
    match r.NextRow rd fuel with
    | none => none
    | some (false, r1) => some (res, r1)
    | some (true, r1) =>
      match readAll.cols fuel r1 [] with
      | none => none
      | some (row, r2) => readAll.rows rd fuel r2 (res ++ [row])

/-- The test helper `readAll` followed by `r.Error()`: the rows the driver loop yields and the
error the tokenizer ends with. -/
def readAll {σ : Type} (rd : σ → Nat → ReadResult σ) (fuel : Nat) (r : tsvReader σ) :
    Option (List (List (List Byte)) × Option Error) :=
  (readAll.rows rd fuel r []).map (fun p => (p.1, p.2.Error))

/-- The test reader `chunkedReader`. -/
structure chunkedReader where
  Chunks : List (List Byte)
  nextChunk : Nat

/-- The method `chunkedReader.Read`, for a buffer `p` of length `lenp`. -/
def chunkedReader.Read (r : chunkedReader) (lenp : Nat) : ReadResult chunkedReader :=
  if r.Chunks.length ≤ r.nextChunk then ⟨[], some Error.EOF, r⟩
  else
    let chunk := r.Chunks.getD r.nextChunk []
    if lenp < chunk.length then
      ⟨[], some (Error.New "chunk length is greater than read buffer length"), r⟩
    else ⟨chunk, none, { r with nextChunk := r.nextChunk + 1 }⟩

/-- Go's `strings.Reader`, which the tests put behind the tokenizer: the string and the
reading index. -/
structure stringsReader where
  s : List Byte
  i : Nat

/-- The call `strings.NewReader(s)`. -/
def stringsReader.NewReader (s : List Byte) : stringsReader := ⟨s, 0⟩

/-- The method `strings.Reader.Read` of the standard library: `0, io.EOF` at the end,
otherwise `n = copy(b, r.s[r.i:])` and `r.i += n`. -/
def stringsReader.Read (r : stringsReader) (lenp : Nat) : ReadResult stringsReader :=
  if r.s.length ≤ r.i then ⟨[], some Error.EOF, r⟩
  else ⟨(r.s.drop r.i).take lenp, none, { r with i := r.i + ((r.s.drop r.i).take lenp).length }⟩

/-- A value parser (`DataParser`, declared outside the two files), as far as `textRows.Next`
uses it: `Parse` run on a `bytes.Reader` over the raw column gives a value, an error, and the
number of bytes it has read from that reader. -/
structure ParseResult (V : Type) where
  v : V
  err : Option Error
  consumed : Nat

/-- The interface `DataParser`, reduced to its `Parse` method. -/
structure DataParser (V : Type) where
  Parse : List Byte → ParseResult V

/-- The struct `textRows` without the connection and body handles, which `Next` does not use. -/
structure textRows (σ V : Type) where
  tsv : tsvReader σ
  columns : List (List Byte)
  types : List (List Byte)
  parsers : List (DataParser V)

/-- How a call of `textRows.Next` ends: it returns an `error` (`none` for nil), or an index
expression (`r.parsers[i]`, `dest[i]`) is out of range and the call panics. -/
inductive NextResult where
  | ret (err : Option Error) : NextResult
  | indexOutOfRange : NextResult
  deriving DecidableEq, Repr

/-- The loop `for r.tsv.HasCols() { ... }` of `textRows.Next` with its final
`return r.tsv.Error()` (lines 88-102); `i` is the loop counter. -/
def textRows.Next.loop {σ V : Type} (parsers : List (DataParser V)) :
    Nat → tsvReader σ → Nat → List V → Option (NextResult × tsvReader σ × List V)
  | 0, _, _, _ => none
  | fuel + 1, tsv, i, dest =>
    if tsv.HasCols.1 then
      let raw := tsv.HasCols.2.Bytes.1.getD []
      let tsv1 := tsv.HasCols.2.Bytes.2
      match parsers[i]? with
      | none => some (NextResult.indexOutOfRange, tsv1, dest)
      | some parser =>
        match (parser.Parse raw).err with
        | some e => some (NextResult.ret (some e), tsv1, dest)
        | none =>
          if (parser.Parse raw).consumed < raw.length then
            some (NextResult.ret (some (Error.New "trailing data after parsing the value")),
              tsv1, dest)
          else if i < dest.length then
            textRows.Next.loop parsers fuel tsv1 (i + 1) (dest.set i (parser.Parse raw).v)
          else some (NextResult.indexOutOfRange, tsv1, dest)
    else some (NextResult.ret tsv.HasCols.2.Error, tsv.HasCols.2, dest)

/-- The method `textRows.Next`: the result, the decoder afterwards and `dest` afterwards. -/
def textRows.Next {σ V : Type} (rd : σ → Nat → ReadResult σ) (fuel : Nat) (r : textRows σ V)
    (dest : List V) : Option (NextResult × textRows σ V × List V) :=
  match r.tsv.NextRow rd fuel with
  | none => none
  | some (_, tsv1) =>
    match tsv1.Error with
    | some e => some (NextResult.ret (some e), { r with tsv := tsv1 }, dest)
    | none =>
      (textRows.Next.loop r.parsers fuel tsv1 0 dest).map
        (fun p => (p.1, { r with tsv := p.2.1 }, p.2.2))

/-- The method `textRows.Columns`. -/
def textRows.Columns {σ V : Type} (r : textRows σ V) : List (List Byte) := r.columns

/-- The contract of an `io.Reader` that hands over a byte string in order and then reports
`io.EOF`, stated with an invariant `I s k st`: reader state `st` still has the bytes `s` to
deliver and will answer at most `k` more times with no byte and no error. Each `Read(p)`
returns a leading piece of `s` no longer than `p`, with a nil error, or with `io.EOF` when
nothing is left after it; a `Read` into a non-empty `p` that returns nothing and no error
uses up one of the `k` idle answers. -/
structure Delivers {σ : Type} (rd : σ → Nat → ReadResult σ)
    (I : List Byte → Nat → σ → Prop) : Prop where
  step : ∀ (s : List Byte) (k : Nat) (st : σ) (cap : Nat), I s k st →
    ∃ s1 k1, s = (rd st cap).data ++ s1 ∧ I s1 k1 (rd st cap).next ∧ k1 ≤ k ∧
      (rd st cap).data.length ≤ cap ∧
      ((rd st cap).err = none ∨ ((rd st cap).err = some Error.EOF ∧ s1 = [])) ∧
      ((rd st cap).data = [] → (rd st cap).err = none → 0 < cap → k1 < k)

/-- A reader that, once everything is delivered, answers `0, io.EOF` also to a `Read` into an
empty buffer (as `strings.Reader` does). -/
def EOFOnEmptyBuffer {σ : Type} (rd : σ → Nat → ReadResult σ)
    (I : List Byte → Nat → σ → Prop) : Prop :=
  ∀ (k : Nat) (st : σ), I [] k st → (rd st 0).err = some Error.EOF

/-- The invariant under which `strings.Reader` satisfies `Delivers`: what is left to deliver
is the string from the reading index on. -/
def stringsReader.Inv (s : List Byte) (_k : Nat) (st : stringsReader) : Prop :=
  s = st.s.drop st.i

/-- Put a byte in front of the first piece of a split. -/
def consHead (b : Byte) : List (List Byte) → List (List Byte)
  | [] => [[b]]
  | p :: ps => (b :: p) :: ps

/-- The columns of a line, in the spec's words: the line split at every tab, so that a line
with `k` tabs has `k + 1` columns. -/
def splitTabs : List Byte → List (List Byte)
  | [] => [[]]
  | b :: bs => if b = TAB then [] :: splitTabs bs else consHead b (splitTabs bs)

/-- The input split at line feeds, in the spec's words: the lines that end with a line feed
(without it), and the bytes after the last line feed. -/
def splitLines : List Byte → List (List Byte) × List Byte
  | [] => ([], [])
  | b :: bs =>
    if b = LF then ([] :: (splitLines bs).1, (splitLines bs).2)
    else
      match (splitLines bs).1 with
      | [] => ([], b :: (splitLines bs).2)
      | l :: ls => ((b :: l) :: ls, (splitLines bs).2)

/-- The byte string of a list of lines, each followed by a line feed. -/
def unlines : List (List Byte) → List Byte
  | [] => []
  | l :: ls => l ++ LF :: unlines ls

/-- Every line-feed-terminated line fits in the read window together with its line feed, and
the bytes after the last line feed fit in the read window. -/
def LinesFit (s : List Byte) : Prop :=
  (∀ l ∈ (splitLines s).1, l.length + 1 ≤ readBufLen) ∧ (splitLines s).2.length ≤ readBufLen

/-- The columns the driver loop reads from a yielded line: the line split at tabs, except
that an empty line yielded while `rowBytes` is still nil has no column at all. -/
def rowOf (hasBuf : Bool) (l : List Byte) : List (List Byte) :=
  if l = [] ∧ hasBuf = false then [] else splitTabs l

/-- The rows the driver loop yields for a list of lines, given `m`, the largest number of
columns read in a row so far, and whether `rowBytes` is non-nil: an empty line is skipped
when `1 < m`. -/
def expectRows : Nat → Bool → List (List Byte) → List (List (List Byte))
  | _, _, [] => []
  | m, hasBuf, l :: ls =>
    if l = [] ∧ 1 < m then expectRows m hasBuf ls
    else rowOf hasBuf l :: expectRows (max m (rowOf hasBuf l).length) (hasBuf || !l.isEmpty) ls

/-- The error the tokenizer ends with: `io.EOF` when no byte follows the last line feed,
otherwise the framing error for the row after the `n` yielded ones. -/
def expectErr (n : Nat) (t : List Byte) : Error :=
  if t = [] then Error.EOF else Error.noNewline (n + 1)

/-- Go's `iotest.OneByteReader` around a `strings.Reader`: the wrapped reader. -/
structure oneByteReader where
  r : stringsReader

/-- The method `Read` of `iotest.OneByteReader`: `0, nil` for an empty buffer, otherwise
`r.r.Read(p[0:1])`, so the stream arrives cut into chunks of one byte. -/
def oneByteReader.Read (r : oneByteReader) (lenp : Nat) : ReadResult oneByteReader :=
  if lenp = 0 then ⟨[], none, r⟩
  else ⟨(r.r.Read 1).data, (r.r.Read 1).err, ⟨(r.r.Read 1).next⟩⟩

/-- The invariant under which `iotest.OneByteReader` satisfies `Delivers`. -/
def oneByteReader.Inv (s : List Byte) (k : Nat) (st : oneByteReader) : Prop :=
  stringsReader.Inv s k st.r

/-- The columns the tokenizer has still to hand out for the current row: none when the row
view is nil, otherwise the row view split at tabs. -/
def pendingCols {σ : Type} (r : tsvReader σ) : List (List Byte) :=
  match r.rowSlice with
  | none => []
  | some l => splitTabs l

/-- The columns of the row that the next `NextRow` call yields, when it yields one. -/
def nextRowCols {σ : Type} (rd : σ → Nat → ReadResult σ) (fuel : Nat) (r : tsvReader σ) :
    Option (List (List Byte)) :=
  (r.NextRow rd fuel).bind (fun p => if p.1 then some (pendingCols p.2) else none)

/-- The body of the loop of `textRows.Next` run over a list of raw columns: what the loop
returns and `dest` afterwards, when the tokenizer has no error and hands out `cols`. -/
def decodeRow {V : Type} (parsers : List (DataParser V)) :
    List (List Byte) → Nat → List V → NextResult × List V
  | [], _, dest => (NextResult.ret none, dest)
  | raw :: cols, i, dest =>
    match parsers[i]? with
    | none => (NextResult.indexOutOfRange, dest)
    | some parser =>
      match (parser.Parse raw).err with
      | some e => (NextResult.ret (some e), dest)
      | none =>
        if (parser.Parse raw).consumed < raw.length then
          (NextResult.ret (some (Error.New "trailing data after parsing the value")), dest)
        else if i < dest.length then
          decodeRow parsers cols (i + 1) (dest.set i (parser.Parse raw).v)
        else (NextResult.indexOutOfRange, dest)

/-- The loop `for tsv.HasCols() { v, err := readUnquoted(...tsv.String()...); ... }` of
`newTextRows` (lines 25-31); `readUnquoted` is declared outside the two files. -/
def newTextRows.types {σ : Type} (readUnquoted : List Byte → Except Error (List Byte)) :
    Nat → tsvReader σ → List (List Byte) →
    Option (Except Error (List (List Byte) × tsvReader σ))
  | 0, _, _ => none
  | fuel + 1, tsv, types =>
    if tsv.HasCols.1 then
      match readUnquoted tsv.HasCols.2.String.1 with
      | .error e => some (.error e)
      | .ok v => newTextRows.types readUnquoted fuel tsv.HasCols.2.String.2 (types ++ [v])
    else some (.ok (types, tsv.HasCols.2))

/-- The loop `for i, typ := range types { ... }` of `newTextRows` (lines 38-52);
`ParseTypeDesc` and `NewDataParser` (with its options) are declared outside the two files. -/
def newTextRows.parsers {V D : Type} (ParseTypeDesc : List Byte → Except Error D)
    (NewDataParser : D → Except Error (DataParser V)) :
    List (List Byte) → Except Error (List (DataParser V))
  | [] => .ok []
  | typ :: types =>
    match ParseTypeDesc typ with
    | .error e => .error e
    | .ok desc =>
      match NewDataParser desc with
      | .error e => .error e
      | .ok parser =>
        match newTextRows.parsers ParseTypeDesc NewDataParser types with
        | .error e => .error e
        | .ok ps => .ok (parser :: ps)

/-- The function `newTextRows`: the decoder, or the error it returns instead. The loop over
the first row is the loop of `readAll` (`columns = append(columns, tsv.String())`). -/
def newTextRows {σ V D : Type} (rd : σ → Nat → ReadResult σ)
    (readUnquoted : List Byte → Except Error (List Byte))
    (ParseTypeDesc : List Byte → Except Error D)
    (NewDataParser : D → Except Error (DataParser V)) (fuel : Nat) (body : σ) :
    Option (Except Error (textRows σ V)) :=
  match (tsvReader.new body).NextRow rd fuel with
  | none => none
  | some (b1, tsv1) =>
    match (if b1 then readAll.cols fuel tsv1 [] else some ([], tsv1)) with
    | none => none
    | some (columns, tsv2) =>
      match tsv2.NextRow rd fuel with
      | none => none
      | some (b2, tsv3) =>
        match (if b2 then newTextRows.types readUnquoted fuel tsv3 []
               else some (.ok ([], tsv3))) with
        | none => none
        | some (.error e) => some (.error e)
        | some (.ok (types, tsv4)) =>
          match tsv4.Error with
          | some e => some (.error e)
          | none =>
            match newTextRows.parsers ParseTypeDesc NewDataParser types with
            | .error e => some (.error e)
            | .ok parsers =>
              some (.ok { tsv := tsv4, columns := columns, types := types, parsers := parsers })

/-- A value parser for the examples: it reads one decimal digit and gives its value, and
fails on anything else. -/
def digitParser : DataParser Nat :=
  ⟨fun raw =>
    match raw with
    | [] => ⟨0, some (Error.New "unexpected end of input"), 0⟩
    | b :: _ =>
      if 48 ≤ b ∧ b ≤ 57 then ⟨b - 48, none, 1⟩
      else ⟨0, some (Error.New "not a digit"), 1⟩⟩

/-- The two header rows of the example streams: `"n\tm\nT\tU\n"`. -/
def exampleHeader : List Byte := [110, 9, 109, 10, 84, 9, 85, 10]

/-- The decoder that `newTextRows` returns for the body `exampleHeader ++ data` behind a
`strings.Reader`, with `digitParser` for both columns, when the body fits in the read
window: both header rows are read, the data rows are in the window, the reader is at its
end. -/
def exampleRows (data : List Byte) : textRows stringsReader Nat :=
  { tsv :=
      { row := 2, col := 2, maxCol := 2, readSlice := data, rowBytes := some [84, 9, 85],
        rowSlice := none, r := ⟨exampleHeader ++ data, (exampleHeader ++ data).length⟩,
        err := none },
    columns := [[110], [109]], types := [[84], [85]], parsers := [digitParser, digitParser] }

/-- A stream of one row that does not fit in the read window: 16384 times `a`, then a line
feed. -/
def longRow : List Byte := List.replicate readBufLen 97 ++ [LF]

/-- A stream whose second row does not fit in the read window: `"a\tb\n"`, then 16384 times
`x`, then a line feed. -/
def longSecondRow : List Byte := [97, TAB, 98] ++ LF :: (List.replicate readBufLen 120 ++ [LF])

/-- A body whose first header row does not fit in the read window: 16384 times `a` and a
line feed, then the type row `"T\n"`. -/
def longHeader : List Byte := List.replicate readBufLen 97 ++ [LF, 84, LF]

/-- A value parser for the examples that accepts every column and reads all of it, as a
parser of strings does; the value is the number of bytes. -/
def lengthParser : DataParser Nat := ⟨fun raw => ⟨raw.length, none, raw.length⟩⟩

/-- A row of digits that does not fit in the read window: 16384 times `4`, then a line
feed. -/
def longDigitRow : List Byte := List.replicate readBufLen 52 ++ [LF]

/-- The operations a caller can run on a tokenizer. -/
inductive Op where
  | nextRow : Op
  | hasCols : Op
  | bytes : Op
  | string : Op
  deriving DecidableEq, Repr

/-- What an operation gives back. -/
inductive Ret where
  | bool (b : Bool) : Ret
  | bytes (b : Option (List Byte)) : Ret
  | string (s : List Byte) : Ret
  deriving DecidableEq, Repr

/-- The value an operation gives back without doing anything: `false`, `false`, `nil`,
`""`. -/
def Op.inert : Op → Ret
  | .nextRow => Ret.bool false
  | .hasCols => Ret.bool false
  | .bytes => Ret.bytes none
  | .string => Ret.string []

/-- One call of an operation: what it gives back and the tokenizer afterwards. -/
def tsvReader.call {σ : Type} (rd : σ → Nat → ReadResult σ) (fuel : Nat) (r : tsvReader σ) :
    Op → Option (Ret × tsvReader σ)
  | .nextRow => (r.NextRow rd fuel).map (fun p => (Ret.bool p.1, p.2))
  | .hasCols => some (Ret.bool r.HasCols.1, r.HasCols.2)
  | .bytes => some (Ret.bytes r.Bytes.1, r.Bytes.2)
  | .string => some (Ret.string r.String.1, r.String.2)

/-- A sequence of calls, one after the other: the tokenizer after the last one. -/
def tsvReader.calls {σ : Type} (rd : σ → Nat → ReadResult σ) (fuel : Nat) :
    List Op → tsvReader σ → Option (tsvReader σ)
  | [], r => some r
  | op :: ops, r =>
    match r.call rd fuel op with
    | none => none
    | some (_, r1) => tsvReader.calls rd fuel ops r1

/-- The statements of `tsvReader.NextRow` between the error check and the loop (lines 43-50):
the tokenizer as the loop finds it. -/
def tsvReader.NextRow.enter {σ : Type} (r : tsvReader σ) : tsvReader σ :=
  let r1 := if r.maxCol < r.col then { r with maxCol := r.col } else r
  { r1 with row := r1.row + 1, col := 0, rowBytes := sliceToZero r1.rowBytes, rowSlice := none }

/-- The loop of `tsvReader.NextRow` while it is looking for the line feed: the tokenizer after
`n` turns of the loop none of which has returned (a skipped empty line, or a `Read` that gave
no line feed and no reason to stop), `none` when one of them returns. -/
def tsvReader.NextRow.seek {σ : Type} (rd : σ → Nat → ReadResult σ) :
    Nat → tsvReader σ → Option (tsvReader σ)
  | 0, r => some r
  | n + 1, r =>
    match IndexByte r.readSlice LF with
    | some p =>
      if 1 < r.maxCol ∧ p = 0 then
        tsvReader.NextRow.seek rd n { r with readSlice := r.readSlice.drop 1 }
      else none
    | none =>
      let offset := min readBufLen r.readSlice.length
      let res := rd r.r (readBufLen - offset)
      let r1 := { r with readSlice := r.readSlice.take offset ++ res.data, r := res.next }
      match res.err with
      | some Error.EOF =>
        if res.data.length = 0 then none else tsvReader.NextRow.seek rd n r1
      | some _ => none
      | none => tsvReader.NextRow.seek rd n r1

/-- The count of consumed columns, in the spec's words, kept next to a run of operations:
`cur` is the number of `Bytes`/`String` calls that handed out a column (the inner `Bytes`
returned a non-nil slice) since the last `NextRow` call, `best` the largest such number among
the rows that a `NextRow` call has closed. The result is the tokenizer after the run with the
two counts. -/
def tsvReader.consumed {σ : Type} (rd : σ → Nat → ReadResult σ) (fuel : Nat) :
    List Op → tsvReader σ → Nat → Nat → Option (tsvReader σ × Nat × Nat)
  | [], r, cur, best => some (r, cur, best)
  | op :: ops, r, cur, best =>
    match r.call rd fuel op with
    | none => none
    | some (_, r1) =>
      match op with
      | .nextRow => tsvReader.consumed rd fuel ops r1 0 (max best cur)
      | .hasCols => tsvReader.consumed rd fuel ops r1 cur best
      | .bytes =>
        tsvReader.consumed rd fuel ops r1 (if r.Bytes.1.isSome then cur + 1 else cur) best
      | .string =>
        tsvReader.consumed rd fuel ops r1 (if r.Bytes.1.isSome then cur + 1 else cur) best

/-! ## Lemmas on the byte-level helpers -/

theorem IndexByte_eq_none {l : List Byte} {c : Byte} (h : c ∉ l) : IndexByte l c = none := by
  induction l with
  | nil => rfl
  | cons b bs ih =>
    have hb : ¬ b = c := fun e => h (by simp [e])
    have hbs : c ∉ bs := fun e => h (by simp [e])
    simp [IndexByte, hb, ih hbs]

theorem IndexByte_append_cons {pre : List Byte} {c : Byte} (post : List Byte) (h : c ∉ pre) :
    IndexByte (pre ++ c :: post) c = some pre.length := by
  induction pre with
  | nil => simp [IndexByte]
  | cons b bs ih =>
    have hb : ¬ b = c := fun e => h (by simp [e])
    have hbs : c ∉ bs := fun e => h (by simp [e])
    simp [IndexByte, hb, ih hbs]

theorem IndexByte_some {l : List Byte} {c : Byte} {p : Nat} (h : IndexByte l c = some p) :
    ∃ pre post, l = pre ++ c :: post ∧ c ∉ pre ∧ pre.length = p := by
  induction l generalizing p with
  | nil => simp [IndexByte] at h
  | cons b bs ih =>
    by_cases hb : b = c
    · simp [IndexByte, hb] at h
      exact ⟨[], bs, by simp [hb], by simp, by simp [h]⟩
    · simp only [IndexByte, hb, if_false, Option.map_eq_some'] at h
      obtain ⟨q, hq, rfl⟩ := h
      obtain ⟨pre, post, rfl, hpre, rfl⟩ := ih hq
      refine ⟨b :: pre, post, by simp, ?_, by simp⟩
      simp only [List.mem_cons, not_or]
      exact ⟨fun e => hb e.symm, hpre⟩

theorem not_mem_of_IndexByte_none {l : List Byte} {c : Byte} (h : IndexByte l c = none) :
    c ∉ l := by
  intro hc
  obtain ⟨pre, post, rfl⟩ := List.append_of_mem hc
  induction pre with
  | nil => simp [IndexByte] at h
  | cons b bs ih =>
    by_cases hb : b = c
    · simp [IndexByte, hb] at h
    · simp only [List.cons_append, IndexByte, hb, if_false, Option.map_eq_none'] at h
      exact ih h (by simp)

/-- The first delimiter of a byte string determines the piece before it and the rest. -/
theorem first_delim_unique {c : Byte} {a b x y : List Byte} (ha : c ∉ a) (hb : c ∉ b)
    (h : a ++ c :: x = b ++ c :: y) : a = b ∧ x = y := by
  induction a generalizing b with
  | nil =>
    cases b with
    | nil => simpa using h
    | cons b0 bs =>
      simp only [List.nil_append, List.cons_append, List.cons.injEq] at h
      exact absurd (by simp [h.1]) hb
  | cons a0 as ih =>
    cases b with
    | nil =>
      simp only [List.nil_append, List.cons_append, List.cons.injEq] at h
      exact absurd (by simp [h.1]) ha
    | cons b0 bs =>
      simp only [List.cons_append, List.cons.injEq] at h
      have := ih (b := bs) (fun e => ha (by simp [e])) (fun e => hb (by simp [e])) h.2
      exact ⟨by rw [h.1, this.1], this.2⟩

/-- A delimiter-free beginning of a byte string is no longer than the piece before the first
delimiter. -/
theorem length_le_of_no_delim {c : Byte} {w s line tail : List Byte} (hw : c ∉ w)
    (h : w ++ s = line ++ c :: tail) : w.length ≤ line.length := by
  induction w generalizing line with
  | nil => simp
  | cons a ws ih =>
    cases line with
    | nil =>
      simp only [List.nil_append, List.cons_append, List.cons.injEq] at h
      exact absurd (by simp [h.1]) hw
    | cons l0 ls =>
      simp only [List.cons_append, List.cons.injEq] at h
      have := @ih ls (fun e => hw (by simp [e])) h.2
      simp only [List.length_cons]
      omega

/-! ## The loop of `NextRow` on a stream that is being delivered -/

/-- The loop of `NextRow` finds the next row: when window and reader together still hold `j`
line feeds the policy skips, then `line`, a line feed and `tail`, and `line` fits in the
window with its line feed, the loop returns true with `line` appended to `rowBytes`, and
window and reader then hold `tail`. Fuel above `2 * |s| + |window| + k` is enough. -/
theorem loop_yield {σ : Type} (rd : σ → Nat → ReadResult σ) (I : List Byte → Nat → σ → Prop)
    (hd : Delivers rd I) :
    ∀ (fuel : Nat) (r : tsvReader σ) (s : List Byte) (k j : Nat) (line tail : List Byte),
      I s k r.r →
      r.readSlice ++ s = List.replicate j LF ++ (line ++ LF :: tail) →
      (j = 0 ∨ 1 < r.maxCol) → (1 < r.maxCol → line ≠ []) → LF ∉ line →
      line.length + 1 ≤ readBufLen →
      2 * s.length + r.readSlice.length + k < fuel →
      ∃ r1 s1 k1, tsvReader.NextRow.loop rd fuel r = some (true, r1) ∧
        r1.row = r.row ∧ r1.col = r.col ∧ r1.maxCol = r.maxCol ∧ r1.err = r.err ∧
        r1.rowBytes = goAppend r.rowBytes line ∧ r1.rowSlice = goAppend r.rowBytes line ∧
        I s1 k1 r1.r ∧ r1.readSlice ++ s1 = tail ∧
        2 * s1.length + r1.readSlice.length + k1 < 2 * s.length + r.readSlice.length + k := by
  intro fuel
  induction fuel with
  | zero => intro r s k j line tail _ _ _ _ _ _ hf; omega
  | succ fuel ih =>
    intro r s k j line tail hI hrest hj hne hline hfit hf
    obtain ⟨row, col, maxCol, w, rb, rs, st, err⟩ := r
    simp only at hI hrest hj hne hf ⊢
    rw [tsvReader.NextRow.loop]
    cases hidx : IndexByte w LF with
    | some p =>
      obtain ⟨pre, post, rfl, hpre, rfl⟩ := IndexByte_some hidx
      simp only
      by_cases hskip : 1 < maxCol ∧ pre.length = 0
      · rw [if_pos hskip]
        have hpre0 : pre = [] := List.length_eq_zero.mp hskip.2
        subst hpre0
        cases j with
        | zero =>
          simp only [List.replicate_zero, List.nil_append, List.append_assoc,
            List.cons_append] at hrest
          have := (first_delim_unique (List.not_mem_nil _) hline hrest).1
          exact absurd this.symm (hne hskip.1)
        | succ j =>
          simp only [List.replicate_succ, List.nil_append, List.cons_append,
            List.cons.injEq, true_and] at hrest
          obtain ⟨r1, s1, k1, h1, h2, h3, h4, h5, h6, h7, h8, h9, h10⟩ :=
            ih ⟨row, col, maxCol, post, rb, rs, st, err⟩ s k j line tail hI
              (by simpa using hrest) (Or.inr hskip.1) hne hline hfit
              (by simp only [List.length_append, List.length_cons, List.length_nil] at hf ⊢; omega)
          refine ⟨r1, s1, k1, by simpa using h1, h2, h3, h4, h5, h6, h7, h8, h9, ?_⟩
          simp only [List.length_append, List.length_cons, List.length_nil] at h10 ⊢
          omega
      · rw [if_neg hskip]
        have hj0 : j = 0 := by
          rcases hj with hj | hj
          · exact hj
          · by_contra hjne
            obtain ⟨j', rfl⟩ := Nat.exists_eq_succ_of_ne_zero hjne
            cases pre with
            | nil => exact hskip ⟨hj, rfl⟩
            | cons a as =>
              simp only [List.replicate_succ, List.cons_append, List.cons.injEq] at hrest
              exact hpre (by simp [hrest.1])
        subst hj0
        simp only [List.replicate_zero, List.nil_append, List.append_assoc,
          List.cons_append] at hrest
        obtain ⟨rfl, rfl⟩ := first_delim_unique hpre hline hrest
        refine ⟨_, s, k, rfl, rfl, rfl, rfl, rfl, ?_, ?_, hI, ?_, ?_⟩
        · simp
        · simp
        · simp
        · simp only [List.length_append, List.length_cons, List.drop_left', List.drop_left]
          simp
          omega
    | none =>
      have hw : LF ∉ w := not_mem_of_IndexByte_none hidx
      have hwlen : w.length < readBufLen := by
        cases j with
        | zero =>
          simp only [List.replicate_zero, List.nil_append] at hrest
          have := length_le_of_no_delim hw hrest
          omega
        | succ j =>
          cases w with
          | nil => simp [readBufLen]
          | cons a ws =>
            simp only [List.replicate_succ, List.cons_append, List.cons.injEq] at hrest
            exact absurd (by simp [hrest.1]) hw
      obtain ⟨s1, k1, hs, hI1, hk, hlen, herr, hstall⟩ :=
        hd.step s k st (readBufLen - min readBufLen w.length) hI
      have hmin : min readBufLen w.length = w.length := by omega
      have hsne : s ≠ [] := by
        intro hs0
        subst hs0
        rw [List.append_nil] at hrest
        apply hw
        rw [hrest]
        simp
      simp only [hmin, List.take_length] at hs hI1 hlen herr hstall ⊢
      generalize hres : rd st (readBufLen - w.length) = res at hs hI1 hlen herr hstall
      obtain ⟨d, e, nx⟩ := res
      simp only at hs hI1 hlen herr hstall ⊢
      have hprog : 2 * s1.length + (w ++ d).length + k1 < 2 * s.length + w.length + k := by
        subst hs
        simp only [List.length_append]
        cases d with
        | nil =>
          rcases herr with he | ⟨_, he⟩
          · have := hstall rfl he (by omega)
            simp; omega
          · subst he
            exact absurd (by simp) hsne
        | cons d0 ds => simp only [List.length_cons]; omega
      have hcont : ∃ r1 s1 k1, tsvReader.NextRow.loop rd fuel
            ⟨row, col, maxCol, w ++ d, rb, rs, nx, err⟩ = some (true, r1) ∧
          r1.row = row ∧ r1.col = col ∧ r1.maxCol = maxCol ∧ r1.err = err ∧
          r1.rowBytes = goAppend rb line ∧ r1.rowSlice = goAppend rb line ∧
          I s1 k1 r1.r ∧ r1.readSlice ++ s1 = tail ∧
          2 * s1.length + r1.readSlice.length + k1 < 2 * s.length + w.length + k := by
        obtain ⟨r2, s2, k2, h1, h2, h3, h4, h5, h6, h7, h8, h9, h10⟩ :=
          ih ⟨row, col, maxCol, w ++ d, rb, rs, nx, err⟩ s1 k1 j line tail hI1
            (by simp only [List.append_assoc]; rw [← hs]; exact hrest) hj hne hline hfit
            (by simp only at hprog ⊢; omega)
        exact ⟨r2, s2, k2, h1, h2, h3, h4, h5, h6, h7, h8, h9, by simp only at h10; omega⟩
      rcases herr with he | ⟨he, hs1⟩
      · subst he
        simpa using hcont
      · subst he
        have hd0 : d ≠ [] := by
          intro hd0
          subst hd0 hs1
          exact hsne (by simpa using hs)
        have : ¬ d.length = 0 := fun h0 => hd0 (List.length_eq_zero.mp h0)
        simp only [this, if_false]
        exact hcont

/-- The loop of `NextRow` at the end of the stream: when window and reader together hold only
line feeds the policy skips and then `t` without a line feed, the loop returns false with
`io.EOF` for an empty `t` and with the framing error for the current row otherwise. -/
theorem loop_end {σ : Type} (rd : σ → Nat → ReadResult σ) (I : List Byte → Nat → σ → Prop)
    (hd : Delivers rd I) :
    ∀ (fuel : Nat) (r : tsvReader σ) (s : List Byte) (k j : Nat) (t : List Byte),
      I s k r.r →
      r.readSlice ++ s = List.replicate j LF ++ t →
      (j = 0 ∨ 1 < r.maxCol) → LF ∉ t →
      t.length ≤ readBufLen → (t.length = readBufLen → EOFOnEmptyBuffer rd I) →
      2 * s.length + r.readSlice.length + k < fuel →
      ∃ r1, tsvReader.NextRow.loop rd fuel r = some (false, r1) ∧
        r1.row = r.row ∧ r1.col = r.col ∧ r1.maxCol = r.maxCol ∧
        r1.rowBytes = r.rowBytes ∧ r1.rowSlice = r.rowSlice ∧
        r1.err = some (if t = [] then Error.EOF else Error.noNewline r.row) := by
  intro fuel
  induction fuel with
  | zero => intro r s k j t _ _ _ _ _ _ hf; omega
  | succ fuel ih =>
    intro r s k j t hI hrest hj ht hfit heof hf
    obtain ⟨row, col, maxCol, w, rb, rs, st, err⟩ := r
    simp only at hI hrest hj hf ⊢
    rw [tsvReader.NextRow.loop]
    cases hidx : IndexByte w LF with
    | some p =>
      obtain ⟨pre, post, rfl, hpre, rfl⟩ := IndexByte_some hidx
      simp only
      cases j with
      | zero =>
        simp only [List.replicate_zero, List.nil_append] at hrest
        exact absurd (by rw [← hrest]; simp) ht
      | succ j =>
        have hmc : 1 < maxCol := by
          rcases hj with hj | hj
          · omega
          · exact hj
        have hpre0 : pre = [] := by
          cases pre with
          | nil => rfl
          | cons a as =>
            simp only [List.replicate_succ, List.cons_append, List.cons.injEq] at hrest
            exact absurd (by simp [hrest.1]) hpre
        subst hpre0
        rw [if_pos ⟨hmc, rfl⟩]
        simp only [List.replicate_succ, List.nil_append, List.cons_append,
          List.cons.injEq, true_and] at hrest
        obtain ⟨r1, h1, h2, h3, h4, h5, h6, h7⟩ :=
          ih ⟨row, col, maxCol, post, rb, rs, st, err⟩ s k j t hI
            (by simpa using hrest) (Or.inr hmc) ht hfit heof
            (by simp only [List.length_append, List.length_cons, List.length_nil] at hf ⊢; omega)
        exact ⟨r1, by simpa using h1, h2, h3, h4, h5, h6, h7⟩
    | none =>
      have hw : LF ∉ w := not_mem_of_IndexByte_none hidx
      have hjw : (j = 0 ∧ w ++ s = t) ∨ w = [] := by
        cases j with
        | zero => left; simpa using hrest
        | succ j =>
          right
          cases w with
          | nil => rfl
          | cons a ws =>
            simp only [List.replicate_succ, List.cons_append, List.cons.injEq] at hrest
            exact absurd (by simp [hrest.1]) hw
      have hwlen : w.length ≤ readBufLen := by
        rcases hjw with ⟨_, h⟩ | h
        · have : w.length + s.length = t.length := by rw [← h, List.length_append]
          omega
        · simp [h]
      have hmin : min readBufLen w.length = w.length := by omega
      obtain ⟨s1, k1, hs, hI1, hk, hlen, herr, hstall⟩ :=
        hd.step s k st (readBufLen - min readBufLen w.length) hI
      have hfull : readBufLen - w.length = 0 → (rd st (readBufLen - w.length)).err ≠ none := by
        intro hcap
        have hwl : w.length = readBufLen := by omega
        rcases hjw with ⟨_, h⟩ | h
        · have hl : w.length + s.length = t.length := by rw [← h, List.length_append]
          have hs0 : s = [] := List.length_eq_zero.mp (by omega)
          subst hs0
          have := heof (by omega) k st hI
          rw [hcap, this]
          simp
        · rw [h] at hwl
          simp [readBufLen] at hwl
      simp only [hmin, List.take_length] at hs hI1 hlen herr hstall ⊢
      generalize hres : rd st (readBufLen - w.length) = res at hs hI1 hlen herr hstall hfull
      obtain ⟨d, e, nx⟩ := res
      simp only at hs hI1 hlen herr hstall hfull ⊢
      have hcont : (d ≠ [] ∨ e = none) →
          ∃ r1, tsvReader.NextRow.loop rd fuel ⟨row, col, maxCol, w ++ d, rb, rs, nx, err⟩ =
              some (false, r1) ∧
            r1.row = row ∧ r1.col = col ∧ r1.maxCol = maxCol ∧ r1.rowBytes = rb ∧
            r1.rowSlice = rs ∧
            r1.err = some (if t = [] then Error.EOF else Error.noNewline row) := by
        intro hde
        have hprog : 2 * s1.length + (w ++ d).length + k1 < 2 * s.length + w.length + k := by
          subst hs
          simp only [List.length_append]
          cases d with
          | nil =>
            rcases hde with hde | hde
            · exact absurd rfl hde
            · have := hstall rfl hde (by
                by_contra hc
                exact hfull (by omega) hde)
              simp; omega
          | cons d0 ds => simp only [List.length_cons]; omega
        exact ih ⟨row, col, maxCol, w ++ d, rb, rs, nx, err⟩ s1 k1 j t hI1
          (by simp only [List.append_assoc]; rw [← hs]; exact hrest) hj ht hfit heof
          (by simp only at hprog ⊢; omega)
      rcases herr with he | ⟨he, hs1⟩
      · subst he
        simpa using hcont (Or.inr rfl)
      · subst he
        by_cases hd0 : d = []
        · subst hd0 hs1
          simp only [List.nil_append] at hs
          subst hs
          simp only [List.append_nil] at hrest
          have hj0 : j = 0 := by
            rcases hjw with ⟨h, _⟩ | h
            · exact h
            · subst h
              cases j with
              | zero => rfl
              | succ j => simp at hrest
          subst hj0
          simp only [List.replicate_zero, List.nil_append] at hrest
          subst hrest
          simp only [List.length_nil, if_true, List.append_nil]
          by_cases hw0 : w = []
          · subst hw0
            rw [if_neg (by simp)]
            exact ⟨_, rfl, rfl, rfl, rfl, rfl, rfl, by simp⟩
          · have : 0 < w.length := List.length_pos.mpr hw0
            rw [if_pos this]
            exact ⟨_, rfl, rfl, rfl, rfl, rfl, rfl, by simp [hw0]⟩
        · have : ¬ d.length = 0 := fun h0 => hd0 (List.length_eq_zero.mp h0)
          simp only [this, if_false]
          exact hcont (Or.inl hd0)

theorem splitTabs_no_tab {l : List Byte} (h : TAB ∉ l) : splitTabs l = [l] := by
  induction l with
  | nil => rfl
  | cons b bs ih =>
    have hb : ¬ b = TAB := fun e => h (by simp [e])
    have hbs : TAB ∉ bs := fun e => h (by simp [e])
    simp [splitTabs, hb, ih hbs, consHead]

theorem splitTabs_append_tab {pre : List Byte} (post : List Byte) (h : TAB ∉ pre) :
    splitTabs (pre ++ TAB :: post) = pre :: splitTabs post := by
  induction pre with
  | nil => simp [splitTabs]
  | cons b bs ih =>
    have hb : ¬ b = TAB := fun e => h (by simp [e])
    have hbs : TAB ∉ bs := fun e => h (by simp [e])
    simp [splitTabs, hb, ih hbs, consHead]

theorem splitTabs_length_le (l : List Byte) : (splitTabs l).length ≤ l.length + 1 := by
  induction l with
  | nil => simp [splitTabs]
  | cons b bs ih =>
    by_cases hb : b = TAB
    · simp [splitTabs, hb]; omega
    · simp only [splitTabs, hb, if_false]
      cases h : splitTabs bs with
      | nil => simp [consHead]
      | cons p ps => rw [h] at ih; simp [consHead] at ih ⊢; omega

theorem splitTabs_ne_nil (l : List Byte) : splitTabs l ≠ [] := by
  cases l with
  | nil => simp [splitTabs]
  | cons b bs =>
    by_cases hb : b = TAB
    · simp [splitTabs, hb]
    · simp only [splitTabs, hb, if_false]
      cases splitTabs bs <;> simp [consHead]

/-! ## The column loop of the driver -/

theorem cols_none {σ : Type} (fuel : Nat) (r : tsvReader σ) (row : List (List Byte))
    (herr : r.err = none) (hrow : r.row ≠ 0) (hrs : r.rowSlice = none) (hf : 0 < fuel) :
    readAll.cols fuel r row = some (row, r) := by
  obtain ⟨f, rfl⟩ := Nat.exists_eq_succ_of_ne_zero (Nat.pos_iff_ne_zero.mp hf)
  simp [readAll.cols, tsvReader.HasCols, herr, hrow, hrs]

theorem cols_some {σ : Type} :
    ∀ (fuel : Nat) (l : List Byte) (r : tsvReader σ) (row : List (List Byte)),
      r.err = none → r.row ≠ 0 → r.rowSlice = some l → (splitTabs l).length < fuel →
      readAll.cols fuel r row =
        some (row ++ splitTabs l,
          { r with col := r.col + (splitTabs l).length, rowSlice := none }) := by
  intro fuel
  induction fuel with
  | zero => intro l r row _ _ _ hf; omega
  | succ fuel ih =>
    intro l r row herr hrow hrs hf
    obtain ⟨rw0, col, maxCol, w, rb, rs, st, err⟩ := r
    simp only at herr hrow hrs
    subst herr hrs
    cases hidx : IndexByte l TAB with
    | none =>
      have hl := splitTabs_no_tab (not_mem_of_IndexByte_none hidx)
      rw [readAll.cols]
      simp only [tsvReader.HasCols, hrow, if_false, Option.isSome_some, if_true,
        tsvReader.String, tsvReader.Bytes, hidx, Option.getD_some]
      rw [hl] at hf ⊢
      rw [cols_none fuel _ _ rfl hrow rfl (by simpa using hf)]
      simp
    | some p =>
      obtain ⟨pre, post, rfl, hpre, rfl⟩ := IndexByte_some hidx
      have hl := splitTabs_append_tab post hpre
      rw [readAll.cols]
      simp only [tsvReader.HasCols, hrow, if_false, Option.isSome_some, if_true,
        tsvReader.String, tsvReader.Bytes, hidx, Option.getD_some]
      rw [hl] at hf ⊢
      rw [ih (List.drop (pre.length + 1) (pre ++ TAB :: post)) _ _ rfl hrow rfl
        (by simp at hf ⊢; omega)]
      simp
      omega

/-! ## `NextRow` and the driver loop, row by row -/

/-- The method `NextRow` on a tokenizer without error, in the setting of `loop_yield`: the
row counter goes up by one, `col` is reset, `maxCol` takes in the columns read in the row
before. -/
theorem NextRow_yield {σ : Type} (rd : σ → Nat → ReadResult σ)
    (I : List Byte → Nat → σ → Prop) (hd : Delivers rd I)
    (fuel : Nat) (r : tsvReader σ) (s : List Byte) (k j : Nat) (line tail : List Byte)
    (herr : r.err = none) (hI : I s k r.r)
    (hrest : r.readSlice ++ s = List.replicate j LF ++ (line ++ LF :: tail))
    (hj : j = 0 ∨ 1 < max r.maxCol r.col) (hne : 1 < max r.maxCol r.col → line ≠ [])
    (hline : LF ∉ line) (hfit : line.length + 1 ≤ readBufLen)
    (hf : 2 * s.length + r.readSlice.length + k < fuel) :
    ∃ r1 s1 k1, r.NextRow rd fuel = some (true, r1) ∧
      r1.row = r.row + 1 ∧ r1.col = 0 ∧ r1.maxCol = max r.maxCol r.col ∧ r1.err = none ∧
      r1.rowBytes = goAppend (sliceToZero r.rowBytes) line ∧
      r1.rowSlice = goAppend (sliceToZero r.rowBytes) line ∧
      I s1 k1 r1.r ∧ r1.readSlice ++ s1 = tail ∧
      2 * s1.length + r1.readSlice.length + k1 < 2 * s.length + r.readSlice.length + k := by
  obtain ⟨row, col, maxCol, w, rb, rs, st, err⟩ := r
  simp only at herr hI hrest hj hne hf ⊢
  subst herr
  have hmax : (if maxCol < col then col else maxCol) = max maxCol col := by
    split <;> omega
  by_cases hc : maxCol < col
  · have hmx : max maxCol col = col := by omega
    obtain ⟨r1, s1, k1, h1, h2, h3, h4, h5, h6, h7, h8, h9, h10⟩ :=
      loop_yield rd I hd fuel ⟨row + 1, 0, col, w, sliceToZero rb, none, st, none⟩ s k j line tail
        hI hrest (by rw [hmx] at hj; exact hj)
        (by rw [hmx] at hne; exact hne) hline hfit hf
    refine ⟨r1, s1, k1, ?_, h2, h3, ?_, h5, h6, h7, h8, h9, h10⟩
    · simpa [tsvReader.NextRow, hc] using h1
    · rw [h4]; simp only; omega
  · have hmx : max maxCol col = maxCol := by omega
    obtain ⟨r1, s1, k1, h1, h2, h3, h4, h5, h6, h7, h8, h9, h10⟩ :=
      loop_yield rd I hd fuel ⟨row + 1, 0, maxCol, w, sliceToZero rb, none, st, none⟩ s k j line
        tail hI hrest (by rw [hmx] at hj; exact hj)
        (by rw [hmx] at hne; exact hne) hline hfit hf
    refine ⟨r1, s1, k1, ?_, h2, h3, ?_, h5, h6, h7, h8, h9, h10⟩
    · simpa [tsvReader.NextRow, hc] using h1
    · rw [h4]; simp only; omega

/-- The method `NextRow` on a tokenizer without error, in the setting of `loop_end`. -/
theorem NextRow_end {σ : Type} (rd : σ → Nat → ReadResult σ)
    (I : List Byte → Nat → σ → Prop) (hd : Delivers rd I)
    (fuel : Nat) (r : tsvReader σ) (s : List Byte) (k j : Nat) (t : List Byte)
    (herr : r.err = none) (hI : I s k r.r)
    (hrest : r.readSlice ++ s = List.replicate j LF ++ t)
    (hj : j = 0 ∨ 1 < max r.maxCol r.col) (ht : LF ∉ t)
    (hfit : t.length ≤ readBufLen) (heof : t.length = readBufLen → EOFOnEmptyBuffer rd I)
    (hf : 2 * s.length + r.readSlice.length + k < fuel) :
    ∃ r1, r.NextRow rd fuel = some (false, r1) ∧
      r1.row = r.row + 1 ∧ r1.col = 0 ∧ r1.maxCol = max r.maxCol r.col ∧
      r1.rowBytes = sliceToZero r.rowBytes ∧ r1.rowSlice = none ∧
      r1.err = some (if t = [] then Error.EOF else Error.noNewline (r.row + 1)) := by
  obtain ⟨row, col, maxCol, w, rb, rs, st, err⟩ := r
  simp only at herr hI hrest hj hf ⊢
  subst herr
  have hmax : (if maxCol < col then col else maxCol) = max maxCol col := by
    split <;> omega
  by_cases hc : maxCol < col
  · have hmx : max maxCol col = col := by omega
    obtain ⟨r1, h1, h2, h3, h4, h5, h6, h7⟩ :=
      loop_end rd I hd fuel ⟨row + 1, 0, col, w, sliceToZero rb, none, st, none⟩ s k j t
        hI hrest (by rw [hmx] at hj; exact hj) ht hfit heof hf
    refine ⟨r1, ?_, h2, h3, ?_, h5, h6, h7⟩
    · simpa [tsvReader.NextRow, hc] using h1
    · rw [h4]; simp only; omega
  · have hmx : max maxCol col = maxCol := by omega
    obtain ⟨r1, h1, h2, h3, h4, h5, h6, h7⟩ :=
      loop_end rd I hd fuel ⟨row + 1, 0, maxCol, w, sliceToZero rb, none, st, none⟩ s k j t
        hI hrest (by rw [hmx] at hj; exact hj) ht hfit heof hf
    refine ⟨r1, ?_, h2, h3, ?_, h5, h6, h7⟩
    · simpa [tsvReader.NextRow, hc] using h1
    · rw [h4]; simp only; omega

theorem goAppend_sliceToZero (rb : Option (List Byte)) (l : List Byte) :
    goAppend (sliceToZero rb) l = if l = [] ∧ rb.isSome = false then none else some l := by
  cases rb <;> cases l <;> simp [goAppend, sliceToZero]

theorem length_unlines_cons (l : List Byte) (ls : List (List Byte)) :
    (unlines (l :: ls)).length = l.length + 1 + (unlines ls).length := by
  simp [unlines]; omega

theorem expectRows_skip (m : Nat) (hb : Bool) (ls : List (List Byte)) (hm : 1 < m) :
    expectRows m hb ([] :: ls) = expectRows m hb ls := by
  rw [expectRows, if_pos ⟨rfl, hm⟩]

theorem expectRows_yield (m : Nat) (hb : Bool) (l : List Byte) (ls : List (List Byte))
    (h : ¬ (l = [] ∧ 1 < m)) :
    expectRows m hb (l :: ls) =
      rowOf hb l :: expectRows (max m (rowOf hb l).length) (hb || !l.isEmpty) ls := by
  rw [expectRows, if_neg h]

/-- The rows the driver loop yields and the error it ends with, for a tokenizer between two
rows whose window and reader together still hold `j` line feeds to skip, the lines `ls` and
the unterminated bytes `t`. -/
theorem rows_spec {σ : Type} (rd : σ → Nat → ReadResult σ)
    (I : List Byte → Nat → σ → Prop) (hd : Delivers rd I) :
    ∀ (ls : List (List Byte)) (fuel : Nat) (r : tsvReader σ) (s : List Byte) (k j : Nat)
      (t : List Byte) (res : List (List (List Byte))),
      r.err = none → I s k r.r →
      r.readSlice ++ s = List.replicate j LF ++ (unlines ls ++ t) →
      (j = 0 ∨ 1 < max r.maxCol r.col) →
      (∀ l ∈ ls, LF ∉ l ∧ l.length + 1 ≤ readBufLen) →
      LF ∉ t → t.length ≤ readBufLen → (t.length = readBufLen → EOFOnEmptyBuffer rd I) →
      2 * s.length + r.readSlice.length + k + 2 ≤ fuel →
      ∃ r1, readAll.rows rd fuel r res =
          some (res ++ expectRows (max r.maxCol r.col) r.rowBytes.isSome ls, r1) ∧
        r1.err = some (expectErr
          (r.row + (expectRows (max r.maxCol r.col) r.rowBytes.isSome ls).length) t) := by
  intro ls
  induction ls with
  | nil =>
    intro fuel r s k j t res herr hI hrest hj _ ht hfit heof hf
    obtain ⟨fuel, rfl⟩ : ∃ f, fuel = f + 1 := ⟨fuel - 1, by omega⟩
    obtain ⟨r1, h1, -, -, -, -, -, h7⟩ :=
      NextRow_end rd I hd fuel r s k j t herr hI (by simpa [unlines] using hrest) hj ht hfit heof
        (by omega)
    refine ⟨r1, ?_, ?_⟩
    · simp [readAll.rows, h1, expectRows]
    · simp [expectRows, expectErr, h7]
  | cons l ls ih =>
    intro fuel r s k j t res herr hI hrest hj hls ht hfit heof hf
    by_cases hskip : l = [] ∧ 1 < max r.maxCol r.col
    · obtain ⟨rfl, hm⟩ := hskip
      have := ih fuel r s k (j + 1) t res herr hI
        (by rw [hrest]; simp [unlines, List.replicate_succ', List.append_assoc])
        (Or.inr hm) (fun l hl => hls l (List.mem_cons_of_mem _ hl)) ht hfit heof hf
      rw [expectRows_skip _ _ _ hm]
      exact this
    · obtain ⟨fuel, rfl⟩ : ∃ f, fuel = f + 1 := ⟨fuel - 1, by omega⟩
      have hl := hls l (List.mem_cons_self _ _)
      obtain ⟨r1, s1, k1, h1, h2, h3, h4, h5, h6, h7, h8, h9, h10⟩ :=
        NextRow_yield rd I hd fuel r s k j l (unlines ls ++ t) herr hI
          (by rw [hrest]; simp [unlines]) hj (fun hm hl0 => hskip ⟨hl0, hm⟩) hl.1 hl.2 (by omega)
      have hlen : l.length + 1 ≤ s.length + r.readSlice.length := by
        have := congrArg List.length hrest
        simp only [List.length_append, List.length_replicate, length_unlines_cons] at this
        omega
      have hcols : ∃ r2, readAll.cols fuel r1 [] = some (rowOf r.rowBytes.isSome l, r2) ∧
          r2.err = none ∧ r2.row = r.row + 1 ∧ r2.maxCol = max r.maxCol r.col ∧
          r2.col = (rowOf r.rowBytes.isSome l).length ∧
          r2.rowBytes.isSome = (r.rowBytes.isSome || !l.isEmpty) ∧
          r2.r = r1.r ∧ r2.readSlice = r1.readSlice := by
        rw [goAppend_sliceToZero] at h6 h7
        by_cases hz : l = [] ∧ r.rowBytes.isSome = false
        · have hro : rowOf r.rowBytes.isSome l = [] := by unfold rowOf; rw [if_pos hz]
          rw [if_pos hz] at h6 h7
          rw [hro]
          refine ⟨r1, ?_, h5, h2, h4, ?_, ?_, rfl, rfl⟩
          · rw [cols_none fuel r1 [] h5 (by omega) h7 (by omega)]
          · simp [h3]
          · rw [h6, hz.2, hz.1]; rfl
        · have hro : rowOf r.rowBytes.isSome l = splitTabs l := by unfold rowOf; rw [if_neg hz]
          rw [if_neg hz] at h6 h7
          rw [hro]
          refine ⟨{ r1 with col := r1.col + (splitTabs l).length, rowSlice := none },
            ?_, h5, h2, h4, ?_, ?_, rfl, rfl⟩
          · rw [cols_some fuel l r1 [] h5 (by omega) h7
              (by have := splitTabs_length_le l; omega)]
            simp
          · simp [h3]
          · simp only [h6, Option.isSome_some]
            cases hb : r.rowBytes.isSome
            · cases l with
              | nil => exact absurd ⟨rfl, hb⟩ hz
              | cons a as => rfl
            · rfl
      obtain ⟨r2, c1, c2, c3, c4, c5, c6, c7, c8⟩ := hcols
      obtain ⟨r3, e1, e2⟩ := ih fuel r2 s1 k1 0 t (res ++ [rowOf r.rowBytes.isSome l]) c2
        (by rw [c7]; exact h8) (by rw [c8, h9]; simp) (Or.inl rfl)
        (fun l hl => hls l (List.mem_cons_of_mem _ hl)) ht hfit heof (by rw [c8]; omega)
      rw [c4, c5, c6] at e1 e2
      rw [c3] at e2
      refine ⟨r3, ?_, ?_⟩
      · rw [readAll.rows, expectRows_yield _ _ _ _ hskip]
        simp only [h1, c1, e1]
        simp
      · rw [e2, expectRows_yield _ _ _ _ hskip]
        simp only [List.length_cons]
        congr 2
        omega

/-! ## Readers that deliver, and the split of the input into lines -/

theorem stringsReader_delivers : Delivers stringsReader.Read stringsReader.Inv := by
  constructor
  intro s k st cap hI
  unfold stringsReader.Inv at hI
  by_cases hend : st.s.length ≤ st.i
  · refine ⟨[], k, ?_, ?_, le_refl _, ?_, ?_, ?_⟩
    · simp [stringsReader.Read, hend, hI, List.drop_eq_nil_iff.mpr hend]
    · simp [stringsReader.Read, hend, stringsReader.Inv, List.drop_eq_nil_iff.mpr hend]
    · simp [stringsReader.Read, hend]
    · simp [stringsReader.Read, hend]
    · simp [stringsReader.Read, hend]
  · have hne : s ≠ [] := by
      rw [hI]
      intro h
      exact hend (List.drop_eq_nil_iff.mp h)
    refine ⟨s.drop cap, k, ?_, ?_, le_refl _, ?_, ?_, ?_⟩
    · simp [stringsReader.Read, hend, ← hI]
    · simp only [stringsReader.Read, hend, if_false, stringsReader.Inv, ← hI]
      rw [← List.drop_drop, ← hI, List.length_take]
      by_cases hc : cap ≤ s.length
      · rw [min_eq_left hc]
      · rw [min_eq_right (by omega), List.drop_length, List.drop_eq_nil_iff.mpr (by omega)]
    · simp [stringsReader.Read, hend]
    · simp [stringsReader.Read, hend]
    · intro hd _ hcap
      simp only [stringsReader.Read, hend, if_false, ← hI, List.take_eq_nil_iff] at hd
      rcases hd with hd | hd
      · omega
      · exact absurd hd hne

theorem stringsReader_eofOnEmptyBuffer : EOFOnEmptyBuffer stringsReader.Read stringsReader.Inv := by
  intro k st hI
  unfold stringsReader.Inv at hI
  have : st.s.length ≤ st.i := List.drop_eq_nil_iff.mp hI.symm
  simp [stringsReader.Read, this]

theorem stringsReader_inv_new (s : List Byte) (k : Nat) :
    stringsReader.Inv s k (stringsReader.NewReader s) := by
  simp [stringsReader.Inv, stringsReader.NewReader]

/-- Splitting at line feeds loses nothing: the lines, each with its line feed, followed by
the unterminated rest, are the input again; and no piece holds a line feed. -/
theorem splitLines_spec (s : List Byte) :
    unlines (splitLines s).1 ++ (splitLines s).2 = s ∧
      (∀ l ∈ (splitLines s).1, LF ∉ l) ∧ LF ∉ (splitLines s).2 := by
  induction s with
  | nil => simp [splitLines, unlines]
  | cons b bs ih =>
    obtain ⟨h1, h2, h3⟩ := ih
    by_cases hb : b = LF
    · subst hb
      simp only [splitLines, if_true]
      refine ⟨by simp [unlines, h1], ?_, h3⟩
      intro l hl
      rcases List.mem_cons.mp hl with rfl | hl
      · simp
      · exact h2 l hl
    · simp only [splitLines, hb, if_false]
      cases hs : (splitLines bs).1 with
      | nil =>
        rw [hs] at h1
        simp only [unlines, List.nil_append] at h1
        refine ⟨by simp [unlines, h1], by simp, ?_⟩
        simp only [List.mem_cons, not_or]
        exact ⟨fun e => hb e.symm, h3⟩
      | cons l ls =>
        rw [hs] at h1 h2
        refine ⟨by simpa [unlines] using h1, ?_, h3⟩
        intro l' hl'
        rcases List.mem_cons.mp hl' with rfl | hl'
        · simp only [List.mem_cons, not_or]
          exact ⟨fun e => hb e.symm, h2 l (List.mem_cons_self _ _)⟩
        · exact h2 l' (List.mem_cons_of_mem _ hl')

/-- The lines and the unterminated rest determine the split. -/
theorem splitLines_unlines (ls : List (List Byte)) (t : List Byte)
    (hls : ∀ l ∈ ls, LF ∉ l) (ht : LF ∉ t) : splitLines (unlines ls ++ t) = (ls, t) := by
  induction ls with
  | nil =>
    simp only [unlines, List.nil_append]
    induction t with
    | nil => rfl
    | cons b bs ih =>
      have hb : ¬ b = LF := fun e => ht (by simp [e])
      have := ih (fun e => ht (by simp [e]))
      simp [splitLines, hb, this]
  | cons l ls ih =>
    have ih' := ih (fun l hl => hls l (List.mem_cons_of_mem _ hl))
    have hl := hls l (List.mem_cons_self _ _)
    clear ih hls
    induction l with
    | nil => simp [unlines, splitLines, ih']
    | cons b bs ihb =>
      have hb : ¬ b = LF := fun e => hl (by simp [e])
      have := ihb (fun e => hl (by simp [e]))
      simp only [unlines, List.cons_append, List.append_assoc] at this ⊢
      simp [splitLines, hb, this]

theorem splitLines_tail_nil_of_getLast (s : List Byte) (h : s.getLast? = some LF) :
    (splitLines s).2 = [] := by
  obtain ⟨h1, -, h3⟩ := splitLines_spec s
  by_contra hne
  have : (unlines (splitLines s).1 ++ (splitLines s).2).getLast? = (splitLines s).2.getLast? :=
    List.getLast?_append_of_ne_nil _ hne
  rw [h1, h] at this
  exact h3 (List.mem_of_getLast?_eq_some this.symm)

/-- The driver loop on a fresh tokenizer: for every delivery of `s` whose lines fit in the
read window, it yields `expectRows` of the lines of `s` and ends with `expectErr`. -/
theorem readAll_spec {σ : Type} (rd : σ → Nat → ReadResult σ)
    (I : List Byte → Nat → σ → Prop) (hd : Delivers rd I)
    (s : List Byte) (k : Nat) (st : σ) (fuel : Nat) (hI : I s k st)
    (hfit : LinesFit s)
    (heof : (splitLines s).2.length = readBufLen → EOFOnEmptyBuffer rd I)
    (hfuel : 2 * s.length + k + 2 ≤ fuel) :
    readAll rd fuel (tsvReader.new st) =
      some (expectRows 0 false (splitLines s).1,
        some (expectErr (expectRows 0 false (splitLines s).1).length (splitLines s).2)) := by
  obtain ⟨h1, h2, h3⟩ := splitLines_spec s
  obtain ⟨r1, e1, e2⟩ := rows_spec rd I hd (splitLines s).1 fuel (tsvReader.new st) s k 0
    (splitLines s).2 [] rfl hI (by simp [tsvReader.new, h1]) (Or.inl rfl)
    (fun l hl => ⟨h2 l hl, hfit.1 l hl⟩) h3 hfit.2 heof (by simpa [tsvReader.new] using hfuel)
  simp only [tsvReader.new, Nat.max_self, Option.isSome_none, List.nil_append,
    Nat.zero_add] at e1 e2
  simp [readAll, tsvReader.new, e1, tsvReader.Error, e2]

theorem expectRows_of_nonempty (m : Nat) (hb : Bool) (ls : List (List Byte))
    (h : ∀ l ∈ ls, l ≠ []) : expectRows m hb ls = ls.map splitTabs := by
  induction ls generalizing m hb with
  | nil => rfl
  | cons l ls ih =>
    have hl := h l (List.mem_cons_self _ _)
    rw [expectRows_yield _ _ _ _ (fun hc => hl hc.1), ih _ _ (fun l hl => h l (List.mem_cons_of_mem _ hl))]
    simp [rowOf, hl]

/-! ## The driver loop on well-formed and on unterminated streams -/

theorem oneByteReader_delivers : Delivers oneByteReader.Read oneByteReader.Inv := by
  constructor
  intro s k st cap hI
  by_cases hc : cap = 0
  · subst hc
    exact ⟨s, k, by simp [oneByteReader.Read], by simpa [oneByteReader.Read] using hI,
      le_refl _, by simp [oneByteReader.Read], by simp [oneByteReader.Read],
      by intro _ _ h; omega⟩
  · obtain ⟨s1, k1, h1, h2, h3, h4, h5, h6⟩ := stringsReader_delivers.step s k st.r 1 hI
    refine ⟨s1, k1, ?_, ?_, h3, ?_, ?_, ?_⟩
    · simpa [oneByteReader.Read, hc] using h1
    · simpa [oneByteReader.Read, hc, oneByteReader.Inv] using h2
    · simp only [oneByteReader.Read, hc, if_false]; omega
    · simpa [oneByteReader.Read, hc] using h5
    · intro hd he _
      simp only [oneByteReader.Read, hc, if_false] at hd he
      exact h6 hd he (by omega)

/-- C1: for every byte stream that ends with a line feed, has no zero-length line, and whose
lines each fit with their line feed in the 16384-byte read window, and for every error-free
delivery of it by the underlying reader (`Delivers`), the driver loop
`for NextRow { for HasCols { String } }` returns exactly the lines of the input (split at
line feeds), each split at tabs, in input order, and the tokenizer ends with `io.EOF`;
a fuel of `2 * len + k + 2` loop turns is enough. -/
theorem readAll_terminated_lines {σ : Type} (rd : σ → Nat → ReadResult σ)
    (I : List Byte → Nat → σ → Prop) (hd : Delivers rd I)
    (s : List Byte) (k : Nat) (st : σ) (fuel : Nat) (hI : I s k st)
    (hlast : s.getLast? = some LF)
    (hlines : ∀ l ∈ (splitLines s).1, l ≠ [] ∧ l.length + 1 ≤ readBufLen)
    (hfuel : 2 * s.length + k + 2 ≤ fuel) :
    readAll rd fuel (tsvReader.new st) =
      some ((splitLines s).1.map splitTabs, some Error.EOF) := by
  have ht := splitLines_tail_nil_of_getLast s hlast
  have h := readAll_spec rd I hd s k st fuel hI
    ⟨fun l hl => (hlines l hl).2, by simp [ht]⟩ (by simp [ht, readBufLen]) hfuel
  rw [h, expectRows_of_nonempty _ _ _ (fun l hl => (hlines l hl).1), ht]
  simp [expectErr]

/-- Witness for C1, the test "variadic number of columns": the input
`"a\tb\tc\nd\te\nf\n"` behind a `strings.Reader`. -/
theorem readAll_terminated_lines_witness :
    readAll stringsReader.Read 26
        (tsvReader.new (stringsReader.NewReader [97, 9, 98, 9, 99, 10, 100, 9, 101, 10, 102, 10])) =
      some ([[[97], [98], [99]], [[100], [101]], [[102]]], some Error.EOF) :=
  readAll_terminated_lines stringsReader.Read stringsReader.Inv stringsReader_delivers
    [97, 9, 98, 9, 99, 10, 100, 9, 101, 10, 102, 10] 0 _ 26 (stringsReader_inv_new _ 0)
    (by decide) (by decide) (by decide)

/-- C2: for every byte string whose lines fit in the read window (terminated or not, empty
lines allowed) and every two deliveries of it, however they cut it into chunks, the driver
loop returns for both, with the same rows and the same final error, and these are the rows
and the error it returns when the string sits behind a `strings.Reader`, which hands over
the whole string in one `Read` whenever the window can take it. -/
theorem readAll_chunking_independent {σ τ : Type}
    (rd1 : σ → Nat → ReadResult σ) (I1 : List Byte → Nat → σ → Prop) (hd1 : Delivers rd1 I1)
    (rd2 : τ → Nat → ReadResult τ) (I2 : List Byte → Nat → τ → Prop) (hd2 : Delivers rd2 I2)
    (s : List Byte) (k1 k2 : Nat) (st1 : σ) (st2 : τ) (fuel1 fuel2 : Nat)
    (h1 : I1 s k1 st1) (h2 : I2 s k2 st2) (hfit : LinesFit s)
    (heof1 : (splitLines s).2.length = readBufLen → EOFOnEmptyBuffer rd1 I1)
    (heof2 : (splitLines s).2.length = readBufLen → EOFOnEmptyBuffer rd2 I2)
    (hfuel1 : 2 * s.length + k1 + 2 ≤ fuel1) (hfuel2 : 2 * s.length + k2 + 2 ≤ fuel2) :
    readAll rd1 fuel1 (tsvReader.new st1) = readAll rd2 fuel2 (tsvReader.new st2) ∧
      readAll rd1 fuel1 (tsvReader.new st1) =
        readAll stringsReader.Read fuel1 (tsvReader.new (stringsReader.NewReader s)) ∧
      (readAll rd1 fuel1 (tsvReader.new st1)).isSome = true := by
  have e1 := readAll_spec rd1 I1 hd1 s k1 st1 fuel1 h1 hfit heof1 hfuel1
  have e2 := readAll_spec rd2 I2 hd2 s k2 st2 fuel2 h2 hfit heof2 hfuel2
  have e3 := readAll_spec stringsReader.Read stringsReader.Inv stringsReader_delivers s 0
    (stringsReader.NewReader s) fuel1 (stringsReader_inv_new s 0) hfit
    (fun _ => stringsReader_eofOnEmptyBuffer) (by omega)
  rw [e1, e2, e3]
  simp

/-- Witness for C2, the test "read buffer issue" taken to the extreme: the input
`"a\tb\nc\td\ne\tf\n"` delivered byte by byte by an `iotest.OneByteReader`, which
separates every row from its line feed, and at once by a `strings.Reader`. -/
theorem readAll_chunking_independent_witness :
    readAll oneByteReader.Read 26
        (tsvReader.new (oneByteReader.mk
          (stringsReader.NewReader [97, 9, 98, 10, 99, 9, 100, 10, 101, 9, 102, 10]))) =
      readAll stringsReader.Read 26
        (tsvReader.new (stringsReader.NewReader [97, 9, 98, 10, 99, 9, 100, 10, 101, 9, 102, 10])) ∧
    readAll oneByteReader.Read 26
        (tsvReader.new (oneByteReader.mk
          (stringsReader.NewReader [97, 9, 98, 10, 99, 9, 100, 10, 101, 9, 102, 10]))) =
      readAll stringsReader.Read 26
        (tsvReader.new (stringsReader.NewReader [97, 9, 98, 10, 99, 9, 100, 10, 101, 9, 102, 10])) ∧
    (readAll oneByteReader.Read 26
        (tsvReader.new (oneByteReader.mk (stringsReader.NewReader
          [97, 9, 98, 10, 99, 9, 100, 10, 101, 9, 102, 10])))).isSome = true :=
  readAll_chunking_independent oneByteReader.Read oneByteReader.Inv oneByteReader_delivers
    stringsReader.Read stringsReader.Inv stringsReader_delivers
    [97, 9, 98, 10, 99, 9, 100, 10, 101, 9, 102, 10] 0 0 _ _ 26 26
    (stringsReader_inv_new _ 0) (stringsReader_inv_new _ 0)
    (by unfold LinesFit; decide) (fun h => absurd h (by decide))
    (fun h => absurd h (by decide)) (by decide) (by decide)

/-- C3: for every input `P ++ T` with `P` empty or ending in a line feed, `T` non-empty and
free of line feeds, and every line fitting in the read window, the driver loop returns
exactly the rows it returns for `P` alone (which ends with `io.EOF`), and the tokenizer ends
with the framing error `can not find newline for row #k`, where `k` is one more than the
number of rows returned. -/
theorem readAll_unterminated_tail {σ τ : Type}
    (rd : σ → Nat → ReadResult σ) (I : List Byte → Nat → σ → Prop) (hd : Delivers rd I)
    (rdP : τ → Nat → ReadResult τ) (IP : List Byte → Nat → τ → Prop) (hdP : Delivers rdP IP)
    (P T : List Byte) (k kP : Nat) (st : σ) (stP : τ) (fuel fuelP : Nat)
    (hI : I (P ++ T) k st) (hIP : IP P kP stP)
    (hP : P = [] ∨ P.getLast? = some LF) (hT : T ≠ []) (hTlf : LF ∉ T)
    (hfit : LinesFit (P ++ T)) (heof : T.length = readBufLen → EOFOnEmptyBuffer rd I)
    (hfuel : 2 * (P ++ T).length + k + 2 ≤ fuel) (hfuelP : 2 * P.length + kP + 2 ≤ fuelP) :
    (readAll rdP fuelP (tsvReader.new stP)).map Prod.snd = some (some Error.EOF) ∧
      readAll rd fuel (tsvReader.new st) =
        (readAll rdP fuelP (tsvReader.new stP)).map
          (fun out => (out.1, some (Error.noNewline (out.1.length + 1)))) := by
  have htP : (splitLines P).2 = [] := by
    rcases hP with rfl | hP
    · rfl
    · exact splitLines_tail_nil_of_getLast P hP
  obtain ⟨p1, p2, -⟩ := splitLines_spec P
  rw [htP, List.append_nil] at p1
  have hsplit : splitLines (P ++ T) = ((splitLines P).1, T) := by
    conv_lhs => rw [← p1]
    exact splitLines_unlines _ _ p2 hTlf
  have hfitP : LinesFit P := by
    refine ⟨fun l hl => hfit.1 l (by rw [hsplit]; exact hl), by simp [htP]⟩
  have e := readAll_spec rd I hd (P ++ T) k st fuel hI hfit (by rw [hsplit]; exact heof) hfuel
  have eP := readAll_spec rdP IP hdP P kP stP fuelP hIP hfitP (by simp [htP, readBufLen]) hfuelP
  rw [e, eP, hsplit, htP]
  simp [expectErr, hT]

/-- Witness for C3, the test "error: last line without newline in the end": the input
`"a\tb\nc\td\ne\tf"`, that is `P = "a\tb\nc\td\n"` and `T = "e\tf"`. -/
theorem readAll_unterminated_tail_witness :
    (readAll stringsReader.Read 18
        (tsvReader.new (stringsReader.NewReader [97, 9, 98, 10, 99, 9, 100, 10]))).map Prod.snd =
      some (some Error.EOF) ∧
    readAll stringsReader.Read 24
        (tsvReader.new (stringsReader.NewReader
          ([97, 9, 98, 10, 99, 9, 100, 10] ++ [101, 9, 102]))) =
      (readAll stringsReader.Read 18
        (tsvReader.new (stringsReader.NewReader [97, 9, 98, 10, 99, 9, 100, 10]))).map
        (fun out => (out.1, some (Error.noNewline (out.1.length + 1)))) :=
  readAll_unterminated_tail stringsReader.Read stringsReader.Inv stringsReader_delivers
    stringsReader.Read stringsReader.Inv stringsReader_delivers
    [97, 9, 98, 10, 99, 9, 100, 10] [101, 9, 102] 0 0 _ _ 24 18
    (stringsReader_inv_new _ 0) (stringsReader_inv_new _ 0)
    (Or.inr (by decide)) (by decide) (by decide) (by unfold LinesFit; decide)
    (fun h => absurd h (by decide)) (by decide) (by decide)

/-! ## The sticky error -/

theorem call_of_err {σ : Type} (rd : σ → Nat → ReadResult σ) (fuel : Nat) (r : tsvReader σ)
    (e : Error) (h : r.err = some e) (op : Op) : r.call rd fuel op = some (op.inert, r) := by
  cases op <;>
    simp [tsvReader.call, tsvReader.NextRow, tsvReader.HasCols, tsvReader.Bytes,
      tsvReader.String, Op.inert, h]

/-- C7: the tokenizer's error is sticky. For every tokenizer state whose `err` is set and
every operation among NextRow, HasCols, Bytes and String, the operation gives back its inert
value (`false`, `false`, `nil`, `""`) and leaves the whole state as it was, the reader
included; the outcome is the same for any other reader function and with no fuel at all, so
no `Read` takes place. Hence after any sequence of calls the state, and with it `Error()`,
is the same. -/
theorem sticky_error {σ : Type} (rd : σ → Nat → ReadResult σ) (fuel : Nat) (r : tsvReader σ)
    (e : Error) (h : r.err = some e) :
    (∀ op : Op, r.call rd fuel op = some (op.inert, r)) ∧
      (∀ (op : Op) (rd2 : σ → Nat → ReadResult σ), r.call rd2 0 op = r.call rd fuel op) ∧
      (∀ ops : List Op, tsvReader.calls rd fuel ops r = some r) ∧
      (∀ ops : List Op,
        (tsvReader.calls rd fuel ops r).map tsvReader.Error = some (some e)) := by
  have hcalls : ∀ ops : List Op, tsvReader.calls rd fuel ops r = some r := by
    intro ops
    induction ops with
    | nil => rfl
    | cons op ops ih => simp [tsvReader.calls, call_of_err rd fuel r e h op, ih]
  refine ⟨call_of_err rd fuel r e h, ?_, hcalls, ?_⟩
  · intro op rd2
    rw [call_of_err rd2 0 r e h op, call_of_err rd fuel r e h op]
  · intro ops
    rw [hcalls ops]
    simp [tsvReader.Error, h]

/-- Witness for C7, the test "error: NextRow not called": the tokenizer over `"a"` after a
`HasCols` call made before any `NextRow`, which sets the usage error. -/
theorem sticky_error_witness :
    (∀ op : Op,
      (tsvReader.new (stringsReader.NewReader [97])).HasCols.2.call stringsReader.Read 4 op =
        some (op.inert, (tsvReader.new (stringsReader.NewReader [97])).HasCols.2)) ∧
    (∀ (op : Op) (rd2 : stringsReader → Nat → ReadResult stringsReader),
      (tsvReader.new (stringsReader.NewReader [97])).HasCols.2.call rd2 0 op =
        (tsvReader.new (stringsReader.NewReader [97])).HasCols.2.call stringsReader.Read 4 op) ∧
    (∀ ops : List Op,
      tsvReader.calls stringsReader.Read 4 ops
          (tsvReader.new (stringsReader.NewReader [97])).HasCols.2 =
        some (tsvReader.new (stringsReader.NewReader [97])).HasCols.2) ∧
    (∀ ops : List Op,
      (tsvReader.calls stringsReader.Read 4 ops
          (tsvReader.new (stringsReader.NewReader [97])).HasCols.2).map tsvReader.Error =
        some (some (Error.New "NextRow must be called before"))) :=
  sticky_error stringsReader.Read 4 (tsvReader.new (stringsReader.NewReader [97])).HasCols.2
    (Error.New "NextRow must be called before") rfl

/-! ## The row decoder -/

theorem loop_true_inv {σ : Type} (rd : σ → Nat → ReadResult σ) :
    ∀ (fuel : Nat) (r r1 : tsvReader σ), tsvReader.NextRow.loop rd fuel r = some (true, r1) →
      r1.err = r.err ∧ r1.row = r.row := by
  intro fuel
  induction fuel with
  | zero => intro r r1 h; simp [tsvReader.NextRow.loop] at h
  | succ fuel ih =>
    intro r r1 h
    rw [tsvReader.NextRow.loop] at h
    split at h
    · split at h
      · have := ih _ _ h
        simpa using this
      · simp only [Option.some.injEq, Prod.mk.injEq, true_and] at h
        subst h
        exact ⟨rfl, rfl⟩
    · simp only at h
      split at h
      · split at h
        · split at h <;> simp at h
        · have := ih _ _ h
          simpa using this
      · simp at h
      · have := ih _ _ h
        simpa using this

theorem NextRow_true_inv {σ : Type} (rd : σ → Nat → ReadResult σ) (fuel : Nat)
    (r r1 : tsvReader σ) (h : r.NextRow rd fuel = some (true, r1)) :
    r1.err = none ∧ r1.row ≠ 0 := by
  unfold tsvReader.NextRow at h
  cases herr : r.err with
  | some e => rw [herr] at h; simp at h
  | none =>
    rw [herr] at h
    simp only at h
    have := loop_true_inv rd fuel _ _ h
    simp only at this
    by_cases hc : r.maxCol < r.col
    · simp only [hc, if_true] at this
      exact ⟨this.1, by rw [this.2]; omega⟩
    · simp only [hc, if_false] at this
      exact ⟨this.1.trans herr, by rw [this.2]; omega⟩

theorem take_set_succ {V : Type} (dest : List V) (i : Nat) (v : V) (hi : i < dest.length) :
    (dest.set i v).take (i + 1) = dest.take i ++ [v] := by
  induction dest generalizing i with
  | nil => simp at hi
  | cons d ds ih =>
    cases i with
    | zero => simp
    | succ i =>
      simp only [List.length_cons, Nat.add_lt_add_iff_right] at hi
      simp [ih i hi]

theorem hasCols_of_pending_nil {σ : Type} (r : tsvReader σ) (herr : r.err = none)
    (hrow : r.row ≠ 0) (h : pendingCols r = []) : r.HasCols = (false, r) := by
  unfold pendingCols at h
  cases hrs : r.rowSlice with
  | none => simp [tsvReader.HasCols, herr, hrow, hrs]
  | some l => rw [hrs] at h; exact absurd h (splitTabs_ne_nil l)

theorem bytes_of_pending_cons {σ : Type} (r : tsvReader σ) (herr : r.err = none)
    (hrow : r.row ≠ 0) (c : List Byte) (cs : List (List Byte)) (h : pendingCols r = c :: cs) :
    r.HasCols = (true, r) ∧ r.Bytes.1 = some c ∧ pendingCols r.Bytes.2 = cs ∧
      r.Bytes.2.err = none ∧ r.Bytes.2.row = r.row := by
  obtain ⟨row, col, maxCol, w, rb, rs, st, err⟩ := r
  simp only at herr hrow
  subst herr
  unfold pendingCols at h
  cases rs with
  | none => simp at h
  | some l =>
    simp only at h
    cases hidx : IndexByte l TAB with
    | none =>
      rw [splitTabs_no_tab (not_mem_of_IndexByte_none hidx)] at h
      simp only [List.cons.injEq] at h
      obtain ⟨rfl, rfl⟩ := h
      simp [tsvReader.HasCols, tsvReader.Bytes, hrow, hidx, pendingCols]
    | some p =>
      obtain ⟨pre, post, rfl, hpre, rfl⟩ := IndexByte_some hidx
      rw [splitTabs_append_tab post hpre] at h
      simp only [List.cons.injEq] at h
      obtain ⟨rfl, rfl⟩ := h
      simp [tsvReader.HasCols, tsvReader.Bytes, hrow, hidx, pendingCols]

/-- The loop of `textRows.Next` on a tokenizer without error does what `decodeRow` does on
the columns the tokenizer has still to hand out, and leaves the tokenizer without error. -/
theorem Next_loop_eq {σ V : Type} (parsers : List (DataParser V)) :
    ∀ (cols : List (List Byte)) (fuel : Nat) (tsv : tsvReader σ) (i : Nat) (dest : List V),
      tsv.err = none → tsv.row ≠ 0 → pendingCols tsv = cols → cols.length < fuel →
      ∃ tsv1, textRows.Next.loop parsers fuel tsv i dest =
          some ((decodeRow parsers cols i dest).1, tsv1, (decodeRow parsers cols i dest).2) ∧
        tsv1.err = none := by
  intro cols
  induction cols with
  | nil =>
    intro fuel tsv i dest herr hrow hp hf
    obtain ⟨fuel, rfl⟩ : ∃ f, fuel = f + 1 := ⟨fuel - 1, by omega⟩
    refine ⟨tsv, ?_, herr⟩
    simp [textRows.Next.loop, hasCols_of_pending_nil tsv herr hrow hp, decodeRow,
      tsvReader.Error, herr]
  | cons c cs ih =>
    intro fuel tsv i dest herr hrow hp hf
    obtain ⟨fuel, rfl⟩ : ∃ f, fuel = f + 1 := ⟨fuel - 1, by omega⟩
    obtain ⟨h1, h2, h3, h4, h5⟩ := bytes_of_pending_cons tsv herr hrow c cs hp
    rw [textRows.Next.loop, decodeRow]
    simp only [h1, if_true, h2, Option.getD_some]
    cases hpi : parsers[i]? with
    | none => exact ⟨_, rfl, h4⟩
    | some p =>
      simp only
      cases hpe : (p.Parse c).err with
      | some e => exact ⟨_, rfl, h4⟩
      | none =>
        simp only
        by_cases htr : (p.Parse c).consumed < c.length
        · simp only [htr, if_true]
          exact ⟨_, rfl, h4⟩
        · simp only [htr, if_false]
          by_cases hd : i < dest.length
          · simp only [hd, if_true]
            exact ih fuel _ (i + 1) _ h4 (by rw [h5]; exact hrow) h3
              (by simp only [List.length_cons] at hf; omega)
          · simp only [hd, if_false]
            exact ⟨_, rfl, h4⟩

/-- `textRows.Next` on a decoder whose tokenizer yields a next row with columns `cols`. -/
theorem Next_eq_decodeRow {σ V : Type} (rd : σ → Nat → ReadResult σ) (fuel : Nat)
    (t : textRows σ V) (dest : List V) (cols : List (List Byte))
    (hrow : nextRowCols rd fuel t.tsv = some cols) (hfuel : cols.length < fuel) :
    (t.Next rd fuel dest).map (fun o => (o.1, o.2.2)) =
      some (decodeRow t.parsers cols 0 dest) := by
  unfold nextRowCols at hrow
  cases hnr : t.tsv.NextRow rd fuel with
  | none => rw [hnr] at hrow; simp at hrow
  | some p =>
    obtain ⟨b, tsv1⟩ := p
    rw [hnr] at hrow
    cases b with
    | false => simp at hrow
    | true =>
      simp only [Option.some_bind, if_true, Option.some.injEq] at hrow
      obtain ⟨he, hr⟩ := NextRow_true_inv rd fuel _ _ hnr
      obtain ⟨tsv2, h2, -⟩ := Next_loop_eq t.parsers cols fuel tsv1 0 dest he hr hrow hfuel
      simp [textRows.Next, hnr, tsvReader.Error, he, h2]

/-- Columns that parse without error and completely are written to `dest` one after the
other, and the loop goes on with the columns after them. -/
theorem decodeRow_append {V : Type} (parsers : List (DataParser V)) :
    ∀ (pre rest : List (List Byte)) (i : Nat) (dest : List V),
      (∀ (j : Nat) (p : DataParser V) (c : List Byte),
        parsers[i + j]? = some p → pre[j]? = some c →
          (p.Parse c).err = none ∧ (p.Parse c).consumed = c.length) →
      i + pre.length ≤ parsers.length → i + pre.length ≤ dest.length →
      decodeRow parsers (pre ++ rest) i dest =
        decodeRow parsers rest (i + pre.length)
          (dest.take i ++ List.zipWith (fun p c => (p.Parse c).v) (parsers.drop i) pre ++
            dest.drop (i + pre.length)) := by
  intro pre
  induction pre with
  | nil => intro rest i dest _ _ _; simp
  | cons c cs ih =>
    intro rest i dest hok hp hd
    simp only [List.length_cons] at hp hd
    have hi : i < parsers.length := by omega
    have hpi : parsers[i]? = some parsers[i] := List.getElem?_eq_getElem hi
    obtain ⟨e1, e2⟩ := hok 0 parsers[i] c (by simp) (by simp)
    rw [List.cons_append, decodeRow]
    simp only [hpi, e1, e2, lt_irrefl, if_false]
    rw [if_pos (by omega)]
    rw [ih rest (i + 1) _ (fun j p c' h1 h2 => hok (j + 1) p c'
      (by rw [← h1]; congr 1; omega) (by simpa using h2)) (by omega)
      (by simp only [List.length_set]; omega)]
    have hlen : i + 1 + cs.length = i + (cs.length + 1) := by omega
    rw [take_set_succ dest i _ (by omega), List.drop_set_of_lt _ _ (by omega),
      List.drop_eq_getElem_cons hi, hlen]
    simp only [List.zipWith_cons_cons, List.append_assoc, List.singleton_append,
      List.cons_append, List.nil_append, List.length_cons]

/-- The example decoders are what `newTextRows` builds from their streams. -/
theorem exampleRows_newTextRows :
    newTextRows stringsReader.Read (fun b => .ok b) (fun b => Except.ok b)
        (fun _ => .ok digitParser) 8
        (stringsReader.NewReader (exampleHeader ++ [52, 9, 50, 10])) =
      some (.ok (exampleRows [52, 9, 50, 10])) ∧
    newTextRows stringsReader.Read (fun b => .ok b) (fun b => Except.ok b)
        (fun _ => .ok digitParser) 8
        (stringsReader.NewReader (exampleHeader ++ [52, 9, 50, 51, 10])) =
      some (.ok (exampleRows [52, 9, 50, 51, 10])) ∧
    newTextRows stringsReader.Read (fun b => .ok b) (fun b => Except.ok b)
        (fun _ => .ok digitParser) 8
        (stringsReader.NewReader (exampleHeader ++ [120, 9, 49, 10, 52, 9, 50, 10])) =
      some (.ok (exampleRows [120, 9, 49, 10, 52, 9, 50, 10])) ∧
    newTextRows stringsReader.Read (fun b => .ok b) (fun b => Except.ok b)
        (fun _ => .ok digitParser) 8 (stringsReader.NewReader (exampleHeader ++ [])) =
      some (.ok (exampleRows [])) :=
  ⟨rfl, rfl, rfl, rfl⟩

/-- The decoding of a row of `n` columns, given the columns `cols` that the tokenizer yields
for it: with `n` column parsers, a `dest` of length at least `n`, and every column accepted
and read completely by its parser, `textRows.Next` returns nil, and `dest` afterwards holds
at every position `i < n` the value parser `i` returns for the raw bytes of column `i`, its
positions from `n` on unchanged. -/
theorem Next_decodes_cols {σ V : Type} (rd : σ → Nat → ReadResult σ) (fuel : Nat)
    (t : textRows σ V) (dest : List V) (cols : List (List Byte))
    (hrow : nextRowCols rd fuel t.tsv = some cols)
    (hn : cols.length = t.parsers.length) (hdest : t.parsers.length ≤ dest.length)
    (hparse : ∀ (i : Nat) (p : DataParser V) (c : List Byte),
      t.parsers[i]? = some p → cols[i]? = some c →
        (p.Parse c).err = none ∧ (p.Parse c).consumed = c.length)
    (hfuel : cols.length < fuel) :
    (t.Next rd fuel dest).map (fun o => (o.1, o.2.2)) =
      some (NextResult.ret none,
        List.zipWith (fun p c => (p.Parse c).v) t.parsers cols ++
          dest.drop t.parsers.length) := by
  rw [Next_eq_decodeRow rd fuel t dest cols hrow hfuel]
  have := decodeRow_append t.parsers cols [] 0 dest
    (fun j p c h1 h2 => hparse j p c (by simpa using h1) h2) (by omega) (by omega)
  rw [List.append_nil] at this
  rw [this]
  simp [decodeRow, hn]

/-- Trailing data, given the columns that the tokenizer yields for the row: when the
parsers of the columns before some column accept and read them completely, and that column's
parser succeeds but leaves at least one byte of the raw column unread, `textRows.Next`
returns the error `trailing data after parsing the value`; `dest` afterwards holds the values
of the columns before it and is unchanged from that column's position on. -/
theorem Next_trailing_data_cols {σ V : Type} (rd : σ → Nat → ReadResult σ) (fuel : Nat)
    (t : textRows σ V) (dest : List V) (pre : List (List Byte)) (c : List Byte)
    (post : List (List Byte)) (p : DataParser V)
    (hrow : nextRowCols rd fuel t.tsv = some (pre ++ c :: post))
    (hpre : ∀ (i : Nat) (q : DataParser V) (b : List Byte),
      t.parsers[i]? = some q → pre[i]? = some b →
        (q.Parse b).err = none ∧ (q.Parse b).consumed = b.length)
    (hp : t.parsers[pre.length]? = some p) (hok : (p.Parse c).err = none)
    (htrail : (p.Parse c).consumed < c.length) (hdest : pre.length ≤ dest.length)
    (hfuel : (pre ++ c :: post).length < fuel) :
    (t.Next rd fuel dest).map (fun o => (o.1, o.2.2)) =
      some (NextResult.ret (some (Error.New "trailing data after parsing the value")),
        List.zipWith (fun q b => (q.Parse b).v) t.parsers pre ++ dest.drop pre.length) := by
  rw [Next_eq_decodeRow rd fuel t dest _ hrow hfuel]
  have hlt : pre.length < t.parsers.length := by
    by_contra hge
    rw [List.getElem?_eq_none (by omega)] at hp
    simp at hp
  rw [decodeRow_append t.parsers pre (c :: post) 0 dest
    (fun j q b h1 h2 => hpre j q b (by simpa using h1) h2) (by omega) (by omega)]
  simp [decodeRow, hp, hok, htrail]

theorem loop_false_inv {σ : Type} (rd : σ → Nat → ReadResult σ) :
    ∀ (fuel : Nat) (r r1 : tsvReader σ), tsvReader.NextRow.loop rd fuel r = some (false, r1) →
      r1.err ≠ none := by
  intro fuel
  induction fuel with
  | zero => intro r r1 h; simp [tsvReader.NextRow.loop] at h
  | succ fuel ih =>
    intro r r1 h
    rw [tsvReader.NextRow.loop] at h
    split at h
    · split at h
      · exact ih _ _ h
      · simp at h
    · simp only at h
      split at h
      · split at h
        · split at h <;>
          · simp only [Option.some.injEq, Prod.mk.injEq, true_and] at h
            subst h
            simp
        · exact ih _ _ h
      · simp only [Option.some.injEq, Prod.mk.injEq, true_and] at h
        subst h
        simp
      · exact ih _ _ h

theorem NextRow_false_inv {σ : Type} (rd : σ → Nat → ReadResult σ) (fuel : Nat)
    (r r1 : tsvReader σ) (h : r.NextRow rd fuel = some (false, r1)) : r1.err ≠ none := by
  unfold tsvReader.NextRow at h
  cases herr : r.err with
  | some e =>
    rw [herr] at h
    simp only [Option.some.injEq, Prod.mk.injEq, true_and] at h
    subst h
    simp [herr]
  | none =>
    rw [herr] at h
    exact loop_false_inv rd fuel _ _ h

theorem Next_loop_err {σ V : Type} (parsers : List (DataParser V)) :
    ∀ (fuel : Nat) (tsv : tsvReader σ) (i : Nat) (dest : List V)
      (out : NextResult × tsvReader σ × List V),
      tsv.err = none → tsv.row ≠ 0 →
      textRows.Next.loop parsers fuel tsv i dest = some out → out.2.1.err = none := by
  intro fuel
  induction fuel with
  | zero => intro tsv i dest out _ _ h; simp [textRows.Next.loop] at h
  | succ fuel ih =>
    intro tsv i dest out herr hrow h
    cases hp : pendingCols tsv with
    | nil =>
      rw [textRows.Next.loop, hasCols_of_pending_nil tsv herr hrow hp] at h
      simp only [Bool.false_eq_true, if_false, Option.some.injEq] at h
      subst h
      exact herr
    | cons c cs =>
      obtain ⟨h1, h2, h3, h4, h5⟩ := bytes_of_pending_cons tsv herr hrow c cs hp
      rw [textRows.Next.loop] at h
      simp only [h1, if_true, h2, Option.getD_some] at h
      split at h
      · simp only [Option.some.injEq] at h
        subst h
        exact h4
      · split at h
        · simp only [Option.some.injEq] at h
          subst h
          exact h4
        · split at h
          · simp only [Option.some.injEq] at h
            subst h
            exact h4
          · split at h
            · exact ih _ _ _ _ h4 (by rw [h5]; exact hrow) h
            · simp only [Option.some.injEq] at h
              subst h
              exact h4

/-- C10, as amended: faults of the tokenizer are terminal for a decoder. When a call of
`textRows.Next` leaves the tokenizer with its error set to `e` (a framing error, an I/O
error or `io.EOF`), that call has returned `e` and has written nothing to `dest`, and every
later call of `Next`, whatever the reader does and with whatever `dest`, returns `e` again
and leaves the decoder and `dest` as they are. -/
theorem Next_tokenizer_error_terminal {σ V : Type} (rd : σ → Nat → ReadResult σ)
    (fuel : Nat) (t t1 : textRows σ V) (dest dest1 : List V) (res : NextResult) (e : Error)
    (hcall : t.Next rd fuel dest = some (res, t1, dest1)) (herr : t1.tsv.err = some e) :
    res = NextResult.ret (some e) ∧ dest1 = dest ∧
      ∀ (rd2 : σ → Nat → ReadResult σ) (fuel2 : Nat) (dest2 : List V),
        t1.Next rd2 fuel2 dest2 = some (NextResult.ret (some e), t1, dest2) := by
  refine ⟨?_, ?_, ?_⟩
  · unfold textRows.Next at hcall
    cases hnr : t.tsv.NextRow rd fuel with
    | none => rw [hnr] at hcall; simp at hcall
    | some p =>
      obtain ⟨b, tsv1⟩ := p
      rw [hnr] at hcall
      simp only at hcall
      cases he : tsv1.Error with
      | some e1 =>
        rw [he] at hcall
        simp only [Option.some.injEq, Prod.mk.injEq] at hcall
        obtain ⟨rfl, rfl, rfl⟩ := hcall
        simp only [tsvReader.Error] at he
        rw [he] at herr
        rw [Option.some.inj herr]
      | none =>
        rw [he] at hcall
        simp only [tsvReader.Error] at he
        cases b with
        | false => exact absurd he (NextRow_false_inv rd fuel _ _ hnr)
        | true =>
          cases hl : textRows.Next.loop t.parsers fuel tsv1 0 dest with
          | none => rw [hl] at hcall; simp at hcall
          | some out =>
            rw [hl] at hcall
            simp only [Option.map_some', Option.some.injEq, Prod.mk.injEq] at hcall
            obtain ⟨-, rfl, -⟩ := hcall
            have := Next_loop_err t.parsers fuel tsv1 0 dest out he
              (NextRow_true_inv rd fuel _ _ hnr).2 hl
            simp only at herr
            rw [this] at herr
            simp at herr
  · unfold textRows.Next at hcall
    cases hnr : t.tsv.NextRow rd fuel with
    | none => rw [hnr] at hcall; simp at hcall
    | some p =>
      obtain ⟨b, tsv1⟩ := p
      rw [hnr] at hcall
      simp only at hcall
      cases he : tsv1.Error with
      | some e1 =>
        rw [he] at hcall
        simp only [Option.some.injEq, Prod.mk.injEq] at hcall
        exact hcall.2.2.symm
      | none =>
        rw [he] at hcall
        simp only [tsvReader.Error] at he
        cases b with
        | false => exact absurd he (NextRow_false_inv rd fuel _ _ hnr)
        | true =>
          cases hl : textRows.Next.loop t.parsers fuel tsv1 0 dest with
          | none => rw [hl] at hcall; simp at hcall
          | some out =>
            rw [hl] at hcall
            simp only [Option.map_some', Option.some.injEq, Prod.mk.injEq] at hcall
            obtain ⟨-, rfl, -⟩ := hcall
            have := Next_loop_err t.parsers fuel tsv1 0 dest out he
              (NextRow_true_inv rd fuel _ _ hnr).2 hl
            simp only at herr
            rw [this] at herr
            simp at herr
  · intro rd2 fuel2 dest2
    simp [textRows.Next, tsvReader.NextRow, tsvReader.Error, herr]

/-- Witness for C10 as amended: the stream `"n	m
T	U
"` without a data row; the first
`Next` meets the end of the stream and returns `io.EOF`, and so does every later one. -/
theorem Next_tokenizer_error_terminal_witness :
    NextResult.ret (some Error.EOF) = NextResult.ret (some Error.EOF) ∧
    ([0, 0] : List Nat) = [0, 0] ∧
    ∀ (rd2 : stringsReader → Nat → ReadResult stringsReader) (fuel2 : Nat) (dest2 : List Nat),
      ({ exampleRows [] with
          tsv := { (exampleRows []).tsv with
            row := 3, col := 0, rowBytes := some [], err := some Error.EOF } } :
        textRows stringsReader Nat).Next rd2 fuel2 dest2 =
        some (NextResult.ret (some Error.EOF),
          { exampleRows [] with
            tsv := { (exampleRows []).tsv with
              row := 3, col := 0, rowBytes := some [], err := some Error.EOF } },
          dest2) :=
  Next_tokenizer_error_terminal stringsReader.Read 8 (exampleRows []) _ [0, 0] [0, 0]
    (NextResult.ret (some Error.EOF)) Error.EOF rfl rfl

/-- Counterexample to C10 as stated: on the stream `"n	m
T	U
x	1
4	2
"` the first
`Next` returns the value parser's error for `x` (a non-nil error), and the next call of
`Next` on the same decoder returns nil and decodes the following row into `dest`. -/
theorem Next_parser_error_not_terminal :
    ∃ (t1 : textRows stringsReader Nat) (d1 : List Nat),
      (exampleRows [120, 9, 49, 10, 52, 9, 50, 10]).Next stringsReader.Read 8 [0, 0] =
        some (NextResult.ret (some (Error.New "not a digit")), t1, d1) ∧
      (t1.Next stringsReader.Read 8 d1).map (fun o => (o.1, o.2.2)) =
        some (NextResult.ret none, [4, 2]) :=
  ⟨_, _, rfl, rfl⟩

/-! ## Rows that do not fit in the read window -/

/-- More fuel does not change what the loop of `NextRow` returns. -/
theorem loop_mono {σ : Type} (rd : σ → Nat → ReadResult σ) (n : Nat) :
    ∀ (fuel : Nat) (r : tsvReader σ) (x : Bool × tsvReader σ),
      tsvReader.NextRow.loop rd fuel r = some x →
      tsvReader.NextRow.loop rd (fuel + n) r = some x := by
  intro fuel
  induction fuel with
  | zero => intro r x h; simp [tsvReader.NextRow.loop] at h
  | succ fuel ih =>
    intro r x h
    rw [show fuel + 1 + n = (fuel + n) + 1 by omega]
    rw [tsvReader.NextRow.loop] at h ⊢
    split
    · rename_i p hidx
      simp only [hidx] at h
      split
      · rename_i hs
        rw [if_pos hs] at h
        exact ih _ _ h
      · rename_i hs
        rw [if_neg hs] at h
        exact h
    · rename_i hidx
      simp only [hidx] at h ⊢
      generalize rd r.r (readBufLen - min readBufLen r.readSlice.length) = res at h ⊢
      obtain ⟨d, e, nx⟩ := res
      cases e with
      | none =>
        simp only at h ⊢
        exact ih _ _ h
      | some e =>
        cases e with
        | EOF =>
          simp only at h ⊢
          split
          · rename_i h0
            rw [if_pos h0] at h
            exact h
          · rename_i h0
            rw [if_neg h0] at h
            exact ih _ _ h
        | New m => exact h
        | noNewline m => exact h
        | failedRead m c => exact h

theorem NextRow_mono {σ : Type} (rd : σ → Nat → ReadResult σ) (n fuel : Nat)
    (r : tsvReader σ) (x : Bool × tsvReader σ) (h : r.NextRow rd fuel = some x) :
    r.NextRow rd (fuel + n) = some x := by
  obtain ⟨row, col, maxCol, w, rb, rs, st, err⟩ := r
  cases err with
  | some e => exact h
  | none => exact loop_mono rd n fuel _ _ h

/-- More fuel does not change what the column loop of the driver returns. -/
theorem cols_mono {σ : Type} (n : Nat) :
    ∀ (fuel : Nat) (r : tsvReader σ) (row : List (List Byte))
      (x : List (List Byte) × tsvReader σ),
      readAll.cols fuel r row = some x → readAll.cols (fuel + n) r row = some x := by
  intro fuel
  induction fuel with
  | zero => intro r row x h; simp [readAll.cols] at h
  | succ fuel ih =>
    intro r row x h
    rw [show fuel + 1 + n = (fuel + n) + 1 by omega]
    rw [readAll.cols] at h ⊢
    split
    · rename_i hc
      rw [if_pos hc] at h
      exact ih _ _ _ h
    · rename_i hc
      rw [if_neg hc] at h
      exact h

/-- The read window never grows past `readBuf` while the reader keeps to `len(p)`. -/
theorem loop_window_le {σ : Type} (rd : σ → Nat → ReadResult σ)
    (I : List Byte → Nat → σ → Prop) (hd : Delivers rd I) :
    ∀ (fuel : Nat) (r : tsvReader σ) (s : List Byte) (k : Nat) (x : Bool × tsvReader σ),
      I s k r.r → r.readSlice.length ≤ readBufLen →
      tsvReader.NextRow.loop rd fuel r = some x → x.2.readSlice.length ≤ readBufLen := by
  intro fuel
  induction fuel with
  | zero => intro r s k x _ _ h; simp [tsvReader.NextRow.loop] at h
  | succ fuel ih =>
    intro r s k x hI hw h
    rw [tsvReader.NextRow.loop] at h
    split at h
    · split at h
      · refine ih _ s k x ?_ ?_ h
        · exact hI
        · simp only [List.length_drop]; omega
      · simp only [Option.some.injEq] at h
        subst h
        simp only [List.length_drop]
        omega
    · obtain ⟨s1, k1, hs, hI1, -, hlen, -, -⟩ :=
        hd.step s k r.r (readBufLen - min readBufLen r.readSlice.length) hI
      have hnew : (List.take (min readBufLen r.readSlice.length) r.readSlice ++
          (rd r.r (readBufLen - min readBufLen r.readSlice.length)).data).length ≤
          readBufLen := by
        simp only [List.length_append, List.length_take]
        omega
      simp only at h
      split at h
      · split at h
        · split at h <;>
          · simp only [Option.some.injEq] at h
            subst h
            exact hnew
        · refine ih _ s1 k1 x ?_ ?_ h
          · exact hI1
          · exact hnew
      · simp only [Option.some.injEq] at h
        subst h
        exact hnew
      · refine ih _ s1 k1 x ?_ ?_ h
        · exact hI1
        · exact hnew

theorem isPrefix_of_append_eq {w s long rest : List Byte} (h : w ++ s = long ++ rest)
    (hlen : w.length ≤ long.length) : ∃ u, long = w ++ u := by
  induction w generalizing long with
  | nil => exact ⟨long, rfl⟩
  | cons a ws ih =>
    cases long with
    | nil => simp at hlen
    | cons b ls =>
      simp only [List.cons_append, List.cons.injEq] at h
      simp only [List.length_cons, Nat.add_le_add_iff_right] at hlen
      obtain ⟨u, hu⟩ := ih h.2 hlen
      exact ⟨u, by rw [h.1, hu]; rfl⟩

/-- A row that does not fit: when the bytes still to come start with `readBufLen` or more
bytes free of line feeds and something follows them, the loop of `NextRow` never returns,
whatever the fuel, for every reader that delivers the stream. -/
theorem loop_hang {σ : Type} (rd : σ → Nat → ReadResult σ)
    (I : List Byte → Nat → σ → Prop) (hd : Delivers rd I) :
    ∀ (fuel : Nat) (r : tsvReader σ) (s : List Byte) (k : Nat) (long rest : List Byte),
      I s k r.r → r.readSlice ++ s = long ++ rest → LF ∉ long →
      readBufLen ≤ long.length → rest ≠ [] → r.readSlice.length ≤ readBufLen →
      tsvReader.NextRow.loop rd fuel r = none := by
  intro fuel
  induction fuel with
  | zero => intro r s k long rest _ _ _ _ _ _; rfl
  | succ fuel ih =>
    intro r s k long rest hI hrest hlong hlen hne hw
    obtain ⟨u, hu⟩ := isPrefix_of_append_eq hrest (by omega)
    have hwlf : LF ∉ r.readSlice := fun hm => hlong (by rw [hu]; simp [hm])
    obtain ⟨s1, k1, hs, hI1, -, hdlen, herr, -⟩ :=
      hd.step s k r.r (readBufLen - min readBufLen r.readSlice.length) hI
    have hmin : min readBufLen r.readSlice.length = r.readSlice.length := by omega
    rw [hmin] at hs hI1 hdlen herr
    have hnew : (r.readSlice ++ (rd r.r (readBufLen - r.readSlice.length)).data).length ≤
        readBufLen := by
      simp only [List.length_append]; omega
    have hrest1 : (r.readSlice ++ (rd r.r (readBufLen - r.readSlice.length)).data) ++ s1 =
        long ++ rest := by
      rw [List.append_assoc, ← hs]; exact hrest
    have hnone : (rd r.r (readBufLen - r.readSlice.length)).err = none := by
      rcases herr with he | ⟨-, hs1⟩
      · exact he
      · exfalso
        rw [hs1, List.append_nil] at hrest1
        have := congrArg List.length hrest1
        have hpos := List.length_pos.mpr hne
        simp only [List.length_append] at this hnew
        omega
    rw [tsvReader.NextRow.loop, IndexByte_eq_none hwlf]
    simp only [hmin, List.take_length, hnone]
    refine ih _ s1 k1 long rest ?_ ?_ hlong hlen hne ?_
    · exact hI1
    · exact hrest1
    · exact hnew

/-- The method `NextRow` on a row that does not fit in the read window never returns. -/
theorem NextRow_hang {σ : Type} (rd : σ → Nat → ReadResult σ)
    (I : List Byte → Nat → σ → Prop) (hd : Delivers rd I) (fuel : Nat) (r : tsvReader σ)
    (s : List Byte) (k : Nat) (long rest : List Byte) (herr : r.err = none)
    (hI : I s k r.r) (hrest : r.readSlice ++ s = long ++ rest) (hlong : LF ∉ long)
    (hlen : readBufLen ≤ long.length) (hne : rest ≠ [])
    (hw : r.readSlice.length ≤ readBufLen) : r.NextRow rd fuel = none := by
  unfold tsvReader.NextRow
  rw [herr]
  simp only
  by_cases hc : r.maxCol < r.col
  · simp only [hc, if_true]
    exact loop_hang rd I hd fuel _ s k long rest hI hrest hlong hlen hne hw
  · simp only [hc, if_false]
    exact loop_hang rd I hd fuel _ s k long rest hI hrest hlong hlen hne hw

theorem NextRow_window_le {σ : Type} (rd : σ → Nat → ReadResult σ)
    (I : List Byte → Nat → σ → Prop) (hd : Delivers rd I) (fuel : Nat) (r : tsvReader σ)
    (s : List Byte) (k : Nat) (x : Bool × tsvReader σ) (hI : I s k r.r)
    (hw : r.readSlice.length ≤ readBufLen) (h : r.NextRow rd fuel = some x) :
    x.2.readSlice.length ≤ readBufLen := by
  obtain ⟨row, col, maxCol, w, rb, rs, st, err⟩ := r
  cases err with
  | some e =>
    simp only [tsvReader.NextRow, Option.some.injEq] at h
    subst h
    exact hw
  | none =>
    simp only [tsvReader.NextRow] at h
    by_cases hc : maxCol < col
    · simp only [hc, if_true] at h
      refine loop_window_le rd I hd fuel _ s k x ?_ ?_ h
      · exact hI
      · exact hw
    · simp only [hc, if_false] at h
      refine loop_window_le rd I hd fuel _ s k x ?_ ?_ h
      · exact hI
      · exact hw

/-- C6, the code at the failing input: for the stream of 16384 bytes `a` and a line feed
behind a `strings.Reader`, `NextRow` returns for no amount of fuel. The window fills with
the first 16384 bytes, holds no line feed, and every further `Read` gets an empty buffer and
answers `0, nil`. -/
theorem NextRow_long_row_never_returns :
    ¬ ∃ fuel : Nat,
      ((tsvReader.new (stringsReader.NewReader longRow)).NextRow stringsReader.Read
        fuel).isSome = true := by
  rintro ⟨fuel, h⟩
  rw [NextRow_hang stringsReader.Read stringsReader.Inv stringsReader_delivers fuel
    (tsvReader.new (stringsReader.NewReader longRow)) longRow 0
    (List.replicate readBufLen 97) [LF] rfl (stringsReader_inv_new _ 0)
    (by simp [tsvReader.new, longRow])
    (by simp [List.mem_replicate, LF])
    (by simp) (by simp) (by simp [tsvReader.new])] at h
  simp at h

/-- Counterexample to C4 as stated: the stream `"a\tb\n"`, 16384 bytes `x`, line feed, is
line-feed-terminated, yet behind a `strings.Reader` the driver loop returns for no amount
of fuel: after the row `a, b` the call of `NextRow` for the second row never returns, so
the non-empty line after the multi-column row is not yielded and the stream does not end
with `io.EOF`. -/
theorem readAll_long_second_row_never_returns :
    ¬ ∃ fuel : Nat,
      (readAll stringsReader.Read fuel
        (tsvReader.new (stringsReader.NewReader longSecondRow))).isSome = true := by
  rintro ⟨fuel, h⟩
  have hlf : LF ∉ List.replicate readBufLen 120 := by simp [List.mem_replicate, LF]
  simp only [readAll, Option.isSome_map'] at h
  obtain ⟨out, hout⟩ := Option.isSome_iff_exists.mp h
  obtain ⟨f, rfl⟩ : ∃ f, fuel = f + 1 := by
    cases fuel with
    | zero => simp [readAll.rows] at hout
    | succ f => exact ⟨f, rfl⟩
  rw [readAll.rows] at hout
  cases hnr : (tsvReader.new (stringsReader.NewReader longSecondRow)).NextRow
      stringsReader.Read f with
  | none => rw [hnr] at hout; simp at hout
  | some x =>
    rw [hnr] at hout
    have hw1 := NextRow_window_le stringsReader.Read stringsReader.Inv stringsReader_delivers
      f _ longSecondRow 0 x (stringsReader_inv_new _ 0) (by simp [tsvReader.new]) hnr
    have hbig := NextRow_mono stringsReader.Read (2 * longSecondRow.length + 1) f _ x hnr
    obtain ⟨r1, s1, k1, h1, h2, h3, h4, h5, h6, h7, h8, h9, -⟩ :=
      NextRow_yield stringsReader.Read stringsReader.Inv stringsReader_delivers
        (f + (2 * longSecondRow.length + 1))
        (tsvReader.new (stringsReader.NewReader longSecondRow)) longSecondRow 0 0
        [97, TAB, 98] (List.replicate readBufLen 120 ++ [LF]) rfl
        (stringsReader_inv_new _ 0) (by simp [tsvReader.new, longSecondRow]) (Or.inl rfl)
        (fun _ => by simp) (by decide) (by decide) (by simp only [tsvReader.new, List.length_nil]; omega)
    rw [h1] at hbig
    obtain rfl := Option.some.inj hbig
    simp only at hout hw1
    have hrs : r1.rowSlice = some [97, TAB, 98] := by rw [h7]; rfl
    cases hc : readAll.cols f r1 [] with
    | none => rw [hc] at hout; simp at hout
    | some y =>
      rw [hc] at hout
      have hcbig := cols_mono 3 f r1 [] y hc
      rw [cols_some (f + 3) [97, TAB, 98] r1 [] h5 (by omega) hrs (by
        have : (splitTabs [97, TAB, 98]).length = 2 := by decide
        omega)] at hcbig
      obtain rfl := Option.some.inj hcbig
      simp only at hout
      cases f with
      | zero => simp [readAll.rows] at hout
      | succ g =>
        rw [readAll.rows, NextRow_hang stringsReader.Read stringsReader.Inv
          stringsReader_delivers g
          { r1 with col := r1.col + (splitTabs [97, TAB, 98]).length, rowSlice := none }
          s1 k1 (List.replicate readBufLen 120) [LF] h5 h8 h9 hlf
          (by simp) (by simp) hw1] at hout
        simp at hout

/-- C5, the code at the failing input: for the stream `"\n"` the driver loop yields one row
with no column at all (`rowBytes` is still nil, appending nothing to it leaves it nil, and
`HasCols` is false at once), whereas an empty line after a non-empty one, as in `"a\n\n"`,
is yielded as one empty column. -/
theorem readAll_leading_empty_line :
    readAll stringsReader.Read 4 (tsvReader.new (stringsReader.NewReader [10])) =
        some ([[]], some Error.EOF) ∧
      readAll stringsReader.Read 8 (tsvReader.new (stringsReader.NewReader [97, 10, 10])) =
        some ([[[97]], [[]]], some Error.EOF) := by
  decide

/-! ## What the driver loop yields around empty lines -/

theorem splitTabs_length_of_mem {l : List Byte} (h : TAB ∈ l) : 2 ≤ (splitTabs l).length := by
  obtain ⟨pre, post, rfl⟩ := List.append_of_mem h
  induction pre with
  | nil =>
    have := splitTabs_ne_nil post
    simp only [List.nil_append, splitTabs, if_true, List.length_cons]
    have := List.length_pos.mpr this
    omega
  | cons b bs ih =>
    by_cases hb : b = TAB
    · have := List.length_pos.mpr (splitTabs_ne_nil (bs ++ TAB :: post))
      subst hb
      rw [List.cons_append, splitTabs, if_pos rfl, List.length_cons]
      omega
    · have := ih (by simp)
      simp only [List.cons_append, splitTabs, hb, if_false]
      cases hs : splitTabs (bs ++ TAB :: post) with
      | nil => rw [hs] at this; simp at this
      | cons p ps => rw [hs] at this; simpa [consHead] using this

theorem expectRows_of_multi (m : Nat) (hb : Bool) (ls : List (List Byte)) (hm : 1 < m) :
    expectRows m hb ls = (ls.filter (fun l => decide (l ≠ []))).map splitTabs := by
  induction ls generalizing m hb with
  | nil => rfl
  | cons l ls ih =>
    by_cases hl : l = []
    · subst hl
      rw [expectRows_skip _ _ _ hm, ih m hb hm]
      simp
    · rw [expectRows_yield _ _ _ _ (fun hc => hl hc.1),
        ih _ _ (lt_of_lt_of_le hm (le_max_left _ _))]
      simp [rowOf, hl]

theorem expectRows_append (pre : List (List Byte)) :
    ∀ (m : Nat) (hb : Bool), ∃ (m1 : Nat) (hb1 : Bool), m ≤ m1 ∧
      ∀ rest, expectRows m hb (pre ++ rest) = expectRows m hb pre ++ expectRows m1 hb1 rest := by
  induction pre with
  | nil => intro m hb; exact ⟨m, hb, le_refl _, fun rest => by simp [expectRows]⟩
  | cons l ls ih =>
    intro m hb
    by_cases hskip : l = [] ∧ 1 < m
    · obtain ⟨m1, hb1, hle, h⟩ := ih m hb
      refine ⟨m1, hb1, hle, fun rest => ?_⟩
      obtain ⟨rfl, hm⟩ := hskip
      rw [List.cons_append, expectRows_skip _ _ _ hm, expectRows_skip _ _ _ hm, h rest]
    · obtain ⟨m1, hb1, hle, h⟩ := ih (max m (rowOf hb l).length) (hb || !l.isEmpty)
      refine ⟨m1, hb1, by omega, fun rest => ?_⟩
      rw [List.cons_append, expectRows_yield _ _ _ _ hskip, expectRows_yield _ _ _ _ hskip,
        h rest]
      simp

/-- For a line-feed-terminated input whose lines fit in the read window, the rows the
driver loop yields after a row of more than one column are exactly the non-empty lines
after it, split at tabs, and the stream ends with `io.EOF`; the rows before it are given by
`expectRows`. -/
theorem readAll_after_multi_column {σ : Type} (rd : σ → Nat → ReadResult σ)
    (I : List Byte → Nat → σ → Prop) (hd : Delivers rd I)
    (pre : List (List Byte)) (m : List Byte) (post : List (List Byte))
    (k : Nat) (st : σ) (fuel : Nat)
    (hI : I (unlines (pre ++ m :: post)) k st)
    (hlines : ∀ l ∈ pre ++ m :: post, LF ∉ l ∧ l.length + 1 ≤ readBufLen)
    (hm : TAB ∈ m) (hfuel : 2 * (unlines (pre ++ m :: post)).length + k + 2 ≤ fuel) :
    readAll rd fuel (tsvReader.new st) =
      some (expectRows 0 false pre ++
          splitTabs m :: (post.filter (fun l => decide (l ≠ []))).map splitTabs,
        some Error.EOF) := by
  have hsplit : splitLines (unlines (pre ++ m :: post)) = (pre ++ m :: post, []) := by
    have := splitLines_unlines (pre ++ m :: post) [] (fun l hl => (hlines l hl).1) (by simp)
    simpa using this
  have h := readAll_spec rd I hd _ k st fuel hI
    ⟨by rw [hsplit]; exact fun l hl => (hlines l hl).2, by rw [hsplit]; simp⟩
    (by rw [hsplit]; simp [readBufLen]) hfuel
  rw [h, hsplit]
  obtain ⟨m1, hb1, -, happ⟩ := expectRows_append pre 0 false
  have hne : m ≠ [] := by intro h0; rw [h0] at hm; simp at hm
  have h2 := splitTabs_length_of_mem hm
  rw [happ, expectRows_yield _ _ _ _ (fun hc => hne hc.1)]
  have hro : rowOf hb1 m = splitTabs m := by simp [rowOf, hne]
  rw [hro, expectRows_of_multi _ _ _
    (lt_of_lt_of_le (by omega : 1 < (splitTabs m).length) (le_max_right _ _))]
  simp [expectErr]

theorem mem_unlines_of_mem {ls : List (List Byte)} {l : List Byte} {b : Byte}
    (hl : l ∈ ls) (hb : b ∈ l) : b ∈ unlines ls := by
  induction ls with
  | nil => simp at hl
  | cons a as ih =>
    rcases List.mem_cons.mp hl with rfl | hl
    · simp [unlines, hb]
    · simp [unlines, ih hl]

theorem expectRows_single_column (ls : List (List Byte)) (hls : ∀ l ∈ ls, TAB ∉ l) :
    ∀ (m : Nat) (hb : Bool), m ≤ 1 →
      expectRows m hb ls =
        if hb then ls.map (fun l => [l])
        else (ls.takeWhile (fun l => l.isEmpty)).map (fun _ => []) ++
          (ls.dropWhile (fun l => l.isEmpty)).map (fun l => [l]) := by
  induction ls with
  | nil => intro m hb _; cases hb <;> simp [expectRows]
  | cons l ls ih =>
    intro m hb hm
    have ih' := ih (fun l hl => hls l (List.mem_cons_of_mem _ hl))
    have hl := splitTabs_no_tab (hls l (List.mem_cons_self _ _))
    rw [expectRows_yield _ _ _ _ (fun hc => by omega)]
    cases hb with
    | true =>
      have hro : rowOf true l = [l] := by simp [rowOf, hl]
      rw [hro, ih' _ _ (by simp; omega)]
      simp
    | false =>
      cases l with
      | nil =>
        have hro : rowOf false ([] : List Byte) = [] := by simp [rowOf]
        rw [hro, ih' _ _ (by simp; omega)]
        simp
      | cons a as =>
        have hro : rowOf false (a :: as) = [a :: as] := by simp [rowOf, hl]
        rw [hro, ih' _ _ (by simp; omega)]
        simp

/-- The part of C5 that the code keeps: for a line-feed-terminated input without a tab
whose lines fit in the read window, the driver loop yields one row per line; every line
from the first non-empty one on is one column holding the line's bytes (an empty column for
an empty line), and every empty line before it is a row without columns. -/
theorem readAll_single_column {σ : Type} (rd : σ → Nat → ReadResult σ)
    (I : List Byte → Nat → σ → Prop) (hd : Delivers rd I)
    (s : List Byte) (k : Nat) (st : σ) (fuel : Nat) (hI : I s k st)
    (hlast : s.getLast? = some LF) (htab : TAB ∉ s)
    (hlines : ∀ l ∈ (splitLines s).1, l.length + 1 ≤ readBufLen)
    (hfuel : 2 * s.length + k + 2 ≤ fuel) :
    readAll rd fuel (tsvReader.new st) =
      some (((splitLines s).1.takeWhile (fun l => l.isEmpty)).map (fun _ => []) ++
          ((splitLines s).1.dropWhile (fun l => l.isEmpty)).map (fun l => [l]),
        some Error.EOF) := by
  have ht := splitLines_tail_nil_of_getLast s hlast
  obtain ⟨h1, -, -⟩ := splitLines_spec s
  rw [ht, List.append_nil] at h1
  have hls : ∀ l ∈ (splitLines s).1, TAB ∉ l := by
    intro l hl hb
    exact htab (by rw [← h1]; exact mem_unlines_of_mem hl hb)
  have h := readAll_spec rd I hd s k st fuel hI ⟨hlines, by simp [ht]⟩
    (by simp [ht, readBufLen]) hfuel
  rw [h, expectRows_single_column _ hls 0 false (by omega), ht]
  simp [expectErr]

/-! ## A row that fits in the read window, and the tests of `tsvreader_test.go` -/

theorem intercalate_splitTabs (l : List Byte) : List.intercalate [TAB] (splitTabs l) = l := by
  induction l with
  | nil => rfl
  | cons b bs ih =>
    by_cases hb : b = TAB
    · subst hb
      rw [splitTabs, if_pos rfl]
      cases hs : splitTabs bs with
      | nil => exact absurd hs (splitTabs_ne_nil bs)
      | cons p ps =>
        rw [hs] at ih
        simp only [List.intercalate, List.intersperse, List.flatten_cons, List.nil_append,
          List.singleton_append] at ih ⊢
        rw [ih]
    · rw [splitTabs, if_neg hb]
      cases hs : splitTabs bs with
      | nil => exact absurd hs (splitTabs_ne_nil bs)
      | cons p ps =>
        rw [hs] at ih
        cases ps with
        | nil =>
          simp only [List.intercalate, List.intersperse, List.flatten_cons, List.flatten_nil,
            List.append_nil, consHead] at ih ⊢
          rw [ih]
        | cons q qs =>
          simp only [List.intercalate, List.intersperse, List.flatten_cons, consHead,
            List.cons_append] at ih ⊢
          rw [ih]

/-- The part of C6 that the code keeps: a line-feed-terminated row that fits in the read
window together with its line feed, and that is not a blank line the policy skips, is
yielded: `NextRow` returns true for every reader that delivers the stream, and the columns
the driver then reads are the row's bytes, split at tabs. -/
theorem NextRow_row_fits {σ : Type} (rd : σ → Nat → ReadResult σ)
    (I : List Byte → Nat → σ → Prop) (hd : Delivers rd I)
    (fuel : Nat) (r : tsvReader σ) (s : List Byte) (k : Nat) (line tail : List Byte)
    (herr : r.err = none) (hI : I s k r.r)
    (hrest : r.readSlice ++ s = line ++ LF :: tail)
    (hne : 1 < max r.maxCol r.col → line ≠ [])
    (hline : LF ∉ line) (hfit : line.length + 1 ≤ readBufLen)
    (hf : 2 * s.length + r.readSlice.length + k + 2 ≤ fuel) :
    (r.NextRow rd fuel).map Prod.fst = some true ∧
      ((r.NextRow rd fuel).bind (fun p => readAll.cols fuel p.2 [])).map
        (fun q => List.intercalate [TAB] q.1) = some line := by
  obtain ⟨r1, s1, k1, h1, h2, h3, h4, h5, h6, h7, -, -, -⟩ :=
    NextRow_yield rd I hd fuel r s k 0 line tail herr hI (by simpa using hrest) (Or.inl rfl)
      hne hline hfit (by omega)
  have hlen : line.length + 1 ≤ s.length + r.readSlice.length := by
    have := congrArg List.length hrest
    simp only [List.length_append, List.length_cons] at this
    omega
  refine ⟨by simp [h1], ?_⟩
  rw [h1, goAppend_sliceToZero] at *
  simp only [Option.some_bind]
  by_cases hz : line = [] ∧ r.rowBytes.isSome = false
  · rw [if_pos hz] at h7
    rw [cols_none fuel r1 [] h5 (by omega) h7 (by omega)]
    simp only [Option.map_some', hz.1]
    rfl
  · rw [if_neg hz] at h7
    rw [cols_some fuel line r1 [] h5 (by omega) h7
      (by have := splitTabs_length_le line; omega)]
    simp [intercalate_splitTabs]

/-- The cases of `TestTsvReader`, replayed on the embedding: the rows `readAll` returns and
the error the tokenizer ends with. -/
theorem test_TsvReader :
    -- error: NextRow not called
    (tsvReader.new (stringsReader.NewReader [97])).Bytes.1 = none ∧
    (tsvReader.new (stringsReader.NewReader [97])).Bytes.2.Error = none ∧
    (tsvReader.new (stringsReader.NewReader [97])).String.1 = [] ∧
    (tsvReader.new (stringsReader.NewReader [97])).HasCols.1 = false ∧
    (tsvReader.new (stringsReader.NewReader [97])).HasCols.2.Error =
      some (Error.New "NextRow must be called before") ∧
    -- error: last line without newline in the end
    (readAll stringsReader.Read 32
      (tsvReader.new (stringsReader.NewReader [97, 9, 98, 10, 99, 9, 100, 10, 101, 9, 102]))).map
        (fun o => (o.1, o.2.map Error.message)) =
      some ([[[97], [98]], [[99], [100]]], some "can not find newline for row #3") ∧
    -- 3 rows * 2 cols
    readAll stringsReader.Read 32
      (tsvReader.new (stringsReader.NewReader
        [97, 9, 98, 10, 99, 9, 100, 10, 101, 9, 102, 10])) =
      some ([[[97], [98]], [[99], [100]], [[101], [102]]], some Error.EOF) ∧
    -- variadic number of columns
    readAll stringsReader.Read 32
      (tsvReader.new (stringsReader.NewReader
        [97, 9, 98, 9, 99, 10, 100, 9, 101, 10, 102, 10])) =
      some ([[[97], [98], [99]], [[100], [101]], [[102]]], some Error.EOF) ∧
    -- empty lines are valid for single column
    readAll stringsReader.Read 32
      (tsvReader.new (stringsReader.NewReader [97, 10, 98, 10, 99, 10, 10, 10, 100, 10, 10])) =
      some ([[[97]], [[98]], [[99]], [[]], [[]], [[100]], [[]]], some Error.EOF) ∧
    -- empty lines are skipped for multiple columns
    readAll stringsReader.Read 32
      (tsvReader.new (stringsReader.NewReader
        [97, 9, 98, 10, 99, 9, 100, 10, 10, 10, 101, 9, 102, 10, 10])) =
      some ([[[97], [98]], [[99], [100]], [[101], [102]]], some Error.EOF) ∧
    -- read buffer issue
    readAll chunkedReader.Read 32
      (tsvReader.new (chunkedReader.mk
        [[97, 9, 98, 10, 99, 9, 100], [10, 101, 9, 102, 10]] 0)) =
      some ([[[97], [98]], [[99], [100]], [[101], [102]]], some Error.EOF) := by
  refine ⟨rfl, rfl, rfl, rfl, rfl, ?_, ?_, ?_, ?_, ?_, ?_⟩ <;> decide

/-- C4, as amended: for every line-feed-terminated input whose lines each fit with their
line feed in the read window, read with the driver loop: when a line `m` holds a tab (its
row has more than one column), the rows yielded after the row of `m` are exactly the
non-empty lines after `m`, split at tabs, in order, every zero-length line after `m` being
skipped (the one right after `m` included), and the stream ends with `io.EOF`, also after
trailing blank lines. The rows before the row of `m` are those the loop yields for the
lines before `m` alone. -/
theorem readAll_blank_lines_skipped {σ τ : Type}
    (rd : σ → Nat → ReadResult σ) (I : List Byte → Nat → σ → Prop) (hd : Delivers rd I)
    (rdP : τ → Nat → ReadResult τ) (IP : List Byte → Nat → τ → Prop) (hdP : Delivers rdP IP)
    (pre : List (List Byte)) (m : List Byte) (post : List (List Byte))
    (k kP : Nat) (st : σ) (stP : τ) (fuel fuelP : Nat)
    (hI : I (unlines (pre ++ m :: post)) k st) (hIP : IP (unlines pre) kP stP)
    (hlines : ∀ l ∈ pre ++ m :: post, LF ∉ l ∧ l.length + 1 ≤ readBufLen)
    (hm : TAB ∈ m)
    (hfuel : 2 * (unlines (pre ++ m :: post)).length + k + 2 ≤ fuel)
    (hfuelP : 2 * (unlines pre).length + kP + 2 ≤ fuelP) :
    (readAll rdP fuelP (tsvReader.new stP)).isSome = true ∧
      readAll rd fuel (tsvReader.new st) =
        (readAll rdP fuelP (tsvReader.new stP)).map
          (fun out =>
            (out.1 ++ splitTabs m :: (post.filter (fun l => decide (l ≠ []))).map splitTabs,
              some Error.EOF)) := by
  have h := readAll_after_multi_column rd I hd pre m post k st fuel hI hlines hm hfuel
  have hsplit : splitLines (unlines pre) = (pre, []) := by
    have := splitLines_unlines pre []
      (fun l hl => (hlines l (List.mem_append_left _ hl)).1) (by simp)
    simpa using this
  have hP := readAll_spec rdP IP hdP (unlines pre) kP stP fuelP hIP
    ⟨by rw [hsplit]; exact fun l hl => (hlines l (List.mem_append_left _ hl)).2,
      by rw [hsplit]; simp⟩
    (by rw [hsplit]; simp [readBufLen]) hfuelP
  rw [hsplit] at hP
  rw [h, hP]
  simp

/-- Witness for C4 as amended: the input `"x\n\na\tb\n\nc\n\n"`; before the row `a, b` the
empty line is a row, after it the empty lines are skipped. -/
theorem readAll_blank_lines_skipped_witness :
    (readAll stringsReader.Read 8
        (tsvReader.new (stringsReader.NewReader (unlines [[120], []])))).isSome = true ∧
    readAll stringsReader.Read 26
        (tsvReader.new (stringsReader.NewReader
          (unlines ([[120], []] ++ [97, 9, 98] :: [[], [99], []])))) =
      (readAll stringsReader.Read 8
        (tsvReader.new (stringsReader.NewReader (unlines [[120], []])))).map
        (fun out =>
          (out.1 ++ splitTabs [97, 9, 98] ::
              (([[], [99], []] : List (List Byte)).filter
                (fun l => decide (l ≠ []))).map splitTabs,
            some Error.EOF)) :=
  readAll_blank_lines_skipped stringsReader.Read stringsReader.Inv stringsReader_delivers
    stringsReader.Read stringsReader.Inv stringsReader_delivers
    [[120], []] [97, 9, 98] [[], [99], []] 0 0 _ _ 26 8
    (stringsReader_inv_new _ 0) (stringsReader_inv_new _ 0)
    (by decide) (by decide) (by decide) (by decide)

/-! ## Accessors before the first `NextRow` -/

/-- C11, as amended: on a freshly created tokenizer `HasCols` returns false and
sets the usage error `NextRow must be called before`; from then on every operation, with any
reader and with no fuel at all, gives its inert value and leaves the tokenizer as it is, so
any sequence of later accessor and `NextRow` calls reports the same error and reads nothing.
`Bytes` and `String` on a fresh tokenizer set no error. -/
theorem fresh_HasCols_usage_error {σ : Type} (rd : σ → Nat → ReadResult σ) (fuel : Nat)
    (st : σ) :
    (tsvReader.new st).HasCols.1 = false ∧
      (tsvReader.new st).HasCols.2.Error = some (Error.New "NextRow must be called before") ∧
      (tsvReader.new st).HasCols.2.r = st ∧
      (∀ op : Op, (tsvReader.new st).HasCols.2.call rd fuel op =
        some (op.inert, (tsvReader.new st).HasCols.2)) ∧
      (∀ ops : List Op, tsvReader.calls rd fuel ops (tsvReader.new st).HasCols.2 =
        some (tsvReader.new st).HasCols.2) ∧
      (tsvReader.new st).Bytes.2.Error = none ∧ (tsvReader.new st).String.2.Error = none := by
  have herr : (tsvReader.new st).HasCols.2.err =
      some (Error.New "NextRow must be called before") := rfl
  refine ⟨rfl, rfl, rfl, fun op => call_of_err rd fuel _ _ herr op, ?_, rfl, rfl⟩
  intro ops
  induction ops with
  | nil => rfl
  | cons op ops ih =>
    rw [tsvReader.calls, call_of_err rd fuel _ _ herr op]
    exact ih

/-- Counterexample to C11 as stated, for `Bytes` and `String`: on a fresh tokenizer over the stream
`"a"` they return nil and the empty string and `Error()` is nil afterwards; only `HasCols`
leaves the usage error. -/
theorem fresh_Bytes_String_no_error :
    (tsvReader.new (stringsReader.NewReader [97])).Bytes.1 = none ∧
      (tsvReader.new (stringsReader.NewReader [97])).Bytes.2.Error = none ∧
      (tsvReader.new (stringsReader.NewReader [97])).String.1 = [] ∧
      (tsvReader.new (stringsReader.NewReader [97])).String.2.Error = none ∧
      (tsvReader.new (stringsReader.NewReader [97])).HasCols.2.Error =
        some (Error.New "NextRow must be called before") :=
  ⟨rfl, rfl, rfl, rfl, rfl⟩

/-- C12: on a freshly created tokenizer over any stream, `Bytes` returns nil and
`String` returns the empty string, and both leave every field as it was (no error, `col` not
incremented, the reader untouched), also when they are called repeatedly; `HasCols`, called
before any `NextRow`, returns false and changes just the error, which becomes `NextRow must
be called before`. -/
theorem fresh_accessors {σ : Type} (st : σ) :
    (tsvReader.new st).Bytes = (none, tsvReader.new st) ∧
      (tsvReader.new st).String = ([], tsvReader.new st) ∧
      (tsvReader.new st).Error = none ∧
      (∀ (rd : σ → Nat → ReadResult σ) (fuel : Nat) (ops : List Op),
        (∀ op ∈ ops, op = Op.bytes ∨ op = Op.string) →
        tsvReader.calls rd fuel ops (tsvReader.new st) = some (tsvReader.new st)) ∧
      (tsvReader.new st).HasCols =
        (false, { tsvReader.new st with
          err := some (Error.New "NextRow must be called before") }) := by
  refine ⟨rfl, rfl, rfl, ?_, rfl⟩
  intro rd fuel ops hops
  induction ops with
  | nil => rfl
  | cons op ops ih =>
    have h1 : (tsvReader.new st).call rd fuel op = some (op.inert, tsvReader.new st) := by
      rcases hops op (List.mem_cons_self _ _) with h | h <;> subst h <;> rfl
    rw [tsvReader.calls, h1]
    exact ih (fun o ho => hops o (List.mem_cons_of_mem _ ho))

/-! ## What the tokenizer's operations do to its counters -/

/-- The loop of `NextRow` does not touch the counters, whatever it returns, and when it ends
with `io.EOF` the read window is empty. -/
theorem loop_frame {σ : Type} (rd : σ → Nat → ReadResult σ) :
    ∀ (fuel : Nat) (r r1 : tsvReader σ) (b : Bool),
      tsvReader.NextRow.loop rd fuel r = some (b, r1) →
      r1.row = r.row ∧ r1.col = r.col ∧ r1.maxCol = r.maxCol ∧
        (b = false → r1.err = some Error.EOF → r1.readSlice = []) := by
  intro fuel
  induction fuel with
  | zero => intro r r1 b h; simp [tsvReader.NextRow.loop] at h
  | succ fuel ih =>
    intro r r1 b h
    rw [tsvReader.NextRow.loop] at h
    split at h
    · split at h
      · have := ih _ _ _ h
        simpa using this
      · simp only [Option.some.injEq, Prod.mk.injEq] at h
        obtain ⟨hb, h⟩ := h
        subst h hb
        exact ⟨rfl, rfl, rfl, by simp⟩
    · simp only at h
      split at h
      · split at h
        · split at h
          · simp only [Option.some.injEq, Prod.mk.injEq] at h
            obtain ⟨hb, h⟩ := h
            subst h hb
            exact ⟨rfl, rfl, rfl, by simp⟩
          · rename_i hlen
            simp only [Option.some.injEq, Prod.mk.injEq] at h
            obtain ⟨hb, h⟩ := h
            subst h hb
            refine ⟨rfl, rfl, rfl, fun _ _ => ?_⟩
            exact List.eq_nil_of_length_eq_zero (Nat.eq_zero_of_not_pos hlen)
        · have := ih _ _ _ h
          simpa using this
      · simp only [Option.some.injEq, Prod.mk.injEq] at h
        obtain ⟨hb, h⟩ := h
        subst h hb
        exact ⟨rfl, rfl, rfl, by simp⟩
      · have := ih _ _ _ h
        simpa using this

/-- What a `NextRow` call on a tokenizer without error does to the counters, whatever it
returns: the row index goes up by one, `col` is reset and `maxCol` takes in the columns read
in the row that the call closes. -/
theorem NextRow_frame {σ : Type} (rd : σ → Nat → ReadResult σ) (fuel : Nat)
    (r r1 : tsvReader σ) (b : Bool) (herr : r.err = none)
    (h : r.NextRow rd fuel = some (b, r1)) :
    r1.row = r.row + 1 ∧ r1.col = 0 ∧ r1.maxCol = max r.maxCol r.col ∧
      (b = false → r1.err = some Error.EOF → r1.readSlice = []) := by
  unfold tsvReader.NextRow at h
  rw [herr] at h
  simp only at h
  have := loop_frame rd fuel _ _ _ h
  by_cases hc : r.maxCol < r.col
  · simp only [hc, if_true] at this
    refine ⟨this.1, this.2.1, ?_, this.2.2.2⟩
    rw [this.2.2.1]; omega
  · simp only [hc, if_false] at this
    refine ⟨this.1, this.2.1, ?_, this.2.2.2⟩
    rw [this.2.2.1]; omega

/-- The accessors leave the row index alone. -/
theorem accessor_row {σ : Type} (r : tsvReader σ) :
    r.HasCols.2.row = r.row ∧ r.Bytes.2.row = r.row ∧ r.String.2.row = r.row := by
  have hb : r.Bytes.2.row = r.row := by
    unfold tsvReader.Bytes
    split
    · rfl
    · rfl
    · split <;> rfl
  refine ⟨?_, hb, hb⟩
  unfold tsvReader.HasCols
  split
  · rfl
  · split <;> rfl

/-- C17, as amended: for every tokenizer state, every reader and every
operation that returns: the row index never decreases; it goes up, by exactly one, on every
`NextRow` call made on a tokenizer without error, whether the call returns true or false
(clean end, framing error, I/O error), since `row++` comes before the search for the line
feed; a `NextRow` call on a tokenizer that already has an error and every
`HasCols`/`Bytes`/`String` call leave it unchanged. -/
theorem row_index_step {σ : Type} (rd : σ → Nat → ReadResult σ) (fuel : Nat)
    (r r1 : tsvReader σ) (op : Op) (ret : Ret) (h : r.call rd fuel op = some (ret, r1)) :
    r.row ≤ r1.row ∧
      r1.row = (if op = Op.nextRow ∧ r.err = none then r.row + 1 else r.row) := by
  have key : r1.row = (if op = Op.nextRow ∧ r.err = none then r.row + 1 else r.row) := by
    cases op with
    | nextRow =>
      cases herr : r.err with
      | some e =>
        rw [call_of_err rd fuel r e herr] at h
        simp only [Option.some.injEq, Prod.mk.injEq] at h
        rw [← h.2]
        simp
      | none =>
        simp only [tsvReader.call, Option.map_eq_some'] at h
        obtain ⟨⟨b, r2⟩, h1, h2⟩ := h
        simp only [Prod.mk.injEq] at h2
        rw [← h2.2]
        simp [(NextRow_frame rd fuel r r2 b herr h1).1]
    | hasCols =>
      simp only [tsvReader.call, Option.some.injEq, Prod.mk.injEq] at h
      rw [← h.2]
      simp [(accessor_row r).1]
    | bytes =>
      simp only [tsvReader.call, Option.some.injEq, Prod.mk.injEq] at h
      rw [← h.2]
      simp [(accessor_row r).2.1]
    | string =>
      simp only [tsvReader.call, Option.some.injEq, Prod.mk.injEq] at h
      rw [← h.2]
      simp [(accessor_row r).2.2]
  refine ⟨?_, key⟩
  rw [key]
  split <;> omega

/-- Witness for C17: `NextRow` on a fresh tokenizer over the empty stream returns false with
`io.EOF`, and the row index has gone from 0 to 1. -/
theorem row_index_step_witness :
    (tsvReader.new (stringsReader.NewReader [])).call stringsReader.Read 1 Op.nextRow =
        some (Ret.bool false,
          { tsvReader.new (stringsReader.NewReader []) with
            row := 1, err := some Error.EOF }) ∧
      (tsvReader.new (stringsReader.NewReader [])).row ≤ 1 ∧
      1 = (if Op.nextRow = Op.nextRow ∧
            (tsvReader.new (stringsReader.NewReader [])).err = none
          then (tsvReader.new (stringsReader.NewReader [])).row + 1
          else (tsvReader.new (stringsReader.NewReader [])).row) :=
  ⟨rfl, row_index_step stringsReader.Read 1 (tsvReader.new (stringsReader.NewReader []))
    { tsvReader.new (stringsReader.NewReader []) with row := 1, err := some Error.EOF }
    Op.nextRow (Ret.bool false) rfl⟩

/-- Counterexample to C17 as stated: a `NextRow` call that returns false moves the row index. On
the empty stream the first call returns false with `io.EOF` and leaves `row = 1`; on the
unterminated stream `"a"` it returns false with the framing error for row 1 and leaves
`row = 1`. -/
theorem NextRow_false_moves_row :
    (∃ r1, (tsvReader.new (stringsReader.NewReader [])).NextRow stringsReader.Read 1 =
        some (false, r1) ∧ r1.err = some Error.EOF ∧
        (tsvReader.new (stringsReader.NewReader [])).row = 0 ∧ r1.row = 1) ∧
      (∃ r1, (tsvReader.new (stringsReader.NewReader [97])).NextRow stringsReader.Read 2 =
        some (false, r1) ∧ r1.err = some (Error.noNewline 1) ∧
        (tsvReader.new (stringsReader.NewReader [97])).row = 0 ∧ r1.row = 1) :=
  ⟨⟨_, rfl, rfl, rfl, rfl⟩, ⟨_, rfl, rfl, rfl, rfl⟩⟩

/-! ## `HasCols` and the row view -/

/-- The accessors keep a tokenizer that is inside a row and without error in that state. -/
theorem accessor_in_row {σ : Type} (r : tsvReader σ) (herr : r.err = none) (hrow : r.row ≠ 0) :
    r.HasCols = (r.rowSlice.isSome, r) ∧ r.Bytes.2.err = none ∧ r.Bytes.2.row = r.row := by
  refine ⟨?_, ?_, (accessor_row r).2.1⟩
  · unfold tsvReader.HasCols
    rw [herr]
    simp [hrow]
  · unfold tsvReader.Bytes
    split
    · exact herr
    · exact herr
    · split <;> exact herr

/-- Accessor calls after a successful `NextRow` stay inside the row and set no error. -/
theorem calls_in_row {σ : Type} (rd : σ → Nat → ReadResult σ) (fuel : Nat) :
    ∀ (ops : List Op) (r r1 : tsvReader σ), r.err = none → r.row ≠ 0 →
      (∀ op ∈ ops, op ≠ Op.nextRow) → tsvReader.calls rd fuel ops r = some r1 →
      r1.err = none ∧ r1.row = r.row := by
  intro ops
  induction ops with
  | nil =>
    intro r r1 herr _ _ h
    simp only [tsvReader.calls, Option.some.injEq] at h
    subst h
    exact ⟨herr, rfl⟩
  | cons op ops ih =>
    intro r r1 herr hrow hops h
    have hrest : ∀ o ∈ ops, o ≠ Op.nextRow := fun o ho => hops o (List.mem_cons_of_mem _ ho)
    obtain ⟨h1, h2, h3⟩ := accessor_in_row r herr hrow
    cases op with
    | nextRow => exact absurd rfl (hops Op.nextRow (List.mem_cons_self _ _))
    | hasCols =>
      simp only [tsvReader.calls, tsvReader.call, h1] at h
      exact ih r r1 herr hrow hrest h
    | bytes =>
      simp only [tsvReader.calls, tsvReader.call] at h
      obtain ⟨e1, e2⟩ := ih _ r1 h2 (by rw [h3]; exact hrow) hrest h
      exact ⟨e1, e2.trans h3⟩
    | string =>
      simp only [tsvReader.calls, tsvReader.call, tsvReader.String] at h
      obtain ⟨e1, e2⟩ := ih _ r1 h2 (by rw [h3]; exact hrow) hrest h
      exact ⟨e1, e2.trans h3⟩

/-- C15, as amended: in every tokenizer state reached after a successful
`NextRow` and any number of accessor calls, `HasCols` returns true if and only if the
remaining row view is non-nil, that is, if and only if a column of the current row has still
to be handed out; it changes nothing. The view may be empty and non-nil: an empty last column
(or an empty row once `rowBytes` is non-nil) still counts. -/
theorem HasCols_iff_view_non_nil {σ : Type} (rd : σ → Nat → ReadResult σ) (fuel : Nat)
    (r0 r r1 : tsvReader σ) (ops : List Op)
    (hnext : r0.NextRow rd fuel = some (true, r))
    (hops : ∀ op ∈ ops, op ≠ Op.nextRow)
    (hcalls : tsvReader.calls rd fuel ops r = some r1) :
    r1.HasCols.2 = r1 ∧ (r1.HasCols.1 = true ↔ r1.rowSlice ≠ none) ∧
      (r1.HasCols.1 = true ↔ pendingCols r1 ≠ []) := by
  obtain ⟨herr, hrow⟩ := NextRow_true_inv rd fuel r0 r hnext
  obtain ⟨e1, e2⟩ := calls_in_row rd fuel ops r r1 herr hrow hops hcalls
  obtain ⟨h1, _, _⟩ := accessor_in_row r1 e1 (by rw [e2]; exact hrow)
  rw [h1]
  refine ⟨rfl, ?_, ?_⟩
  · cases r1.rowSlice <;> simp
  · unfold pendingCols
    cases hrs : r1.rowSlice with
    | none => simp
    | some l => simpa using splitTabs_ne_nil l

/-- Witness for C15: the stream `"a\t\n"`, after `NextRow` and one `Bytes` call. The row view
is empty and non-nil, and `HasCols` is true. -/
theorem HasCols_iff_view_non_nil_witness :
    ({ tsvReader.new (stringsReader.mk [97, 9, 10] 3) with
        row := 1, col := 1, rowBytes := some [97, 9], rowSlice := some [] } :
      tsvReader stringsReader).HasCols.2 =
      { tsvReader.new (stringsReader.mk [97, 9, 10] 3) with
        row := 1, col := 1, rowBytes := some [97, 9], rowSlice := some [] } ∧
    (({ tsvReader.new (stringsReader.mk [97, 9, 10] 3) with
        row := 1, col := 1, rowBytes := some [97, 9], rowSlice := some [] } :
      tsvReader stringsReader).HasCols.1 = true ↔
      (some [] : Option (List Byte)) ≠ none) ∧
    (({ tsvReader.new (stringsReader.mk [97, 9, 10] 3) with
        row := 1, col := 1, rowBytes := some [97, 9], rowSlice := some [] } :
      tsvReader stringsReader).HasCols.1 = true ↔
      pendingCols ({ tsvReader.new (stringsReader.mk [97, 9, 10] 3) with
        row := 1, col := 1, rowBytes := some [97, 9], rowSlice := some [] } :
      tsvReader stringsReader) ≠ []) :=
  HasCols_iff_view_non_nil stringsReader.Read 2
    (tsvReader.new (stringsReader.NewReader [97, 9, 10])) _ _ [Op.bytes] rfl (by decide) rfl

/-- Counterexample to C15 as stated: `HasCols` is true although the remaining row view has length
zero. On `"a\t\n"`, after `NextRow` and one `Bytes` call (which returns `a`), the view is
empty and `HasCols` is true; the second column is the empty one. On `"a\n\n"` the second
`NextRow` yields the empty line with an empty view, and `HasCols` is true. -/
theorem HasCols_true_on_empty_view :
    (∃ r, (tsvReader.new (stringsReader.NewReader [97, 9, 10])).NextRow stringsReader.Read 2 =
        some (true, r) ∧ r.Bytes.1 = some [97] ∧ r.Bytes.2.Error = none ∧
        r.Bytes.2.rowSlice = some [] ∧ r.Bytes.2.HasCols.1 = true ∧
        r.Bytes.2.HasCols.2.Bytes.1 = some []) ∧
      (∃ r r1, (tsvReader.new (stringsReader.NewReader [97, 10, 10])).NextRow
          stringsReader.Read 2 = some (true, r) ∧
        r.Bytes.2.NextRow stringsReader.Read 2 = some (true, r1) ∧ r1.Error = none ∧
        r1.rowSlice = some [] ∧ r1.HasCols.1 = true) :=
  ⟨⟨_, rfl, rfl, rfl, rfl, rfl, rfl⟩, ⟨_, _, rfl, rfl, rfl, rfl, rfl⟩⟩

/-! ## Raw pass-through of the column bytes, and the clean end of the stream -/

/-- A column of a line holds no tab, and only bytes of the line. -/
theorem splitTabs_mem : ∀ (l c : List Byte), c ∈ splitTabs l → TAB ∉ c ∧ ∀ b ∈ c, b ∈ l := by
  intro l
  induction l with
  | nil =>
    intro c hc
    simp only [splitTabs, List.mem_singleton] at hc
    subst hc
    simp
  | cons b bs ih =>
    intro c hc
    by_cases hb : b = TAB
    · rw [splitTabs, if_pos hb] at hc
      rcases List.mem_cons.mp hc with h | h
      · subst h; simp
      · exact ⟨(ih c h).1, fun x hx => List.mem_cons_of_mem _ ((ih c h).2 x hx)⟩
    · rw [splitTabs, if_neg hb] at hc
      cases hs : splitTabs bs with
      | nil => exact absurd hs (splitTabs_ne_nil bs)
      | cons p ps =>
        rw [hs] at hc ih
        simp only [consHead, List.mem_cons] at hc
        rcases hc with h | h
        · subst h
          have hp := ih p (List.mem_cons_self _ _)
          refine ⟨?_, ?_⟩
          · intro hmem
            rcases List.mem_cons.mp hmem with h1 | h1
            · exact hb h1.symm
            · exact hp.1 h1
          · intro x hx
            rcases List.mem_cons.mp hx with h1 | h1
            · subst h1; exact List.mem_cons_self _ _
            · exact List.mem_cons_of_mem _ (hp.2 x h1)
        · have hp := ih c (List.mem_cons_of_mem _ h)
          exact ⟨hp.1, fun x hx => List.mem_cons_of_mem _ (hp.2 x hx)⟩

/-- Joining the columns of every line with tabs and the lines with line feeds gives the
lines' byte string back. -/
theorem unlines_intercalate_splitTabs (ls : List (List Byte)) :
    unlines ((ls.map splitTabs).map (List.intercalate [TAB])) = unlines ls := by
  induction ls with
  | nil => rfl
  | cons l ls ih =>
    simp only [List.map_cons, unlines, intercalate_splitTabs, ih]

/-- A non-empty list of lines written out ends with a line feed. -/
theorem unlines_getLast (ls : List (List Byte)) (h : ls ≠ []) :
    (unlines ls).getLast? = some LF := by
  induction ls with
  | nil => exact absurd rfl h
  | cons l ls ih =>
    have key : (LF :: unlines ls).getLast? = some LF := by
      cases hu : unlines ls with
      | nil => rfl
      | cons x xs =>
        rw [List.getLast?_cons_cons, ← hu]
        apply ih
        intro hnil
        rw [hnil] at hu
        simp [unlines] at hu
    rw [unlines, List.getLast?_append, key]
    rfl

/-- Nothing follows the last line feed exactly when the input is empty or ends with a line
feed. -/
theorem splitLines_tail_nil_iff (s : List Byte) :
    (splitLines s).2 = [] ↔ (s = [] ∨ s.getLast? = some LF) := by
  constructor
  · intro h
    have hs := (splitLines_spec s).1
    rw [h, List.append_nil] at hs
    by_cases hl : (splitLines s).1 = []
    · left
      rw [← hs, hl]
      rfl
    · right
      rw [← hs]
      exact unlines_getLast _ hl
  · rintro (h | h)
    · subst h; rfl
    · exact splitLines_tail_nil_of_getLast s h

/-- The column loop of the driver keeps a tokenizer that is inside a row and without error in
that state. -/
theorem cols_in_row {σ : Type} :
    ∀ (fuel : Nat) (r : tsvReader σ) (row : List (List Byte))
      (x : List (List Byte) × tsvReader σ), r.err = none → r.row ≠ 0 →
      readAll.cols fuel r row = some x → x.2.err = none ∧ x.2.row = r.row := by
  intro fuel
  induction fuel with
  | zero => intro r row x _ _ h; simp [readAll.cols] at h
  | succ fuel ih =>
    intro r row x herr hrow h
    obtain ⟨h1, h2, h3⟩ := accessor_in_row r herr hrow
    rw [readAll.cols, h1] at h
    simp only at h
    split at h
    · obtain ⟨e1, e2⟩ := ih _ _ _ h2 (by rw [h3]; exact hrow) h
      exact ⟨e1, e2.trans h3⟩
    · simp only [Option.some.injEq] at h
      subst h
      exact ⟨herr, rfl⟩

/-- When the driver loop returns and the tokenizer, which had no error at the start, ends with
`io.EOF`, the read window is empty. -/
theorem rows_eof_window {σ : Type} (rd : σ → Nat → ReadResult σ) :
    ∀ (fuel : Nat) (r : tsvReader σ) (res : List (List (List Byte)))
      (x : List (List (List Byte)) × tsvReader σ), r.err = none →
      readAll.rows rd fuel r res = some x → x.2.err = some Error.EOF → x.2.readSlice = [] := by
  intro fuel
  induction fuel with
  | zero => intro r res x _ h; simp [readAll.rows] at h
  | succ fuel ih =>
    intro r res x herr h
    rw [readAll.rows] at h
    split at h
    · simp at h
    · rename_i r1 hn
      simp only [Option.some.injEq] at h
      subst h
      exact (NextRow_frame rd fuel r r1 false herr hn).2.2.2 rfl
    · rename_i r1 hn
      obtain ⟨e1, e2⟩ := NextRow_true_inv rd fuel r r1 hn
      split at h
      · simp at h
      · rename_i row r2 hc
        exact ih _ _ _ (cols_in_row fuel r1 [] (row, r2) e1 e2 hc).1 h

/-- C13: for every line-feed-terminated input without a zero-length line whose lines
fit in the read window, delivered by any reader that keeps `Delivers`: the driver loop
returns, and re-joining its rows (the columns of a row joined by a tab, every row followed by
a line feed) gives the input back byte for byte, with `io.EOF` at the end; no yielded column
contains a tab or a line feed. -/
theorem readAll_raw_round_trip {σ : Type} (rd : σ → Nat → ReadResult σ)
    (I : List Byte → Nat → σ → Prop) (hd : Delivers rd I)
    (s : List Byte) (k : Nat) (st : σ) (fuel : Nat) (hI : I s k st)
    (hlast : s.getLast? = some LF)
    (hlines : ∀ l ∈ (splitLines s).1, l ≠ [] ∧ l.length + 1 ≤ readBufLen)
    (hfuel : 2 * s.length + k + 2 ≤ fuel) :
    (readAll rd fuel (tsvReader.new st)).map
        (fun out => (unlines (out.1.map (List.intercalate [TAB])), out.2)) =
      some (s, some Error.EOF) ∧
    ∀ out, readAll rd fuel (tsvReader.new st) = some out →
      ∀ row ∈ out.1, ∀ c ∈ row, TAB ∉ c ∧ LF ∉ c := by
  have ht := splitLines_tail_nil_of_getLast s hlast
  obtain ⟨hs1, hs2, -⟩ := splitLines_spec s
  have h := readAll_spec rd I hd s k st fuel hI
    ⟨fun l hl => (hlines l hl).2, by simp [ht]⟩ (by simp [ht, readBufLen]) hfuel
  rw [expectRows_of_nonempty _ _ _ (fun l hl => (hlines l hl).1), ht] at h
  rw [h]
  refine ⟨?_, ?_⟩
  · rw [ht, List.append_nil] at hs1
    simp only [Option.map_some', unlines_intercalate_splitTabs, hs1, expectErr, if_true]
  · intro out hout row hrow c hc
    simp only [Option.some.injEq] at hout
    subst hout
    obtain ⟨l, hl, rfl⟩ := List.mem_map.mp hrow
    obtain ⟨h1, h2⟩ := splitTabs_mem l c hc
    exact ⟨h1, fun hmem => hs2 l hl (h2 LF hmem)⟩

/-- Witness for C13, the test "no unescape (raw data)" without its final blank line: the
input `a\t\'b\n'c\td\n"\\e\tf\n` with its backslashes and quotes. -/
theorem readAll_raw_round_trip_witness :
    (readAll stringsReader.Read 38 (tsvReader.new (stringsReader.NewReader
        [97, 9, 92, 39, 98, 10, 39, 99, 9, 100, 10, 34, 92, 92, 101, 9, 102, 10]))).map
        (fun out => (unlines (out.1.map (List.intercalate [TAB])), out.2)) =
      some ([97, 9, 92, 39, 98, 10, 39, 99, 9, 100, 10, 34, 92, 92, 101, 9, 102, 10],
        some Error.EOF) ∧
    ∀ out, readAll stringsReader.Read 38 (tsvReader.new (stringsReader.NewReader
        [97, 9, 92, 39, 98, 10, 39, 99, 9, 100, 10, 34, 92, 92, 101, 9, 102, 10])) = some out →
      ∀ row ∈ out.1, ∀ c ∈ row, TAB ∉ c ∧ LF ∉ c :=
  readAll_raw_round_trip stringsReader.Read stringsReader.Inv stringsReader_delivers
    [97, 9, 92, 39, 98, 10, 39, 99, 9, 100, 10, 34, 92, 92, 101, 9, 102, 10] 0 _ 38
    (stringsReader_inv_new _ 0) (by decide) (by decide) (by decide)

/-- C14: for every input whose lines fit in the read window, delivered by a reader that
fails only with `io.EOF` (`Delivers`), the driver loop returns, and the `NextRow` call that
returns false leaves `Error()` equal to `io.EOF` if and only if the input is empty or its
last byte is a line feed, and then the read window is empty; otherwise `Error()` is the
framing error for the row after the yielded ones, not `io.EOF`. -/
theorem readAll_clean_end_iff {σ : Type} (rd : σ → Nat → ReadResult σ)
    (I : List Byte → Nat → σ → Prop) (hd : Delivers rd I)
    (s : List Byte) (k : Nat) (st : σ) (fuel : Nat) (hI : I s k st)
    (hfit : LinesFit s)
    (heof : (splitLines s).2.length = readBufLen → EOFOnEmptyBuffer rd I)
    (hfuel : 2 * s.length + k + 2 ≤ fuel) :
    (readAll.rows rd fuel (tsvReader.new st) []).isSome = true ∧
    ∀ rows r, readAll.rows rd fuel (tsvReader.new st) [] = some (rows, r) →
      (r.Error = some Error.EOF ↔ (s = [] ∨ s.getLast? = some LF)) ∧
      (r.Error = some Error.EOF → r.readSlice = []) ∧
      (¬ (s = [] ∨ s.getLast? = some LF) →
        r.Error = some (Error.noNewline (rows.length + 1))) := by
  obtain ⟨h1, h2, h3⟩ := splitLines_spec s
  obtain ⟨r1, e1, e2⟩ := rows_spec rd I hd (splitLines s).1 fuel (tsvReader.new st) s k 0
    (splitLines s).2 [] rfl hI (by simp [tsvReader.new, h1]) (Or.inl rfl)
    (fun l hl => ⟨h2 l hl, hfit.1 l hl⟩) h3 hfit.2 heof (by simpa [tsvReader.new] using hfuel)
  simp only [tsvReader.new, Nat.max_self, Option.isSome_none, List.nil_append,
    Nat.zero_add] at e1 e2
  have e1b : readAll.rows rd fuel (tsvReader.new st) [] =
      some (expectRows 0 false (splitLines s).1, r1) := e1
  refine ⟨by rw [e1b]; rfl, ?_⟩
  intro rows r hr
  have hwin := rows_eof_window rd fuel (tsvReader.new st) [] (rows, r) rfl hr
  rw [e1b] at hr
  simp only [Option.some.injEq, Prod.mk.injEq] at hr
  obtain ⟨hr1, hr2⟩ := hr
  subst hr1 hr2
  rw [← splitLines_tail_nil_iff]
  unfold tsvReader.Error
  rw [e2]
  unfold expectErr
  refine ⟨?_, fun h => hwin (e2.trans h), ?_⟩
  · by_cases ht : (splitLines s).2 = [] <;> simp [ht]
  · intro ht
    simp [ht]

/-- Witness for C14, the test "error: last line without newline in the end": the input
`"a\tb\nc\td\ne\tf"` ends without a line feed, and the tokenizer ends with the framing error
for row 3. -/
theorem readAll_clean_end_iff_witness :
    (readAll.rows stringsReader.Read 24 (tsvReader.new (stringsReader.NewReader
        [97, 9, 98, 10, 99, 9, 100, 10, 101, 9, 102])) []).isSome = true ∧
    ∀ rows r, readAll.rows stringsReader.Read 24 (tsvReader.new (stringsReader.NewReader
        [97, 9, 98, 10, 99, 9, 100, 10, 101, 9, 102])) [] = some (rows, r) →
      (r.Error = some Error.EOF ↔
        (([97, 9, 98, 10, 99, 9, 100, 10, 101, 9, 102] : List Byte) = [] ∨
          ([97, 9, 98, 10, 99, 9, 100, 10, 101, 9, 102] : List Byte).getLast? = some LF)) ∧
      (r.Error = some Error.EOF → r.readSlice = []) ∧
      (¬ (([97, 9, 98, 10, 99, 9, 100, 10, 101, 9, 102] : List Byte) = [] ∨
          ([97, 9, 98, 10, 99, 9, 100, 10, 101, 9, 102] : List Byte).getLast? = some LF) →
        r.Error = some (Error.noNewline (rows.length + 1))) :=
  readAll_clean_end_iff stringsReader.Read stringsReader.Inv stringsReader_delivers
    [97, 9, 98, 10, 99, 9, 100, 10, 101, 9, 102] 0 _ 24 (stringsReader_inv_new _ 0)
    (by unfold LinesFit; decide) (fun h => absurd h (by decide)) (by decide)

/-! ## `textRows.Next` and the number of columns of a data row -/

/-- The loop body of `Next` over a row whose columns all parse completely: it writes
`min (number of columns) (min (number of parsers) (length of dest))` values and ends with nil
when the columns are used up by then, and with an index out of range otherwise. -/
theorem decodeRow_column_count {V : Type} (parsers : List (DataParser V))
    (cols : List (List Byte)) (dest : List V)
    (hparse : ∀ (i : Nat) (p : DataParser V) (c : List Byte),
      parsers[i]? = some p → cols[i]? = some c →
        (p.Parse c).err = none ∧ (p.Parse c).consumed = c.length) :
    decodeRow parsers cols 0 dest =
      (if cols.length ≤ min parsers.length dest.length then NextResult.ret none
        else NextResult.indexOutOfRange,
       List.zipWith (fun p c => (p.Parse c).v) parsers
           (cols.take (min parsers.length dest.length)) ++
         dest.drop (min cols.length (min parsers.length dest.length))) := by
  have hsplit : cols = cols.take (min parsers.length dest.length) ++
      cols.drop (min parsers.length dest.length) := (List.take_append_drop _ _).symm
  have hlen : (cols.take (min parsers.length dest.length)).length =
      min cols.length (min parsers.length dest.length) := by
    rw [List.length_take, Nat.min_comm]
  have happ := decodeRow_append parsers (cols.take (min parsers.length dest.length))
    (cols.drop (min parsers.length dest.length)) 0 dest
    (fun j p c h1 h2 => hparse j p c (by simpa using h1) (by
      rw [List.getElem?_take] at h2
      split at h2
      · exact h2
      · simp at h2))
    (by rw [hlen]; omega) (by rw [hlen]; omega)
  rw [← hsplit] at happ
  rw [happ, hlen]
  simp only [Nat.zero_add, List.take_zero, List.nil_append, List.drop_zero]
  by_cases hc : cols.length ≤ min parsers.length dest.length
  · rw [if_pos hc, List.drop_of_length_le hc, decodeRow]
  · rw [if_neg hc]
    have hm : min cols.length (min parsers.length dest.length) =
        min parsers.length dest.length := by omega
    have hlt : min parsers.length dest.length < cols.length := by omega
    rw [hm]
    cases hd : cols.drop (min parsers.length dest.length) with
    | nil =>
      have := congrArg List.length hd
      simp only [List.length_drop, List.length_nil] at this
      omega
    | cons c rest =>
      have hc0 : cols[min parsers.length dest.length]? = some c := by
        have : (cols.drop (min parsers.length dest.length))[0]? =
            cols[min parsers.length dest.length + 0]? := by rw [List.getElem?_drop]
        rw [hd] at this
        simpa using this.symm
      rw [decodeRow]
      by_cases hp : parsers.length ≤ dest.length
      · have hnone : parsers[min parsers.length dest.length]? = none := by
          rw [Nat.min_eq_left hp]; exact List.getElem?_eq_none (le_refl _)
        simp only [hnone]
      · have hi : min parsers.length dest.length < parsers.length := by omega
        have hpi := List.getElem?_eq_getElem hi
        obtain ⟨e1, e2⟩ := hparse _ _ c hpi hc0
        simp only [hpi, e1, e2, lt_irrefl, if_false]
        rw [if_neg]
        simp only [List.length_append, List.length_zipWith, List.length_take, List.length_drop]
        omega

/-- The column count, given the columns `cols` that the tokenizer yields for the row, each
accepted and read completely by the parser at its position (as far as there is one): `Next`
returns nil, with every index within bounds, if and only if the number of columns is at most
`min(len(parsers), len(dest))`, and otherwise ends with an index out of range, at position
`i = min(len(parsers), len(dest))`; in both cases the values of the first
`min(columns, len(parsers), len(dest))` columns have been written and the later positions of
`dest` are as they were. -/
theorem Next_column_count_cols {σ V : Type} (rd : σ → Nat → ReadResult σ) (fuel : Nat)
    (t : textRows σ V) (dest : List V) (cols : List (List Byte))
    (hrow : nextRowCols rd fuel t.tsv = some cols)
    (hparse : ∀ (i : Nat) (p : DataParser V) (c : List Byte),
      t.parsers[i]? = some p → cols[i]? = some c →
        (p.Parse c).err = none ∧ (p.Parse c).consumed = c.length)
    (hfuel : cols.length < fuel) :
    (t.Next rd fuel dest).map (fun o => (o.1, o.2.2)) =
        some (if cols.length ≤ min t.parsers.length dest.length then NextResult.ret none
            else NextResult.indexOutOfRange,
          List.zipWith (fun p c => (p.Parse c).v) t.parsers
              (cols.take (min t.parsers.length dest.length)) ++
            dest.drop (min cols.length (min t.parsers.length dest.length))) ∧
      (t.parsers.length < cols.length → t.parsers.length ≤ dest.length →
        t.parsers[min t.parsers.length dest.length]? = none ∧
        (t.Next rd fuel dest).map (fun o => (o.1, o.2.2)) =
          some (NextResult.indexOutOfRange,
            List.zipWith (fun p c => (p.Parse c).v) t.parsers cols ++
              dest.drop t.parsers.length)) ∧
      (cols.length < t.parsers.length → cols.length ≤ dest.length →
        (t.Next rd fuel dest).map (fun o => (o.1, o.2.2)) =
          some (NextResult.ret none,
            List.zipWith (fun p c => (p.Parse c).v) t.parsers cols ++
              dest.drop cols.length)) := by
  have key := Next_eq_decodeRow rd fuel t dest cols hrow hfuel
  rw [decodeRow_column_count t.parsers cols dest hparse] at key
  refine ⟨key, ?_, ?_⟩
  · intro h1 h2
    have hm : min t.parsers.length dest.length = t.parsers.length := by omega
    have hm2 : min cols.length t.parsers.length = t.parsers.length := by omega
    refine ⟨by rw [hm]; exact List.getElem?_eq_none (le_refl _), ?_⟩
    rw [key, hm, hm2, if_neg (by omega)]
    congr 3
    conv_rhs => rw [List.zipWith_eq_zipWith_take_min]
    rw [Nat.min_comm, hm2, List.take_length]
  · intro h1 h2
    have hm : min cols.length (min t.parsers.length dest.length) = cols.length := by omega
    rw [key, hm, if_pos (by omega), List.take_of_length_le (by omega)]

/-! ## Read errors, and rows that are already in the read window -/

/-- On a tokenizer without error, `NextRow` is its loop run on `tsvReader.NextRow.enter`. -/
theorem NextRow_eq_loop {σ : Type} (rd : σ → Nat → ReadResult σ) (fuel : Nat)
    (r : tsvReader σ) (herr : r.err = none) :
    r.NextRow rd fuel = tsvReader.NextRow.loop rd fuel (tsvReader.NextRow.enter r) := by
  unfold tsvReader.NextRow tsvReader.NextRow.enter
  rw [herr]

/-- The counters and the error at the loop entry. -/
theorem enter_frame {σ : Type} (r : tsvReader σ) :
    (tsvReader.NextRow.enter r).row = r.row + 1 ∧ (tsvReader.NextRow.enter r).col = 0 ∧
      (tsvReader.NextRow.enter r).maxCol = max r.maxCol r.col ∧
      (tsvReader.NextRow.enter r).err = r.err ∧
      (tsvReader.NextRow.enter r).readSlice = r.readSlice ∧
      (tsvReader.NextRow.enter r).r = r.r ∧
      (tsvReader.NextRow.enter r).rowBytes = sliceToZero r.rowBytes := by
  by_cases hc : r.maxCol < r.col
  · simp only [tsvReader.NextRow.enter, hc, if_true, true_and, and_true]
    omega
  · simp only [tsvReader.NextRow.enter, hc, if_false, true_and, and_true]
    omega

/-- After `n` turns that did not return, the loop goes on as from the state reached. -/
theorem loop_seek {σ : Type} (rd : σ → Nat → ReadResult σ) (fuel : Nat) :
    ∀ (n : Nat) (r r1 : tsvReader σ), tsvReader.NextRow.seek rd n r = some r1 →
      tsvReader.NextRow.loop rd (n + fuel) r = tsvReader.NextRow.loop rd fuel r1 := by
  intro n
  induction n with
  | zero =>
    intro r r1 h
    simp only [tsvReader.NextRow.seek, Option.some.injEq] at h
    subst h
    rw [Nat.zero_add]
  | succ n ih =>
    intro r r1 h
    rw [show n + 1 + fuel = (n + fuel) + 1 by omega, tsvReader.NextRow.loop]
    rw [tsvReader.NextRow.seek] at h
    split at h
    · split at h
      · rename_i hc
        rw [if_pos hc]
        exact ih _ _ h
      · simp at h
    · simp only at h ⊢
      split at h
      · split at h
        · simp at h
        · rename_i hl
          rw [if_neg hl]
          exact ih _ _ h
      · simp at h
      · exact ih _ _ h

/-- The turns that do not return leave the counters, the row buffer and the error alone. -/
theorem seek_frame {σ : Type} (rd : σ → Nat → ReadResult σ) :
    ∀ (n : Nat) (r r1 : tsvReader σ), tsvReader.NextRow.seek rd n r = some r1 →
      r1.row = r.row ∧ r1.col = r.col ∧ r1.maxCol = r.maxCol ∧ r1.err = r.err ∧
        r1.rowBytes = r.rowBytes := by
  intro n
  induction n with
  | zero =>
    intro r r1 h
    simp only [tsvReader.NextRow.seek, Option.some.injEq] at h
    subst h
    exact ⟨rfl, rfl, rfl, rfl, rfl⟩
  | succ n ih =>
    intro r r1 h
    rw [tsvReader.NextRow.seek] at h
    split at h
    · split at h
      · have := ih _ _ h
        simpa using this
      · simp at h
    · simp only at h
      split at h
      · split at h
        · simp at h
        · have := ih _ _ h
          simpa using this
      · simp at h
      · have := ih _ _ h
        simpa using this

/-- A row whose line feed is in the read window is yielded from the window: the loop skips the
empty lines in front of it when the policy says so and returns true, whatever the reader. -/
theorem loop_row_in_window {σ : Type} (rd : σ → Nat → ReadResult σ) (fuel : Nat)
    (line rest : List Byte) (hline : LF ∉ line) :
    ∀ (j : Nat) (r : tsvReader σ),
      r.readSlice = List.replicate j LF ++ (line ++ LF :: rest) →
      (j = 0 ∨ 1 < r.maxCol) → (1 < r.maxCol → line ≠ []) →
      tsvReader.NextRow.loop rd (j + 1 + fuel) r =
        some (true, { r with rowBytes := goAppend r.rowBytes line,
                             rowSlice := goAppend r.rowBytes line, readSlice := rest }) := by
  intro j
  induction j with
  | zero =>
    intro r hr _ hne
    simp only [List.replicate_zero, List.nil_append] at hr
    rw [show 0 + 1 + fuel = fuel + 1 by omega, tsvReader.NextRow.loop, hr,
      IndexByte_append_cons rest hline]
    have hc : ¬ (1 < r.maxCol ∧ line.length = 0) := by
      rintro ⟨h1, h2⟩
      exact hne h1 (List.eq_nil_of_length_eq_zero h2)
    have h1 : (line ++ LF :: rest).take line.length = line := by simp
    have h3 : (line ++ LF :: rest).drop (line.length + 1) = rest := by simp
    simp only [hc, if_false, h1, h3]
  | succ j ih =>
    intro r hr hj hne
    have hm : 1 < r.maxCol := by
      rcases hj with h | h
      · omega
      · exact h
    rw [show j + 1 + 1 + fuel = (j + 1 + fuel) + 1 by omega, tsvReader.NextRow.loop, hr]
    simp only [List.replicate_succ, List.cons_append, IndexByte, if_true, hm, and_self,
      List.drop_succ_cons, List.drop_zero]
    exact ih _ rfl (Or.inr hm) hne

/-- A tokenizer with an error is left as it is by any sequence of calls. -/
theorem calls_of_err {σ : Type} (rd : σ → Nat → ReadResult σ) (fuel : Nat) (r : tsvReader σ)
    (e : Error) (h : r.err = some e) (ops : List Op) :
    tsvReader.calls rd fuel ops r = some r := by
  induction ops with
  | nil => rfl
  | cons op ops ih => rw [tsvReader.calls, call_of_err rd fuel r e h op]; exact ih

/-- With no error at the end of a run of calls, the row index has gone up by the number of
`NextRow` calls in the run. -/
theorem calls_row_count {σ : Type} (rd : σ → Nat → ReadResult σ) (fuel : Nat) :
    ∀ (ops : List Op) (r r1 : tsvReader σ), tsvReader.calls rd fuel ops r = some r1 →
      r1.err = none → r1.row = r.row + ops.count Op.nextRow := by
  intro ops
  induction ops with
  | nil =>
    intro r r1 h _
    simp only [tsvReader.calls, Option.some.injEq] at h
    subst h
    simp
  | cons op ops ih =>
    intro r r1 h h1
    cases herr : r.err with
    | some e =>
      rw [calls_of_err rd fuel r e herr] at h
      simp only [Option.some.injEq] at h
      subst h
      rw [herr] at h1
      simp at h1
    | none =>
      rw [tsvReader.calls] at h
      cases op with
      | nextRow =>
        simp only [tsvReader.call] at h
        cases hn : r.NextRow rd fuel with
        | none => rw [hn] at h; simp at h
        | some p =>
          obtain ⟨b, r2⟩ := p
          rw [hn] at h
          simp only [Option.map_some'] at h
          rw [ih r2 r1 h h1, (NextRow_frame rd fuel r r2 b herr hn).1]
          simp only [List.count_cons_self]
          omega
      | hasCols =>
        simp only [tsvReader.call] at h
        rw [ih _ r1 h h1, (accessor_row r).1]
        simp
      | bytes =>
        simp only [tsvReader.call] at h
        rw [ih _ r1 h h1, (accessor_row r).2.1]
        simp
      | string =>
        simp only [tsvReader.call] at h
        rw [ih _ r1 h h1, (accessor_row r).2.2]
        simp

/-- C19: let `r` be a tokenizer without error, reached from a fresh one by the calls
`ops`, and let the loop of the next `NextRow` call have made `n` turns without returning. If
the window then holds no line feed and the `Read` that follows returns a non-EOF error `e`,
with any number of bytes, line feeds among them or not, `NextRow` returns false and `Error()`
is `failed to read row #k: e`, wrapping `e`, where `k` is the number of `NextRow` calls so
far, this one included. And for a tokenizer `w` without error whose read window already
holds the line feed of the row to yield (after the empty lines that the policy skips),
`NextRow` yields that row for every reader alike, with the reader state untouched: no `Read`
is made. -/
theorem NextRow_read_error {σ : Type} (rd : σ → Nat → ReadResult σ) (fuel0 : Nat) (st : σ)
    (ops : List Op) (r r1 : tsvReader σ) (n fuel : Nat) (e : Error)
    (hops : tsvReader.calls rd fuel0 ops (tsvReader.new st) = some r) (herr : r.err = none)
    (hseek : tsvReader.NextRow.seek rd n (tsvReader.NextRow.enter r) = some r1)
    (hwin : IndexByte r1.readSlice LF = none)
    (hread : (rd r1.r (readBufLen - min readBufLen r1.readSlice.length)).err = some e)
    (hne : e ≠ Error.EOF)
    (w : tsvReader σ) (j : Nat) (line rest : List Byte) (hwerr : w.err = none)
    (hw : w.readSlice = List.replicate j LF ++ (line ++ LF :: rest))
    (hj : j = 0 ∨ 1 < max w.maxCol w.col) (hskip : 1 < max w.maxCol w.col → line ≠ [])
    (hline : LF ∉ line) :
    (r.NextRow rd (n + (fuel + 1))).map (fun p => (p.1, p.2.Error)) =
        some (false, some (Error.failedRead (ops.count Op.nextRow + 1) e)) ∧
      (Error.failedRead (ops.count Op.nextRow + 1) e).message =
        "failed to read row #" ++ toString (ops.count Op.nextRow + 1) ++ ": " ++ e.message ∧
      ∀ rd2 : σ → Nat → ReadResult σ,
        w.NextRow rd2 (j + 1 + fuel) =
          some (true, { tsvReader.NextRow.enter w with
            rowBytes := goAppend (sliceToZero w.rowBytes) line,
            rowSlice := goAppend (sliceToZero w.rowBytes) line, readSlice := rest }) := by
  refine ⟨?_, rfl, ?_⟩
  · have hrow := calls_row_count rd fuel0 ops _ r hops herr
    simp only [tsvReader.new, Nat.zero_add] at hrow
    obtain ⟨f1, -, -, -, -⟩ := seek_frame rd n _ r1 hseek
    rw [(enter_frame r).1] at f1
    rw [NextRow_eq_loop rd _ r herr, loop_seek rd (fuel + 1) n _ r1 hseek,
      tsvReader.NextRow.loop, hwin]
    simp only
    rw [hread]
    cases e with
    | EOF => exact absurd rfl hne
    | New msg => simp [tsvReader.Error, f1, hrow]
    | noNewline k => simp [tsvReader.Error, f1, hrow]
    | failedRead k c => simp [tsvReader.Error, f1, hrow]
  · intro rd2
    obtain ⟨-, -, f3, -, f5, -, f7⟩ := enter_frame w
    rw [NextRow_eq_loop rd2 _ w hwerr,
      loop_row_in_window rd2 fuel line rest hline j _ (by rw [f5]; exact hw)
        (by rw [f3]; exact hj) (by rw [f3]; exact hskip), f7]

/-- Witness for C19. A reader whose `Read` returns the two bytes `"a\n"` together with the
error `boom`: the first `NextRow` returns false with `failed to read row #1: boom`, although
the bytes held a line feed. And a tokenizer with `"b\nc"` in its window yields the row `b`
without a `Read`. -/
theorem NextRow_read_error_witness :
    ((tsvReader.new ()).NextRow (fun (_ : Unit) (_ : Nat) =>
        ReadResult.mk [97, 10] (some (Error.New "boom")) ()) 1).map
        (fun p => (p.1, p.2.Error)) =
      some (false, some (Error.failedRead 1 (Error.New "boom"))) ∧
    (Error.failedRead 1 (Error.New "boom")).message = "failed to read row #1: boom" ∧
    ∀ rd2 : Unit → Nat → ReadResult Unit,
      ({ tsvReader.new () with readSlice := [98, 10, 99] } : tsvReader Unit).NextRow rd2 1 =
        some (true, { tsvReader.new () with
          row := 1, rowBytes := some [98], rowSlice := some [98], readSlice := [99] }) :=
  NextRow_read_error (fun (_ : Unit) (_ : Nat) =>
      ReadResult.mk [97, 10] (some (Error.New "boom")) ()) 0 () [] (tsvReader.new ())
    (tsvReader.NextRow.enter (tsvReader.new ())) 0 0 (Error.New "boom") rfl rfl rfl rfl rfl
    (by decide) { tsvReader.new () with readSlice := [98, 10, 99] } 0 [98] [99] rfl rfl
    (Or.inl rfl) (by decide) (by decide)

/-! ## The empty-line policy counts the columns that the caller has read -/

/-- A call of `Bytes` either hands out a column, which needs a tokenizer without error inside
a row and moves `col` by one, or returns nil and changes nothing. -/
theorem bytes_col {σ : Type} (r : tsvReader σ) :
    (r.Bytes.1.isSome = true ∧ r.err = none ∧ r.rowSlice ≠ none ∧
        r.Bytes.2.col = r.col + 1 ∧ r.Bytes.2.maxCol = r.maxCol ∧ r.Bytes.2.row = r.row ∧
        r.Bytes.2.err = none) ∨
      (r.Bytes.1.isSome = false ∧ r.Bytes.2 = r) := by
  unfold tsvReader.Bytes
  split
  · right; exact ⟨rfl, rfl⟩
  · right; exact ⟨rfl, rfl⟩
  · rename_i h1 h2
    left
    split
    · exact ⟨rfl, h1, by rw [h2]; simp, rfl, rfl, rfl, h1⟩
    · exact ⟨rfl, h1, by rw [h2]; simp, rfl, rfl, rfl, h1⟩

/-- The count of consumed columns runs the calls one after the other. -/
theorem consumed_calls {σ : Type} (rd : σ → Nat → ReadResult σ) (fuel : Nat) :
    ∀ (ops : List Op) (r : tsvReader σ) (cur best : Nat) (x : tsvReader σ × Nat × Nat),
      tsvReader.consumed rd fuel ops r cur best = some x →
      tsvReader.calls rd fuel ops r = some x.1 := by
  intro ops
  induction ops with
  | nil =>
    intro r cur best x h
    simp only [tsvReader.consumed, Option.some.injEq] at h
    subst h
    rfl
  | cons op ops ih =>
    intro r cur best x h
    rw [tsvReader.consumed] at h
    rw [tsvReader.calls]
    cases hc : r.call rd fuel op with
    | none => rw [hc] at h; simp at h
    | some p =>
      obtain ⟨ret, r1⟩ := p
      rw [hc] at h
      simp only at h ⊢
      cases op <;> exact ih _ _ _ _ h

/-- What the run of calls keeps true from a fresh tokenizer on: `maxCol` and `col` are the two
counts, `col` is zero before the first `NextRow` and whenever an error is set, and there is no
row view before the first `NextRow`. -/
theorem consumed_inv {σ : Type} (rd : σ → Nat → ReadResult σ) (fuel : Nat) :
    ∀ (ops : List Op) (r : tsvReader σ) (cur best : Nat) (x : tsvReader σ × Nat × Nat),
      r.maxCol = best → r.col = cur → (r.err ≠ none → r.col = 0) →
      (r.row = 0 → r.col = 0 ∧ r.rowSlice = none) →
      tsvReader.consumed rd fuel ops r cur best = some x →
      x.1.maxCol = x.2.2 ∧ x.1.col = x.2.1 := by
  intro ops
  induction ops with
  | nil =>
    intro r cur best x h1 h2 _ _ h
    simp only [tsvReader.consumed, Option.some.injEq] at h
    subst h
    exact ⟨h1, h2⟩
  | cons op ops ih =>
    intro r cur best x h1 h2 h3 h4 h
    rw [tsvReader.consumed] at h
    cases hc : r.call rd fuel op with
    | none => rw [hc] at h; simp at h
    | some p =>
      obtain ⟨ret, r1⟩ := p
      rw [hc] at h
      simp only at h
      cases op with
      | nextRow =>
        simp only at h
        cases herr : r.err with
        | some e =>
          rw [call_of_err rd fuel r e herr] at hc
          simp only [Option.some.injEq, Prod.mk.injEq] at hc
          rw [← hc.2] at h
          have hcol : r.col = 0 := h3 (by rw [herr]; simp)
          exact ih r 0 (max best cur) x (by rw [h1]; omega) hcol h3 h4 h
        | none =>
          simp only [tsvReader.call, Option.map_eq_some'] at hc
          obtain ⟨⟨b, r2⟩, hn, hr2⟩ := hc
          simp only [Prod.mk.injEq] at hr2
          obtain ⟨f1, f2, f3, -⟩ := NextRow_frame rd fuel r r2 b herr hn
          rw [← hr2.2] at h
          exact ih r2 0 (max best cur) x (by rw [f3, h1, h2]) f2 (fun _ => f2)
            (fun h0 => by omega) h
      | hasCols =>
        simp only [tsvReader.call, Option.some.injEq, Prod.mk.injEq] at hc
        rw [← hc.2] at h
        simp only at h
        have hh : r.HasCols.2.maxCol = r.maxCol ∧ r.HasCols.2.col = r.col ∧
            r.HasCols.2.row = r.row ∧ r.HasCols.2.rowSlice = r.rowSlice ∧
            (r.HasCols.2.err ≠ none → r.err ≠ none ∨ r.row = 0) := by
          unfold tsvReader.HasCols
          split
          · rename_i e he
            exact ⟨rfl, rfl, rfl, rfl, fun _ => Or.inl (by rw [he]; simp)⟩
          · split
            · rename_i h0
              exact ⟨rfl, rfl, rfl, rfl, fun _ => Or.inr h0⟩
            · rename_i he h0
              exact ⟨rfl, rfl, rfl, rfl, fun hx => absurd he hx⟩
        obtain ⟨g1, g2, g3, g4, g5⟩ := hh
        refine ih _ cur best x (g1.trans h1) (g2.trans h2) ?_ ?_ h
        · intro he
          rw [g2]
          rcases g5 he with h5 | h5
          · exact h3 h5
          · exact (h4 h5).1
        · intro h0
          rw [g2, g4]
          exact h4 (g3 ▸ h0)
      | bytes =>
        simp only [tsvReader.call, Option.some.injEq, Prod.mk.injEq] at hc
        rw [← hc.2] at h
        simp only at h
        rcases bytes_col r with ⟨b1, b2, b3, b4, b5, b6, b7⟩ | ⟨b1, b2⟩
        · rw [b1] at h
          simp only [if_true] at h
          refine ih _ (cur + 1) best x (b5.trans h1) (by rw [b4, h2]) ?_ ?_ h
          · intro he; exact absurd b7 he
          · intro h0
            rw [b6] at h0
            exact absurd (h4 h0).2 b3
        · rw [b1, b2] at h
          simp only [Bool.false_eq_true, if_false] at h
          exact ih r cur best x h1 h2 h3 h4 h
      | string =>
        simp only [tsvReader.call, tsvReader.String, Option.some.injEq, Prod.mk.injEq] at hc
        rw [← hc.2] at h
        simp only at h
        rcases bytes_col r with ⟨b1, b2, b3, b4, b5, b6, b7⟩ | ⟨b1, b2⟩
        · rw [b1] at h
          simp only [if_true] at h
          refine ih _ (cur + 1) best x (b5.trans h1) (by rw [b4, h2]) ?_ ?_ h
          · intro he; exact absurd b7 he
          · intro h0
            rw [b6] at h0
            exact absurd (h4 h0).2 b3
        · rw [b1, b2] at h
          simp only [Bool.false_eq_true, if_false] at h
          exact ih r cur best x h1 h2 h3 h4 h

/-- A turn of the loop with a zero-length line at the front of the window: the line is skipped
when `maxCol` exceeds 1 and yielded as a row otherwise. -/
theorem loop_front_empty_line {σ : Type} (rd : σ → Nat → ReadResult σ) (fuel : Nat)
    (r : tsvReader σ) (w : List Byte) (h : r.readSlice = LF :: w) :
    tsvReader.NextRow.loop rd (fuel + 1) r =
      if 1 < r.maxCol then tsvReader.NextRow.loop rd fuel { r with readSlice := w }
      else some (true, { r with rowBytes := goAppend r.rowBytes [],
                                rowSlice := goAppend r.rowBytes [], readSlice := w }) := by
  rw [tsvReader.NextRow.loop, h]
  by_cases hm : 1 < r.maxCol
  · simp [IndexByte, hm]
  · simp [IndexByte, hm]

/-- A caller that only calls `NextRow` on a multi-column row followed by an empty line gets
both as rows: the second call returns true with an empty, non-nil row view. -/
theorem NextRow_only_yields_empty_line {σ : Type} (rd : σ → Nat → ReadResult σ)
    (I : List Byte → Nat → σ → Prop) (hd : Delivers rd I)
    (m : List Byte) (k : Nat) (st : σ) (fuel : Nat)
    (hI : I (unlines [m, []]) k st) (hm : TAB ∈ m) (hmlf : LF ∉ m)
    (hfit : m.length + 1 ≤ readBufLen) (hfuel : 2 * (m.length + 2) + k + 2 ≤ fuel) :
    ((tsvReader.new st).NextRow rd fuel).bind
        (fun p => (p.2.NextRow rd fuel).map (fun q => (p.1, q.1, q.2.rowSlice, q.2.Error))) =
      some (true, true, some [], none) := by
  have hlen : (unlines [m, []]).length = m.length + 2 := by simp [unlines]
  obtain ⟨r1, s1, k1, e1, -, hcol, hmax, herr, hrb, -, hI1, hrest, hmeas⟩ :=
    NextRow_yield rd I hd fuel (tsvReader.new st) (unlines [m, []]) k 0 m [LF] rfl hI
      (by simp [tsvReader.new, unlines]) (Or.inl rfl)
      (fun h => by simp [tsvReader.new] at h) hmlf hfit
      (by rw [hlen]; simp only [tsvReader.new, List.length_nil]; omega)
  have hmax0 : max r1.maxCol r1.col = 0 := by
    rw [hmax, hcol]; simp [tsvReader.new]
  obtain ⟨r2, s2, k2, e2, -, -, -, herr2, -, hrs2, -, -, -⟩ :=
    NextRow_yield rd I hd fuel r1 s1 k1 0 [] [] herr hI1
      (by simpa using hrest) (Or.inl rfl)
      (fun h => by rw [hmax0] at h; omega) (by simp) (by simp [readBufLen])
      (by
        rw [hlen] at hmeas
        simp only [tsvReader.new, List.length_nil] at hmeas
        omega)
  have hne : m ≠ [] := by intro h0; rw [h0] at hm; simp at hm
  have hrb1 : r1.rowBytes = some m := by
    rw [hrb]
    cases m with
    | nil => exact absurd rfl hne
    | cons b bs => rfl
  rw [e1, Option.some_bind, e2]
  simp only [Option.map_some', tsvReader.Error, herr2, hrs2, hrb1, sliceToZero, goAppend,
    List.append_nil]

/-- C20: run any sequence of operations on a fresh tokenizer and count next to it, as
the claim does, the `Bytes`/`String` calls that handed out a column: `cur` since the last
`NextRow` call, `best` the largest count of a row that a `NextRow` call has closed. Then
`maxCol = best` and `col = cur` after the run. When the next `NextRow` call, on a tokenizer
without error, meets a zero-length line at the front of the read window (after `n` turns of
its loop), it skips the line if and only if the largest count with the row just closed,
`max best cur`, exceeds 1, and yields it as a row otherwise. Consequently, on a stream made of
a multi-column row `m` and an empty line, a caller that only calls `NextRow` gets the empty
line yielded as a second row, while the driver loop, which reads every column, gets the row
`m` alone. -/
theorem maxCol_counts_consumed_columns {σ τ : Type} (rd : σ → Nat → ReadResult σ)
    (fuel : Nat) (st : σ) (ops : List Op) (r : tsvReader σ) (cur best : Nat)
    (hrun : tsvReader.consumed rd fuel ops (tsvReader.new st) 0 0 = some (r, cur, best))
    (herr : r.err = none) (n : Nat) (r1 : tsvReader σ) (w : List Byte)
    (hseek : tsvReader.NextRow.seek rd n (tsvReader.NextRow.enter r) = some r1)
    (hlf : r1.readSlice = LF :: w)
    (rdm : τ → Nat → ReadResult τ) (I : List Byte → Nat → τ → Prop) (hd : Delivers rdm I)
    (m : List Byte) (k : Nat) (stm : τ) (fuelm : Nat)
    (hI : I (unlines [m, []]) k stm) (hm : TAB ∈ m) (hmlf : LF ∉ m)
    (hfit : m.length + 1 ≤ readBufLen) (hfuelm : 2 * (m.length + 2) + k + 2 ≤ fuelm) :
    (tsvReader.calls rd fuel ops (tsvReader.new st) = some r ∧ r.maxCol = best ∧
        r.col = cur) ∧
      (∀ fuel2 : Nat, r.NextRow rd (n + (fuel2 + 1)) =
        if 1 < max best cur then
          tsvReader.NextRow.loop rd fuel2 { r1 with readSlice := w }
        else some (true, { r1 with rowBytes := goAppend r1.rowBytes [],
                                   rowSlice := goAppend r1.rowBytes [], readSlice := w })) ∧
      ((tsvReader.new stm).NextRow rdm fuelm).bind
          (fun p => (p.2.NextRow rdm fuelm).map
            (fun q => (p.1, q.1, q.2.rowSlice, q.2.Error))) =
        some (true, true, some [], none) ∧
      readAll rdm fuelm (tsvReader.new stm) = some ([splitTabs m], some Error.EOF) := by
  obtain ⟨i1, i2⟩ := consumed_inv rd fuel ops (tsvReader.new st) 0 0 (r, cur, best) rfl rfl
    (fun _ => rfl) (fun _ => ⟨rfl, rfl⟩) hrun
  simp only at i1 i2
  refine ⟨⟨consumed_calls rd fuel ops _ 0 0 _ hrun, i1, i2⟩, ?_,
    NextRow_only_yields_empty_line rdm I hd m k stm fuelm hI hm hmlf hfit hfuelm, ?_⟩
  · intro fuel2
    obtain ⟨-, -, f3, -, -⟩ := seek_frame rd n _ r1 hseek
    rw [(enter_frame r).2.2.1, i1, i2] at f3
    rw [NextRow_eq_loop rd _ r herr, loop_seek rd (fuel2 + 1) n _ r1 hseek,
      loop_front_empty_line rd fuel2 r1 w hlf, f3]
  · have h := readAll_after_multi_column rdm I hd [] m [[]] k stm fuelm hI
      (by
        intro l hl
        simp only [List.nil_append, List.mem_cons, List.mem_singleton, List.not_mem_nil,
          or_false] at hl
        rcases hl with h | h
        · subst h; exact ⟨hmlf, hfit⟩
        · subst h; exact ⟨by simp, by simp [readBufLen]⟩)
      hm (by simp only [List.nil_append, unlines, List.length_append, List.length_cons,
        List.length_nil]; omega)
    rw [h]
    simp [expectRows]

/-- Witness for C20, on the stream `"a\tb\n\nc\td\n"` behind a `strings.Reader`: after
`NextRow`, `String`, `String` the counts are `cur = 2`, `best = 0`, so the next `NextRow`
skips the empty line at the front of the window. And on `"a\tb\n\n"` a caller that only calls
`NextRow` gets the empty line as a second row, the driver loop does not. -/
theorem maxCol_counts_consumed_columns_witness :
    (tsvReader.calls stringsReader.Read 4 [Op.nextRow, Op.string, Op.string]
        (tsvReader.new (stringsReader.NewReader [97, 9, 98, 10, 10, 99, 9, 100, 10])) =
      some { row := 1, col := 2, maxCol := 0, readSlice := [10, 99, 9, 100, 10],
             rowBytes := some [97, 9, 98], rowSlice := none,
             r := ⟨[97, 9, 98, 10, 10, 99, 9, 100, 10], 9⟩, err := none } ∧
      (0 : Nat) = 0 ∧ (2 : Nat) = 2) ∧
    (∀ fuel2 : Nat,
      ({ row := 1, col := 2, maxCol := 0, readSlice := [10, 99, 9, 100, 10],
         rowBytes := some [97, 9, 98], rowSlice := none,
         r := ⟨[97, 9, 98, 10, 10, 99, 9, 100, 10], 9⟩, err := none } :
        tsvReader stringsReader).NextRow stringsReader.Read (0 + (fuel2 + 1)) =
      tsvReader.NextRow.loop stringsReader.Read fuel2
        { row := 2, col := 0, maxCol := 2, readSlice := [99, 9, 100, 10],
          rowBytes := some [], rowSlice := none,
          r := ⟨[97, 9, 98, 10, 10, 99, 9, 100, 10], 9⟩, err := none }) ∧
    ((tsvReader.new (stringsReader.NewReader (unlines [[97, 9, 98], []]))).NextRow
        stringsReader.Read 12).bind
        (fun p => (p.2.NextRow stringsReader.Read 12).map
          (fun q => (p.1, q.1, q.2.rowSlice, q.2.Error))) =
      some (true, true, some [], none) ∧
    readAll stringsReader.Read 12
        (tsvReader.new (stringsReader.NewReader (unlines [[97, 9, 98], []]))) =
      some ([[[97], [98]]], some Error.EOF) :=
  maxCol_counts_consumed_columns stringsReader.Read 4
    (stringsReader.NewReader [97, 9, 98, 10, 10, 99, 9, 100, 10])
    [Op.nextRow, Op.string, Op.string]
    { row := 1, col := 2, maxCol := 0, readSlice := [10, 99, 9, 100, 10],
      rowBytes := some [97, 9, 98], rowSlice := none,
      r := ⟨[97, 9, 98, 10, 10, 99, 9, 100, 10], 9⟩, err := none } 2 0 rfl rfl 0
    { row := 2, col := 0, maxCol := 2, readSlice := [10, 99, 9, 100, 10],
      rowBytes := some [], rowSlice := none,
      r := ⟨[97, 9, 98, 10, 10, 99, 9, 100, 10], 9⟩, err := none } [99, 9, 100, 10] rfl rfl
    stringsReader.Read stringsReader.Inv stringsReader_delivers [97, 9, 98] 0
    (stringsReader.NewReader (unlines [[97, 9, 98], []])) 12 (stringsReader_inv_new _ 0)
    (by decide) (by decide) (by decide) (by decide)

/-! ## `newTextRows`: the two header rows -/

/-- When the first `NextRow` of `newTextRows` returns false, `newTextRows` returns the
tokenizer's error. -/
theorem newTextRows_abort_first {σ V D : Type} (rd : σ → Nat → ReadResult σ)
    (ru : List Byte → Except Error (List Byte)) (ptd : List Byte → Except Error D)
    (ndp : D → Except Error (DataParser V)) (fuel : Nat) (body : σ) (t1 : tsvReader σ)
    (h : (tsvReader.new body).NextRow rd fuel = some (false, t1)) :
    ∃ e, t1.Error = some e ∧ newTextRows rd ru ptd ndp fuel body = some (.error e) := by
  have hne := NextRow_false_inv rd fuel _ t1 h
  cases he : t1.err with
  | none => exact absurd he hne
  | some e =>
    refine ⟨e, he, ?_⟩
    have h2 : t1.NextRow rd fuel = some (false, t1) := by
      unfold tsvReader.NextRow
      rw [he]
    unfold newTextRows
    rw [h]
    simp only [Bool.false_eq_true, if_false]
    rw [h2]
    simp only [Bool.false_eq_true, if_false, tsvReader.Error, he]

/-- When the second `NextRow` of `newTextRows` returns false, `newTextRows` returns the
tokenizer's error. -/
theorem newTextRows_abort_second {σ V D : Type} (rd : σ → Nat → ReadResult σ)
    (ru : List Byte → Except Error (List Byte)) (ptd : List Byte → Except Error D)
    (ndp : D → Except Error (DataParser V)) (fuel : Nat) (body : σ)
    (u1 u2 u3 : tsvReader σ) (cs : List (List Byte))
    (h1 : (tsvReader.new body).NextRow rd fuel = some (true, u1))
    (h2 : readAll.cols fuel u1 [] = some (cs, u2))
    (h3 : u2.NextRow rd fuel = some (false, u3)) :
    ∃ e, u3.Error = some e ∧ newTextRows rd ru ptd ndp fuel body = some (.error e) := by
  have hne := NextRow_false_inv rd fuel _ u3 h3
  cases he : u3.err with
  | none => exact absurd he hne
  | some e =>
    refine ⟨e, he, ?_⟩
    unfold newTextRows
    rw [h1]
    simp only [if_true]
    rw [h2]
    simp only
    rw [h3]
    simp only [Bool.false_eq_true, if_false, tsvReader.Error, he]

/-- The loop over the type row ends at once when the row view is nil. -/
theorem types_none {σ : Type} (ru : List Byte → Except Error (List Byte)) (fuel : Nat)
    (r : tsvReader σ) (acc : List (List Byte))
    (herr : r.err = none) (hrow : r.row ≠ 0) (hrs : r.rowSlice = none) (hf : 0 < fuel) :
    newTextRows.types ru fuel r acc = some (.ok (acc, r)) := by
  obtain ⟨fuel, rfl⟩ : ∃ n, fuel = n + 1 := ⟨fuel - 1, by omega⟩
  rw [newTextRows.types, (accessor_in_row r herr hrow).1, hrs]
  simp

/-- The loop over the type row, when `readUnquoted` accepts every column: the types are the
unquoted columns, and the tokenizer has handed out the whole row. -/
theorem types_some {σ : Type} (ru : List Byte → Except Error (List Byte))
    (unq : List Byte → List Byte) :
    ∀ (fuel : Nat) (l : List Byte) (r : tsvReader σ) (acc : List (List Byte)),
      r.err = none → r.row ≠ 0 → r.rowSlice = some l → (splitTabs l).length < fuel →
      (∀ c ∈ splitTabs l, ru c = .ok (unq c)) →
      newTextRows.types ru fuel r acc =
        some (.ok (acc ++ (splitTabs l).map unq,
          { r with col := r.col + (splitTabs l).length, rowSlice := none })) := by
  intro fuel
  induction fuel with
  | zero => intro l r acc _ _ _ hf; omega
  | succ fuel ih =>
    intro l r acc herr hrow hrs hf hru
    obtain ⟨rw0, col, maxCol, w, rb, rs, st, err⟩ := r
    simp only at herr hrow hrs
    subst herr hrs
    cases hidx : IndexByte l TAB with
    | none =>
      have hl := splitTabs_no_tab (not_mem_of_IndexByte_none hidx)
      rw [hl] at hf hru ⊢
      have hu := hru l (by simp)
      rw [newTextRows.types]
      simp only [tsvReader.HasCols, hrow, if_false, Option.isSome_some, if_true,
        tsvReader.String, tsvReader.Bytes, hidx, Option.getD_some, hu]
      rw [types_none ru fuel _ _ rfl hrow rfl (by simpa using hf)]
      simp
    | some p =>
      obtain ⟨pre, post, rfl, hpre, rfl⟩ := IndexByte_some hidx
      have hl := splitTabs_append_tab post hpre
      rw [hl] at hf hru ⊢
      have hu := hru pre (by simp)
      have ht : (pre ++ TAB :: post).take pre.length = pre := by simp
      have hdr : (pre ++ TAB :: post).drop (pre.length + 1) = post := by simp
      rw [newTextRows.types]
      simp only [tsvReader.HasCols, hrow, if_false, Option.isSome_some, if_true,
        tsvReader.String, tsvReader.Bytes, hidx, Option.getD_some, ht, hdr, hu]
      rw [ih post _ _ rfl hrow rfl (by simp at hf ⊢; omega)
        (fun c hc => hru c (List.mem_cons_of_mem _ hc))]
      simp
      omega

/-- The column loop of the driver on a tokenizer inside a row: it reads the pending columns
and leaves the window, the reader and the row buffer alone. -/
theorem cols_frame {σ : Type} (fuel : Nat) (r : tsvReader σ) (acc : List (List Byte))
    (herr : r.err = none) (hrow : r.row ≠ 0) (hf : (pendingCols r).length < fuel) :
    ∃ r2, readAll.cols fuel r acc = some (acc ++ pendingCols r, r2) ∧ r2.err = none ∧
      r2.r = r.r ∧ r2.readSlice = r.readSlice ∧ r2.row = r.row ∧ r2.maxCol = r.maxCol ∧
      r2.col = r.col + (pendingCols r).length ∧ r2.rowBytes = r.rowBytes ∧
      r2.rowSlice = none := by
  cases hrs : r.rowSlice with
  | none =>
    refine ⟨r, ?_, herr, rfl, rfl, rfl, rfl, ?_, rfl, hrs⟩
    · rw [cols_none fuel r acc herr hrow hrs (by omega)]
      simp [pendingCols, hrs]
    · simp [pendingCols, hrs]
  | some l =>
    have hp : pendingCols r = splitTabs l := by simp [pendingCols, hrs]
    rw [hp] at hf ⊢
    exact ⟨_, cols_some fuel l r acc herr hrow hrs hf, herr, rfl, rfl, rfl, rfl, rfl, rfl, rfl⟩

/-- The body ends before the tokenizer has yielded two rows: `newTextRows` returns the error
the tokenizer ends with, `io.EOF` when nothing follows the last line feed and the framing
error otherwise. -/
theorem newTextRows_short_stream {σ V D : Type} (rd : σ → Nat → ReadResult σ)
    (I : List Byte → Nat → σ → Prop) (hd : Delivers rd I)
    (ru : List Byte → Except Error (List Byte)) (ptd : List Byte → Except Error D)
    (ndp : D → Except Error (DataParser V))
    (hs : List (List Byte)) (T : List Byte) (k : Nat) (body : σ) (fuel : Nat)
    (hI : I (unlines hs ++ T) k body) (hlen : hs.length ≤ 1)
    (hhs : ∀ l ∈ hs, LF ∉ l ∧ l.length + 1 ≤ readBufLen) (hT : LF ∉ T)
    (hTfit : T.length ≤ readBufLen) (heof : T.length = readBufLen → EOFOnEmptyBuffer rd I)
    (hfuel : 2 * (unlines hs ++ T).length + k + 2 ≤ fuel) :
    newTextRows rd ru ptd ndp fuel body = some (.error (expectErr hs.length T)) := by
  match hs, hlen, hhs, hI, hfuel with
  | [], _, _, hI, hfuel =>
    simp only [unlines, List.nil_append] at hI hfuel
    obtain ⟨r1, e1, -, -, -, -, -, herr1⟩ :=
      NextRow_end rd I hd fuel (tsvReader.new body) T k 0 T rfl hI
        (by simp [tsvReader.new]) (Or.inl rfl) hT hTfit heof
        (by simp only [tsvReader.new, List.length_nil]; omega)
    obtain ⟨e, he, hnew⟩ := newTextRows_abort_first rd ru ptd ndp fuel body r1 e1
    rw [hnew]
    have : some e = some (if T = [] then Error.EOF else Error.noNewline
        ((tsvReader.new body).row + 1)) := he.symm.trans herr1
    simp only [Option.some.injEq] at this
    rw [this]
    rfl
  | [h1], _, hhs, hI, hfuel =>
    have hh1 := hhs h1 (by simp)
    have hsl : (unlines [h1] ++ T).length = h1.length + 1 + T.length := by
      simp [unlines]
      omega
    rw [hsl] at hfuel
    obtain ⟨r1, s1, k1, e1, hrow1, -, -, herr1, -, hrs1, hI1, hrest1, hmeas1⟩ :=
      NextRow_yield rd I hd fuel (tsvReader.new body) (unlines [h1] ++ T) k 0 h1 T rfl hI
        (by simp [tsvReader.new, unlines]) (Or.inl rfl)
        (fun h => by simp [tsvReader.new] at h) hh1.1 hh1.2
        (by rw [hsl]; simp only [tsvReader.new, List.length_nil]; omega)
    rw [hsl] at hmeas1
    simp only [tsvReader.new, List.length_nil] at hmeas1 hrow1
    have hrow1b : r1.row ≠ 0 := by omega
    have hpl : (pendingCols r1).length ≤ h1.length + 1 := by
      unfold pendingCols
      rw [hrs1, goAppend_sliceToZero]
      split_ifs
      · simp
      · exact splitTabs_length_le h1
    obtain ⟨r2, ec, herr2, hr2, hw2, hrow2, -, -, -, -⟩ :=
      cols_frame fuel r1 [] herr1 hrow1b (by omega)
    obtain ⟨r3, e3, -, -, -, -, -, herr3⟩ :=
      NextRow_end rd I hd fuel r2 s1 k1 0 T herr2 (by rw [hr2]; exact hI1)
        (by rw [hw2]; simpa using hrest1) (Or.inl rfl) hT hTfit heof
        (by rw [hw2]; omega)
    obtain ⟨e, he, hnew⟩ := newTextRows_abort_second rd ru ptd ndp fuel body r1 r2 r3 _ e1 ec e3
    rw [hnew]
    have : some e = some (if T = [] then Error.EOF else Error.noNewline (r2.row + 1)) :=
      he.symm.trans herr3
    simp only [Option.some.injEq] at this
    rw [this, hrow2, hrow1]
    rfl
  | _ :: _ :: _, hlen, _, _, _ => simp at hlen

/-- The body starts with two non-empty header rows that fit in the read window and whose
type descriptors are accepted: `newTextRows` returns a decoder whose columns are the first
row split at tabs and whose types are the unquoted columns of the second row, and whose
tokenizer has consumed exactly these two rows: what it has still to deliver is the rest of
the body. -/
theorem newTextRows_two_rows {σ V D : Type} (rd : σ → Nat → ReadResult σ)
    (I : List Byte → Nat → σ → Prop) (hd : Delivers rd I)
    (ru : List Byte → Except Error (List Byte)) (ptd : List Byte → Except Error D)
    (ndp : D → Except Error (DataParser V))
    (h1 h2 rest : List Byte) (k : Nat) (body : σ) (fuel : Nat)
    (unq : List Byte → List Byte) (ps : List (DataParser V))
    (hI : I (h1 ++ LF :: (h2 ++ LF :: rest)) k body)
    (hh1 : h1 ≠ [] ∧ LF ∉ h1 ∧ h1.length + 1 ≤ readBufLen)
    (hh2 : h2 ≠ [] ∧ LF ∉ h2 ∧ h2.length + 1 ≤ readBufLen)
    (hru : ∀ c ∈ splitTabs h2, ru c = .ok (unq c))
    (hps : newTextRows.parsers ptd ndp ((splitTabs h2).map unq) = .ok ps)
    (hfuel : 2 * (h1 ++ LF :: (h2 ++ LF :: rest)).length + k + 2 ≤ fuel) :
    ∃ (t : textRows σ V) (s4 : List Byte) (k4 : Nat),
      newTextRows rd ru ptd ndp fuel body = some (.ok t) ∧
      t.columns = splitTabs h1 ∧ t.types = (splitTabs h2).map unq ∧ t.parsers = ps ∧
      t.tsv.err = none ∧ t.tsv.row = 2 ∧ t.tsv.maxCol = (splitTabs h1).length ∧
      t.tsv.col = (splitTabs h2).length ∧ t.tsv.rowBytes = some h2 ∧
      I s4 k4 t.tsv.r ∧ t.tsv.readSlice ++ s4 = rest ∧
      2 * s4.length + t.tsv.readSlice.length + k4 <
        2 * (h1 ++ LF :: (h2 ++ LF :: rest)).length + k ∧
      t.tsv.readSlice.length ≤ readBufLen := by
  have hsl : (h1 ++ LF :: (h2 ++ LF :: rest)).length =
      h1.length + 1 + (h2.length + 1 + rest.length) := by
    simp
    omega
  obtain ⟨r1, s1, k1, e1, hrow1, hcol1, hmax1, herr1, hrb1, hrs1, hI1, hrest1, hmeas1⟩ :=
    NextRow_yield rd I hd fuel (tsvReader.new body) _ k 0 h1 (h2 ++ LF :: rest) rfl hI
      (by simp [tsvReader.new]) (Or.inl rfl)
      (fun h => by simp [tsvReader.new] at h) hh1.2.1 hh1.2.2
      (by simp only [tsvReader.new, List.length_nil]; omega)
  simp only [tsvReader.new, List.length_nil, Nat.max_self, Nat.zero_add] at hmeas1 hrow1 hmax1
  have hg1 : goAppend (sliceToZero (tsvReader.new body).rowBytes) h1 = some h1 := by
    rw [goAppend_sliceToZero, if_neg (fun h => hh1.1 h.1)]
  rw [hg1] at hrb1 hrs1
  have hn1 := splitTabs_length_le h1
  have hn2 := splitTabs_length_le h2
  have ec := cols_some fuel h1 r1 [] herr1 (by omega) hrs1 (by omega)
  obtain ⟨r3, s3, k3, e3, hrow3, hcol3, hmax3, herr3, hrb3, hrs3, hI3, hrest3, hmeas3⟩ :=
    NextRow_yield rd I hd fuel
      { r1 with col := r1.col + (splitTabs h1).length, rowSlice := none } s1 k1 0 h2 rest
      herr1 hI1 (by simpa using hrest1) (Or.inl rfl) (fun _ => hh2.1) hh2.2.1 hh2.2.2
      (by simp only; omega)
  simp only [hmax1, hcol1, hrow1, Nat.zero_add, hrb1] at hrow3 hmax3 hrb3 hrs3 hmeas3
  have hg3 : goAppend (sliceToZero (some h1)) h2 = some h2 := by
    simp [sliceToZero, goAppend]
  rw [hg3] at hrb3 hrs3
  have et := types_some ru unq fuel h2 r3 [] herr3 (by omega) hrs3 (by omega) hru
  refine ⟨{ tsv := { r3 with col := r3.col + (splitTabs h2).length, rowSlice := none },
            columns := splitTabs h1, types := (splitTabs h2).map unq, parsers := ps },
    s3, k3, ?_, rfl, rfl, rfl, herr3, hrow3, ?_, ?_, hrb3, hI3, hrest3, ?_, ?_⟩
  · unfold newTextRows
    rw [e1]
    simp only [if_true]
    rw [ec]
    simp only
    rw [e3]
    simp only [if_true]
    rw [et]
    simp only [tsvReader.Error, herr3, List.nil_append, hps]
  · simp only [hmax3]
    omega
  · simp only [hcol3, Nat.zero_add]
  · simp only
    omega
  · have hw1 := NextRow_window_le rd I hd fuel (tsvReader.new body) _ k _ hI
      (by simp [tsvReader.new]) e1
    exact NextRow_window_le rd I hd fuel
      { r1 with col := r1.col + (splitTabs h1).length, rowSlice := none } s1 k1 _ hI1 hw1 e3

/-- C18, as amended, for rows that fit in the read window: `newTextRows` aborts on any tokenizer
error: when the first `NextRow` returns false, or the second one does after the first row has
been read, whatever the reader and the reason (a read failure among them), it returns the
tokenizer's error and no decoder. For a delivered body with at most one terminated line
(an empty body, a single terminated row, an unterminated first or second header row) that
error is `io.EOF` when nothing follows the last line feed and the framing error otherwise.
For a delivered body with two non-empty header rows whose type descriptors are accepted,
followed by a row `l3`, it returns a decoder whose `Columns()` are the first row split at
tabs, whose types are the unquoted columns of the second row, and whose first `Next` decodes
the columns of `l3`, the third row: construction has consumed exactly two rows. -/
theorem newTextRows_header {σ ρ V D : Type}
    (ru : List Byte → Except Error (List Byte)) (ptd : List Byte → Except Error D)
    (ndp : D → Except Error (DataParser V))
    (rdF : ρ → Nat → ReadResult ρ) (fuelF : Nat) (bodyF bodyG : ρ)
    (t1 u1 u2 u3 : tsvReader ρ) (cs : List (List Byte))
    (hF : (tsvReader.new bodyF).NextRow rdF fuelF = some (false, t1))
    (hG1 : (tsvReader.new bodyG).NextRow rdF fuelF = some (true, u1))
    (hG2 : readAll.cols fuelF u1 [] = some (cs, u2))
    (hG3 : u2.NextRow rdF fuelF = some (false, u3))
    (rd : σ → Nat → ReadResult σ) (I : List Byte → Nat → σ → Prop) (hd : Delivers rd I)
    (hs : List (List Byte)) (T : List Byte) (kE : Nat) (bodyE : σ) (fuelE : Nat)
    (hIE : I (unlines hs ++ T) kE bodyE) (hlen : hs.length ≤ 1)
    (hhs : ∀ l ∈ hs, LF ∉ l ∧ l.length + 1 ≤ readBufLen) (hT : LF ∉ T)
    (hTfit : T.length ≤ readBufLen) (heof : T.length = readBufLen → EOFOnEmptyBuffer rd I)
    (hfuelE : 2 * (unlines hs ++ T).length + kE + 2 ≤ fuelE)
    (h1 h2 l3 tail : List Byte) (k : Nat) (body : σ) (fuel : Nat)
    (unq : List Byte → List Byte) (ps : List (DataParser V))
    (hI : I (h1 ++ LF :: (h2 ++ LF :: (l3 ++ LF :: tail))) k body)
    (hh1 : h1 ≠ [] ∧ LF ∉ h1 ∧ h1.length + 1 ≤ readBufLen)
    (hh2 : h2 ≠ [] ∧ LF ∉ h2 ∧ h2.length + 1 ≤ readBufLen)
    (hl3 : LF ∉ l3 ∧ l3.length + 1 ≤ readBufLen ∧
      (1 < max (splitTabs h1).length (splitTabs h2).length → l3 ≠ []))
    (hru : ∀ c ∈ splitTabs h2, ru c = .ok (unq c))
    (hps : newTextRows.parsers ptd ndp ((splitTabs h2).map unq) = .ok ps)
    (hfuel : 2 * (h1 ++ LF :: (h2 ++ LF :: (l3 ++ LF :: tail))).length + k + 2 ≤ fuel) :
    (∃ e, t1.Error = some e ∧ newTextRows rdF ru ptd ndp fuelF bodyF = some (.error e)) ∧
      (∃ e, u3.Error = some e ∧ newTextRows rdF ru ptd ndp fuelF bodyG = some (.error e)) ∧
      newTextRows rd ru ptd ndp fuelE bodyE = some (.error (expectErr hs.length T)) ∧
      ∃ t : textRows σ V, newTextRows rd ru ptd ndp fuel body = some (.ok t) ∧
        t.Columns = splitTabs h1 ∧ t.types = (splitTabs h2).map unq ∧ t.parsers = ps ∧
        ∀ dest : List V, (t.Next rd fuel dest).map (fun o => (o.1, o.2.2)) =
          some (decodeRow ps (splitTabs l3) 0 dest) := by
  refine ⟨newTextRows_abort_first rdF ru ptd ndp fuelF bodyF t1 hF,
    newTextRows_abort_second rdF ru ptd ndp fuelF bodyG u1 u2 u3 cs hG1 hG2 hG3,
    newTextRows_short_stream rd I hd ru ptd ndp hs T kE bodyE fuelE hIE hlen hhs hT hTfit heof
      hfuelE, ?_⟩
  obtain ⟨t, s4, k4, e, hc, ht, hp, herr, -, hmax, hcol, hrb, hI4, hrest4, hmeas4, -⟩ :=
    newTextRows_two_rows rd I hd ru ptd ndp h1 h2 (l3 ++ LF :: tail) k body fuel unq ps hI
      hh1 hh2 hru hps hfuel
  refine ⟨t, e, hc, ht, hp, ?_⟩
  intro dest
  have hsl : (h1 ++ LF :: (h2 ++ LF :: (l3 ++ LF :: tail))).length =
      h1.length + 1 + (h2.length + 1 + (l3.length + 1 + tail.length)) := by
    simp
    omega
  rw [hsl] at hmeas4 hfuel
  obtain ⟨r5, s5, k5, e5, -, -, -, -, -, hrs5, -, -, -⟩ :=
    NextRow_yield rd I hd fuel t.tsv s4 k4 0 l3 tail herr hI4 (by simpa using hrest4)
      (Or.inl rfl) (by rw [hmax, hcol]; exact hl3.2.2) hl3.1 hl3.2.1 (by omega)
  have hg : goAppend (sliceToZero t.tsv.rowBytes) l3 = some l3 := by
    rw [hrb]
    simp [sliceToZero, goAppend]
  rw [hg] at hrs5
  have hcols : nextRowCols rd fuel t.tsv = some (splitTabs l3) := by
    unfold nextRowCols
    rw [e5]
    simp [pendingCols, hrs5]
  have hn3 := splitTabs_length_le l3
  rw [← hp]
  exact Next_eq_decodeRow rd fuel t dest (splitTabs l3) hcols (by omega)

/-- Witness for C18. A reader that fails with `boom` at once, and one that first delivers
`"n\n"`: `newTextRows` returns `failed to read row #1: boom` and `failed to read row #2: boom`.
The body `"n\tm\n"`, a single terminated row: `io.EOF`. The body `"n\tm\nT\tU\n4\t2\n"`: a
decoder with the columns `n`, `m`, whose first `Next` decodes `4`, `2`. -/
theorem newTextRows_header_witness :
    (∃ e, (tsvReader.mk 1 0 0 [] none none 1
          (some (Error.failedRead 1 (Error.New "boom")))).Error = some e ∧
        newTextRows (V := Nat)
          (fun (i : Nat) (_ : Nat) =>
            if i = 0 then ReadResult.mk [110, 10] none 1
            else ReadResult.mk [] (some (Error.New "boom")) i)
          (fun b => .ok b) (fun b => Except.ok b) (fun _ => .ok digitParser) 3 1 =
          some (.error e)) ∧
    (∃ e, (tsvReader.mk 2 0 1 [] (some []) none 1
          (some (Error.failedRead 2 (Error.New "boom")))).Error = some e ∧
        newTextRows (V := Nat)
          (fun (i : Nat) (_ : Nat) =>
            if i = 0 then ReadResult.mk [110, 10] none 1
            else ReadResult.mk [] (some (Error.New "boom")) i)
          (fun b => .ok b) (fun b => Except.ok b) (fun _ => .ok digitParser) 3 0 =
          some (.error e)) ∧
    newTextRows (V := Nat) stringsReader.Read (fun b => .ok b) (fun b => Except.ok b)
        (fun _ => .ok digitParser) 10 (stringsReader.NewReader [110, 9, 109, 10]) =
      some (.error Error.EOF) ∧
    ∃ t : textRows stringsReader Nat,
      newTextRows stringsReader.Read (fun b => .ok b) (fun b => Except.ok b)
          (fun _ => .ok digitParser) 26
          (stringsReader.NewReader [110, 9, 109, 10, 84, 9, 85, 10, 52, 9, 50, 10]) =
        some (.ok t) ∧
      t.Columns = [[110], [109]] ∧ t.types = [[84], [85]] ∧
      t.parsers = [digitParser, digitParser] ∧
      ∀ dest : List Nat, (t.Next stringsReader.Read 26 dest).map (fun o => (o.1, o.2.2)) =
        some (decodeRow [digitParser, digitParser] [[52], [50]] 0 dest) :=
  newTextRows_header (fun b => .ok b) (fun b => Except.ok b) (fun _ => .ok digitParser)
    (fun (i : Nat) (_ : Nat) =>
      if i = 0 then ReadResult.mk [110, 10] none 1
      else ReadResult.mk [] (some (Error.New "boom")) i)
    3 1 0 _ _ _ _ _ rfl rfl rfl rfl
    stringsReader.Read stringsReader.Inv stringsReader_delivers
    [[110, 9, 109]] [] 0 (stringsReader.NewReader [110, 9, 109, 10]) 10
    (stringsReader_inv_new _ 0) (by decide) (by decide) (by decide) (by decide)
    (fun h => absurd h (by decide)) (by decide)
    [110, 9, 109] [84, 9, 85] [52, 9, 50] [] 0
    (stringsReader.NewReader [110, 9, 109, 10, 84, 9, 85, 10, 52, 9, 50, 10]) 26
    (fun b => b) [digitParser, digitParser] (stringsReader_inv_new _ 0)
    (by decide) (by decide) (by decide) (fun _ _ => rfl) rfl (by decide)

/-- On a single row of 16384 bytes and a line feed the first `NextRow` never returns. -/
theorem long_header_hang (fuel : Nat) :
    (tsvReader.new (stringsReader.NewReader longRow)).NextRow stringsReader.Read fuel = none :=
  NextRow_hang stringsReader.Read stringsReader.Inv stringsReader_delivers fuel
      (tsvReader.new (stringsReader.NewReader longRow)) longRow 0
      (List.replicate readBufLen 97) [LF] rfl (stringsReader_inv_new _ 0)
      (by simp [tsvReader.new, longRow])
      (by simp [List.mem_replicate, LF])
      (by simp) (by simp) (by simp [tsvReader.new])

/-- The same with a type row behind the long row. -/
theorem long_header_hang2 (fuel : Nat) :
    (tsvReader.new (stringsReader.NewReader longHeader)).NextRow
      stringsReader.Read fuel = none :=
  NextRow_hang stringsReader.Read stringsReader.Inv stringsReader_delivers fuel
      (tsvReader.new (stringsReader.NewReader longHeader)) longHeader 0
      (List.replicate readBufLen 97) [LF, 84, LF] rfl (stringsReader_inv_new _ 0)
      (by simp [tsvReader.new, longHeader])
      (by simp [List.mem_replicate, LF])
      (by simp) (by simp) (by simp [tsvReader.new])

/-- Counterexample to C18 as stated, a header row that does not fit in the read window: on the
body of 16384 bytes `a` and a line feed, a single terminated row, and on the same row
followed by the type row `"T\n"`, `newTextRows` returns for no amount of fuel, neither a
decoder nor an error: the first `NextRow` never returns. -/
theorem newTextRows_long_header_never_returns :
    ¬ ∃ fuel : Nat,
      (newTextRows stringsReader.Read (fun b => .ok b) (fun b => Except.ok b)
        (fun _ => .ok digitParser) fuel (stringsReader.NewReader longRow)).isSome = true ∨
      (newTextRows stringsReader.Read (fun b => .ok b) (fun b => Except.ok b)
        (fun _ => .ok digitParser) fuel
        (stringsReader.NewReader longHeader)).isSome = true := by
  rintro ⟨fuel, h | h⟩
  · unfold newTextRows at h
    rw [long_header_hang fuel] at h
    simp at h
  · unfold newTextRows at h
    rw [long_header_hang2 fuel] at h
    simp at h

/-! ## `textRows.Next` on a row that the reader delivers -/

/-- The columns of the next row, when the bytes still to come, in the window and from a
delivering reader, start with a line that fits in the read window together with its line
feed, and that is neither an empty line which the policy skips nor an empty line yielded
while `rowBytes` is still nil: `NextRow` returns true within the fuel and the columns are
the line split at tabs. -/
theorem nextRowCols_delivered {σ : Type} (rd : σ → Nat → ReadResult σ)
    (I : List Byte → Nat → σ → Prop) (hd : Delivers rd I) (fuel : Nat) (r : tsvReader σ)
    (s : List Byte) (k : Nat) (line tail : List Byte)
    (herr : r.err = none) (hI : I s k r.r)
    (hrest : r.readSlice ++ s = line ++ LF :: tail)
    (hskip : 1 < max r.maxCol r.col → line ≠ [])
    (hbuf : r.rowBytes.isSome = true ∨ line ≠ [])
    (hline : LF ∉ line) (hfit : line.length + 1 ≤ readBufLen)
    (hf : 2 * s.length + r.readSlice.length + k < fuel) :
    nextRowCols rd fuel r = some (splitTabs line) ∧ (splitTabs line).length < fuel := by
  obtain ⟨r1, s1, k1, e1, -, -, -, -, -, hrs, -, -, -⟩ :=
    NextRow_yield rd I hd fuel r s k 0 line tail herr hI (by simpa using hrest)
      (Or.inl rfl) hskip hline hfit hf
  have hg : goAppend (sliceToZero r.rowBytes) line = some line := by
    rw [goAppend_sliceToZero, if_neg]
    rintro ⟨h1, h2⟩
    rcases hbuf with h | h
    · rw [h] at h2; simp at h2
    · exact h h1
  rw [hg] at hrs
  refine ⟨?_, ?_⟩
  · unfold nextRowCols
    rw [e1]
    simp [pendingCols, hrs]
  · have h1 := splitTabs_length_le line
    have h2 := congrArg List.length hrest
    simp only [List.length_append, List.length_cons] at h2
    omega

/-- A data row that does not fit in the read window: `Next` does not return, whatever the
fuel. -/
theorem Next_hang {σ V : Type} (rd : σ → Nat → ReadResult σ)
    (I : List Byte → Nat → σ → Prop) (hd : Delivers rd I) (fuel : Nat) (t : textRows σ V)
    (dest : List V) (s : List Byte) (k : Nat) (long rest : List Byte)
    (herr : t.tsv.err = none) (hI : I s k t.tsv.r)
    (hrest : t.tsv.readSlice ++ s = long ++ rest) (hlong : LF ∉ long)
    (hlen : readBufLen ≤ long.length) (hne : rest ≠ [])
    (hw : t.tsv.readSlice.length ≤ readBufLen) : t.Next rd fuel dest = none := by
  unfold textRows.Next
  rw [NextRow_hang rd I hd fuel t.tsv s k long rest herr hI hrest hlong hlen hne hw]

/-- A body with two header rows and then a data row that does not fit in the read window:
`newTextRows` returns a decoder, and `Next` on that decoder does not return. -/
theorem newTextRows_then_hang {σ V D : Type} (rd : σ → Nat → ReadResult σ)
    (I : List Byte → Nat → σ → Prop) (hd : Delivers rd I)
    (ru : List Byte → Except Error (List Byte)) (ptd : List Byte → Except Error D)
    (ndp : D → Except Error (DataParser V))
    (h1 h2 long : List Byte) (k : Nat) (body : σ) (fuel0 : Nat)
    (unq : List Byte → List Byte) (ps : List (DataParser V))
    (hI : I (h1 ++ LF :: (h2 ++ LF :: (long ++ [LF]))) k body)
    (hh1 : h1 ≠ [] ∧ LF ∉ h1 ∧ h1.length + 1 ≤ readBufLen)
    (hh2 : h2 ≠ [] ∧ LF ∉ h2 ∧ h2.length + 1 ≤ readBufLen)
    (hru : ∀ c ∈ splitTabs h2, ru c = .ok (unq c))
    (hps : newTextRows.parsers ptd ndp ((splitTabs h2).map unq) = .ok ps)
    (hlong : LF ∉ long) (hlen : readBufLen ≤ long.length)
    (hfuel : 2 * (h1 ++ LF :: (h2 ++ LF :: (long ++ [LF]))).length + k + 2 ≤ fuel0) :
    ∃ t : textRows σ V, newTextRows rd ru ptd ndp fuel0 body = some (.ok t) ∧
      t.parsers = ps ∧ ∀ (fuel : Nat) (dest : List V), t.Next rd fuel dest = none := by
  obtain ⟨t, s4, k4, e, -, -, hp, herr, -, -, -, -, hI4, hrest4, -, hw⟩ :=
    newTextRows_two_rows rd I hd ru ptd ndp h1 h2 (long ++ [LF]) k body fuel0 unq ps hI
      hh1 hh2 hru hps hfuel
  exact ⟨t, e, hp, fun fuel dest =>
    Next_hang rd I hd fuel t dest s4 k4 long [LF] herr hI4 hrest4 hlong hlen (by simp) hw⟩

/-- C8, as amended: for every decoder with `n` column parsers whose tokenizer has no error,
every `dest` of length at least `n`, and every next data row that the reader delivers, that
fits in the read window together with its line feed, and that has exactly `n` columns each
of which its column's parser accepts and reads completely, `textRows.Next` returns, with
nil, and `dest` afterwards holds at every position `i < n` the value parser `i` returns for
the raw bytes of column `i`, its positions from `n` on unchanged. The row is the line the
tokenizer has next: not an empty line that the empty-line policy skips, and not an empty
line met while `rowBytes` is still nil. -/
theorem Next_decodes_row {σ V : Type} (rd : σ → Nat → ReadResult σ)
    (I : List Byte → Nat → σ → Prop) (hd : Delivers rd I) (fuel : Nat)
    (t : textRows σ V) (dest : List V) (s : List Byte) (k : Nat) (line tail : List Byte)
    (herr : t.tsv.err = none) (hI : I s k t.tsv.r)
    (hrest : t.tsv.readSlice ++ s = line ++ LF :: tail)
    (hskip : 1 < max t.tsv.maxCol t.tsv.col → line ≠ [])
    (hbuf : t.tsv.rowBytes.isSome = true ∨ line ≠ [])
    (hline : LF ∉ line) (hfit : line.length + 1 ≤ readBufLen)
    (hn : (splitTabs line).length = t.parsers.length)
    (hdest : t.parsers.length ≤ dest.length)
    (hparse : ∀ (i : Nat) (p : DataParser V) (c : List Byte),
      t.parsers[i]? = some p → (splitTabs line)[i]? = some c →
        (p.Parse c).err = none ∧ (p.Parse c).consumed = c.length)
    (hfuel : 2 * s.length + t.tsv.readSlice.length + k < fuel) :
    (t.Next rd fuel dest).map (fun o => (o.1, o.2.2)) =
      some (NextResult.ret none,
        List.zipWith (fun p c => (p.Parse c).v) t.parsers (splitTabs line) ++
          dest.drop t.parsers.length) := by
  obtain ⟨hrow, hlt⟩ := nextRowCols_delivered rd I hd fuel t.tsv s k line tail herr hI hrest
    hskip hbuf hline hfit hfuel
  exact Next_decodes_cols rd fuel t dest (splitTabs line) hrow hn hdest hparse hlt

/-- Witness for C8: the stream `"n\tm\nT\tU\n4\t2\n"` behind a `strings.Reader`, whose data
row decodes to 4 and 2 into a `dest` of three positions. -/
theorem Next_decodes_row_witness :
    ((exampleRows [52, 9, 50, 10]).Next stringsReader.Read 8 [0, 0, 9]).map
        (fun o => (o.1, o.2.2)) =
      some (NextResult.ret none, [4, 2, 9]) :=
  Next_decodes_row stringsReader.Read stringsReader.Inv stringsReader_delivers 8
    (exampleRows [52, 9, 50, 10]) [0, 0, 9] [] 0 [52, 9, 50] [] rfl rfl rfl
    (by decide) (by decide) (by decide) (by decide) (by decide) (by decide)
    (by
      intro i p c h1 h2
      rcases i with _ | _ | i
      · simp [exampleRows] at h1
        subst h1
        have h3 : c = [52] := by
          have : (splitTabs [52, 9, 50])[0]? = some [52] := by decide
          rw [this] at h2
          exact (Option.some.inj h2).symm
        subst h3
        decide
      · simp [exampleRows] at h1
        subst h1
        have h3 : c = [50] := by
          have : (splitTabs [52, 9, 50])[1]? = some [50] := by decide
          rw [this] at h2
          exact (Option.some.inj h2).symm
        subst h3
        decide
      · simp [exampleRows] at h1)
    (by decide)

/-- Counterexample to C8 as stated: the body `"n\nT\n"`, 16384 bytes `a`, line feed, behind a
`strings.Reader`. `newTextRows` returns a decoder with one column parser that accepts every
column and reads all of it; the next data row has one column, which that parser accepts and
reads completely, and `dest` has one position; yet `Next` returns for no amount of fuel, so
it neither returns nil nor writes `dest[0]`. -/
theorem Next_long_row_never_returns :
    ∃ t : textRows stringsReader Nat,
      newTextRows stringsReader.Read (fun b => .ok b) (fun b => Except.ok b)
          (fun _ => .ok lengthParser) 40000
          (stringsReader.NewReader ([110, 10, 84, 10] ++ longRow)) = some (.ok t) ∧
        t.parsers = [lengthParser] ∧
        ((lengthParser.Parse (List.replicate readBufLen 97)).err = none ∧
          (lengthParser.Parse (List.replicate readBufLen 97)).consumed =
            (List.replicate readBufLen 97).length) ∧
        ¬ ∃ fuel : Nat, (t.Next stringsReader.Read fuel [0]).isSome = true := by
  obtain ⟨t, e, hp, hnone⟩ := newTextRows_then_hang stringsReader.Read stringsReader.Inv
    stringsReader_delivers (fun b => .ok b) (fun b => Except.ok b)
    (fun _ => .ok lengthParser) [110] [84] (List.replicate readBufLen 97) 0
    (stringsReader.NewReader ([110, 10, 84, 10] ++ longRow)) 40000 (fun b => b) [lengthParser]
    (stringsReader_inv_new _ 0) (by decide) (by decide) (fun _ _ => rfl) rfl
    (by simp [List.mem_replicate, LF]) (by simp)
    (by
      simp only [List.length_append, List.length_cons, List.length_replicate,
        List.length_nil, readBufLen]
      omega)
  refine ⟨t, e, hp, ⟨rfl, rfl⟩, ?_⟩
  rintro ⟨fuel, h⟩
  rw [hnone fuel [0]] at h
  simp at h

/-- C9, as amended: for every decoder whose tokenizer has no error and every next data row
that the reader delivers and that fits in the read window together with its line feed, in
which the columns before some column are accepted and read completely by their parsers, that
column has a parser, `dest` reaches as far as the columns before it, and that column's parser
succeeds but leaves at least one byte of the raw column unread: `textRows.Next` returns, with
the error `trailing data after parsing the value`; the value of that column is not written
to `dest`, which is unchanged from that column's position on, while the values of the columns
before it have been written. The row is the line the tokenizer has next: not an empty line
that the empty-line policy skips, and not an empty line met while `rowBytes` is still nil. -/
theorem Next_trailing_data {σ V : Type} (rd : σ → Nat → ReadResult σ)
    (I : List Byte → Nat → σ → Prop) (hd : Delivers rd I) (fuel : Nat)
    (t : textRows σ V) (dest : List V) (s : List Byte) (k : Nat) (line tail : List Byte)
    (pre : List (List Byte)) (c : List Byte) (post : List (List Byte)) (p : DataParser V)
    (herr : t.tsv.err = none) (hI : I s k t.tsv.r)
    (hrest : t.tsv.readSlice ++ s = line ++ LF :: tail)
    (hskip : 1 < max t.tsv.maxCol t.tsv.col → line ≠ [])
    (hbuf : t.tsv.rowBytes.isSome = true ∨ line ≠ [])
    (hline : LF ∉ line) (hfit : line.length + 1 ≤ readBufLen)
    (hcols : splitTabs line = pre ++ c :: post)
    (hpre : ∀ (i : Nat) (q : DataParser V) (b : List Byte),
      t.parsers[i]? = some q → pre[i]? = some b →
        (q.Parse b).err = none ∧ (q.Parse b).consumed = b.length)
    (hp : t.parsers[pre.length]? = some p) (hok : (p.Parse c).err = none)
    (htrail : (p.Parse c).consumed < c.length) (hdest : pre.length ≤ dest.length)
    (hfuel : 2 * s.length + t.tsv.readSlice.length + k < fuel) :
    (t.Next rd fuel dest).map (fun o => (o.1, o.2.2)) =
      some (NextResult.ret (some (Error.New "trailing data after parsing the value")),
        List.zipWith (fun q b => (q.Parse b).v) t.parsers pre ++ dest.drop pre.length) := by
  obtain ⟨hrow, hlt⟩ := nextRowCols_delivered rd I hd fuel t.tsv s k line tail herr hI hrest
    hskip hbuf hline hfit hfuel
  rw [hcols] at hrow hlt
  exact Next_trailing_data_cols rd fuel t dest pre c post p hrow hpre hp hok htrail hdest hlt

/-- Witness for C9: the stream `"n\tm\nT\tU\n4\t23\n"` behind a `strings.Reader`; the digit
parser reads `2` of the second column and leaves `3`. -/
theorem Next_trailing_data_witness :
    ((exampleRows [52, 9, 50, 51, 10]).Next stringsReader.Read 8 [0, 0]).map
        (fun o => (o.1, o.2.2)) =
      some (NextResult.ret (some (Error.New "trailing data after parsing the value")),
        [4, 0]) :=
  Next_trailing_data stringsReader.Read stringsReader.Inv stringsReader_delivers 8
    (exampleRows [52, 9, 50, 51, 10]) [0, 0] [] 0 [52, 9, 50, 51] [] [[52]] [50, 51] []
    digitParser rfl rfl rfl (by decide) (by decide) (by decide) (by decide) (by decide)
    (by
      intro i q b h1 h2
      rcases i with _ | i
      · simp [exampleRows] at h1 h2
        subst h1 h2
        decide
      · simp at h2)
    rfl (by decide) (by decide) (by decide) (by decide)

/-- The digit parser on a column of 16384 digits `4`: it succeeds and leaves bytes unread. -/
theorem digitParser_long :
    (digitParser.Parse (List.replicate readBufLen 52)).err = none ∧
      (digitParser.Parse (List.replicate readBufLen 52)).consumed <
        (List.replicate readBufLen 52).length := by
  have h : List.replicate readBufLen 52 = 52 :: List.replicate (readBufLen - 1) 52 := by
    rw [← List.replicate_succ]
    rfl
  rw [h]
  refine ⟨rfl, ?_⟩
  show 1 < _
  simp only [List.length_cons, List.length_replicate, readBufLen]
  omega

/-- Counterexample to C9 as stated. On `"x\t23"` the parser of the second column succeeds
and leaves `3` unread, yet `Next` returns the parser error of the first column. On
`"45\t67"` the same holds for the second column, and `Next` returns the trailing-data error
for the first column, so the column before the second one has not been written. On
`"4\t23"` with an empty `dest` the call ends with an index out of range. And on the body
`"n\nT\n"`, 16384 digits `4`, line feed, behind a `strings.Reader`, the parser of the only
column succeeds and leaves bytes unread, yet `Next` returns for no amount of fuel. -/
theorem Next_trailing_data_not_reported :
    ((digitParser.Parse [50, 51]).err = none ∧ (digitParser.Parse [50, 51]).consumed < 2 ∧
      ((exampleRows [120, 9, 50, 51, 10]).Next stringsReader.Read 8 [0, 0]).map
          (fun o => (o.1, o.2.2)) =
        some (NextResult.ret (some (Error.New "not a digit")), [0, 0]) ∧
      (digitParser.Parse [54, 55]).err = none ∧ (digitParser.Parse [54, 55]).consumed < 2 ∧
      ((exampleRows [52, 53, 9, 54, 55, 10]).Next stringsReader.Read 8 [0, 0]).map
          (fun o => (o.1, o.2.2)) =
        some (NextResult.ret (some (Error.New "trailing data after parsing the value")),
          [0, 0]) ∧
      ((exampleRows [52, 9, 50, 51, 10]).Next stringsReader.Read 8 []).map
          (fun o => (o.1, o.2.2)) =
        some (NextResult.indexOutOfRange, [])) ∧
    ∃ t : textRows stringsReader Nat,
      newTextRows stringsReader.Read (fun b => .ok b) (fun b => Except.ok b)
          (fun _ => .ok digitParser) 40000
          (stringsReader.NewReader ([110, 10, 84, 10] ++ longDigitRow)) = some (.ok t) ∧
        t.parsers = [digitParser] ∧
        ((digitParser.Parse (List.replicate readBufLen 52)).err = none ∧
          (digitParser.Parse (List.replicate readBufLen 52)).consumed <
            (List.replicate readBufLen 52).length) ∧
        ¬ ∃ fuel : Nat, (t.Next stringsReader.Read fuel [0]).isSome = true := by
  refine ⟨by decide, ?_⟩
  obtain ⟨t, e, hp, hnone⟩ := newTextRows_then_hang stringsReader.Read stringsReader.Inv
    stringsReader_delivers (fun b => .ok b) (fun b => Except.ok b)
    (fun _ => .ok digitParser) [110] [84] (List.replicate readBufLen 52) 0
    (stringsReader.NewReader ([110, 10, 84, 10] ++ longDigitRow)) 40000 (fun b => b)
    [digitParser] (stringsReader_inv_new _ 0) (by decide) (by decide) (fun _ _ => rfl) rfl
    (by simp [List.mem_replicate, LF]) (by simp)
    (by
      simp only [List.length_append, List.length_cons, List.length_replicate,
        List.length_nil, readBufLen]
      omega)
  refine ⟨t, e, hp, digitParser_long, ?_⟩
  rintro ⟨fuel, h⟩
  rw [hnone fuel [0]] at h
  simp at h

/-- C16, as amended: `textRows.Next` does not compare the number of columns of a data row
with the schema. For every decoder whose tokenizer has no error and every next data row that
the reader delivers, that fits in the read window together with its line feed, and whose
columns are each accepted and read completely by the parser at their position (as far as
there is one): `Next` returns, with nil and every index within bounds, if and only if the
number of columns is at most `min(len(parsers), len(dest))`, and otherwise ends with an index
out of range, at position `i = min(len(parsers), len(dest))`; in both cases the values of the
first `min(columns, len(parsers), len(dest))` columns have been written and the later
positions of `dest` are as they were. So a row with more columns than the parser list, with
`dest` at least as long as that list, panics on `parsers[i]` for `i = len(parsers)`, where no
parser exists, and a row with fewer columns than the schema returns nil with the remaining
positions of `dest` unwritten. The row is the line the tokenizer has next: not an empty line
that the empty-line policy skips, and not an empty line met while `rowBytes` is still nil. -/
theorem Next_no_column_count_check {σ V : Type} (rd : σ → Nat → ReadResult σ)
    (I : List Byte → Nat → σ → Prop) (hd : Delivers rd I) (fuel : Nat)
    (t : textRows σ V) (dest : List V) (s : List Byte) (k : Nat) (line tail : List Byte)
    (herr : t.tsv.err = none) (hI : I s k t.tsv.r)
    (hrest : t.tsv.readSlice ++ s = line ++ LF :: tail)
    (hskip : 1 < max t.tsv.maxCol t.tsv.col → line ≠ [])
    (hbuf : t.tsv.rowBytes.isSome = true ∨ line ≠ [])
    (hline : LF ∉ line) (hfit : line.length + 1 ≤ readBufLen)
    (hparse : ∀ (i : Nat) (p : DataParser V) (c : List Byte),
      t.parsers[i]? = some p → (splitTabs line)[i]? = some c →
        (p.Parse c).err = none ∧ (p.Parse c).consumed = c.length)
    (hfuel : 2 * s.length + t.tsv.readSlice.length + k < fuel) :
    (t.Next rd fuel dest).map (fun o => (o.1, o.2.2)) =
        some (if (splitTabs line).length ≤ min t.parsers.length dest.length then
              NextResult.ret none
            else NextResult.indexOutOfRange,
          List.zipWith (fun p c => (p.Parse c).v) t.parsers
              ((splitTabs line).take (min t.parsers.length dest.length)) ++
            dest.drop (min (splitTabs line).length (min t.parsers.length dest.length))) ∧
      (t.parsers.length < (splitTabs line).length → t.parsers.length ≤ dest.length →
        t.parsers[min t.parsers.length dest.length]? = none ∧
        (t.Next rd fuel dest).map (fun o => (o.1, o.2.2)) =
          some (NextResult.indexOutOfRange,
            List.zipWith (fun p c => (p.Parse c).v) t.parsers (splitTabs line) ++
              dest.drop t.parsers.length)) ∧
      ((splitTabs line).length < t.parsers.length → (splitTabs line).length ≤ dest.length →
        (t.Next rd fuel dest).map (fun o => (o.1, o.2.2)) =
          some (NextResult.ret none,
            List.zipWith (fun p c => (p.Parse c).v) t.parsers (splitTabs line) ++
              dest.drop (splitTabs line).length)) := by
  obtain ⟨hrow, hlt⟩ := nextRowCols_delivered rd I hd fuel t.tsv s k line tail herr hI hrest
    hskip hbuf hline hfit hfuel
  exact Next_column_count_cols rd fuel t dest (splitTabs line) hrow hparse hlt

/-- Witness for C16: the stream `"n\tm\nT\tU\n4\t2\t3\n"` behind a `strings.Reader`, a data
row of three columns for two parsers and a `dest` of three positions. `Next` writes 4 and 2
and then ends with an index out of range at `parsers[2]`. -/
theorem Next_no_column_count_check_witness :
    ((exampleRows [52, 9, 50, 9, 51, 10]).Next stringsReader.Read 8 [0, 0, 0]).map
        (fun o => (o.1, o.2.2)) =
      some (NextResult.indexOutOfRange, [4, 2, 0]) ∧
    (2 < 3 → 2 ≤ 3 →
      (exampleRows [52, 9, 50, 9, 51, 10]).parsers[2]? = none ∧
      ((exampleRows [52, 9, 50, 9, 51, 10]).Next stringsReader.Read 8 [0, 0, 0]).map
          (fun o => (o.1, o.2.2)) =
        some (NextResult.indexOutOfRange, [4, 2, 0])) ∧
    (3 < 2 → 3 ≤ 3 →
      ((exampleRows [52, 9, 50, 9, 51, 10]).Next stringsReader.Read 8 [0, 0, 0]).map
          (fun o => (o.1, o.2.2)) =
        some (NextResult.ret none, [4, 2])) :=
  Next_no_column_count_check stringsReader.Read stringsReader.Inv stringsReader_delivers 8
    (exampleRows [52, 9, 50, 9, 51, 10]) [0, 0, 0] [] 0 [52, 9, 50, 9, 51] [] rfl rfl rfl
    (by decide) (by decide) (by decide) (by decide)
    (by
      intro i p c h1 h2
      have hc : splitTabs [52, 9, 50, 9, 51] = [[52], [50], [51]] := by decide
      rw [hc] at h2
      rcases i with _ | _ | i
      · simp [exampleRows] at h1 h2
        subst h1 h2
        decide
      · simp [exampleRows] at h1 h2
        subst h1 h2
        decide
      · simp [exampleRows] at h1)
    (by decide)

/-- Counterexample to C16 as stated. A parser that rejects a column: the data row
`"x\t1\t2"` has three columns for two parsers, yet `Next` returns the parser error of the
first column and no index leaves its bounds; with a `dest` of one position the row `"4\tx"`
has more columns than `min(len(parsers), len(dest))` and `Next` returns the parser error of
its second column; the data row `"x"` has fewer columns than the schema and `Next` returns
the parser error, not nil. A row that does not fit in the read window: on the body
`"n\tm\nT\tU\n"`, 16384 bytes `a`, line feed, behind a `strings.Reader`, the data row has one
column, fewer than the two parsers, which accept every column, yet `Next` returns for no
amount of fuel, so it does not return nil. -/
theorem Next_parser_error_within_bounds :
    (nextRowCols stringsReader.Read 8 (exampleRows [120, 9, 49, 9, 50, 10]).tsv =
        some [[120], [49], [50]] ∧
      (exampleRows [120, 9, 49, 9, 50, 10]).parsers.length = 2 ∧
      ((exampleRows [120, 9, 49, 9, 50, 10]).Next stringsReader.Read 8 [0, 0, 0]).map
          (fun o => (o.1, o.2.2)) =
        some (NextResult.ret (some (Error.New "not a digit")), [0, 0, 0]) ∧
      nextRowCols stringsReader.Read 8 (exampleRows [52, 9, 120, 10]).tsv =
        some [[52], [120]] ∧
      ((exampleRows [52, 9, 120, 10]).Next stringsReader.Read 8 [0]).map
          (fun o => (o.1, o.2.2)) =
        some (NextResult.ret (some (Error.New "not a digit")), [4]) ∧
      nextRowCols stringsReader.Read 8 (exampleRows [120, 10]).tsv = some [[120]] ∧
      ((exampleRows [120, 10]).Next stringsReader.Read 8 [0, 0]).map
          (fun o => (o.1, o.2.2)) =
        some (NextResult.ret (some (Error.New "not a digit")), [0, 0])) ∧
    ∃ t : textRows stringsReader Nat,
      newTextRows stringsReader.Read (fun b => .ok b) (fun b => Except.ok b)
          (fun _ => .ok lengthParser) 40000
          (stringsReader.NewReader (exampleHeader ++ longRow)) = some (.ok t) ∧
        t.parsers = [lengthParser, lengthParser] ∧
        ¬ ∃ fuel : Nat, (t.Next stringsReader.Read fuel [0, 0]).isSome = true := by
  refine ⟨by decide, ?_⟩
  obtain ⟨t, e, hp, hnone⟩ := newTextRows_then_hang stringsReader.Read stringsReader.Inv
    stringsReader_delivers (fun b => .ok b) (fun b => Except.ok b)
    (fun _ => .ok lengthParser) [110, 9, 109] [84, 9, 85] (List.replicate readBufLen 97) 0
    (stringsReader.NewReader (exampleHeader ++ longRow)) 40000 (fun b => b)
    [lengthParser, lengthParser] (stringsReader_inv_new _ 0) (by decide) (by decide)
    (fun _ _ => rfl) rfl (by simp [List.mem_replicate, LF]) (by simp)
    (by
      simp only [List.length_append, List.length_cons, List.length_replicate,
        List.length_nil, readBufLen]
      omega)
  refine ⟨t, e, hp, ?_⟩
  rintro ⟨fuel, h⟩
  rw [hnone fuel [0, 0]] at h
  simp at h

end Clickhouse
